import Mathlib

/-!
The program occupy.c, a cache latency test.

A shallow embedding of `src/occupy.c`.

Conventions of the embedding.

* A C `int` is an integer of the range `-2^31 .. 2^31-1`; a computation on ints
  whose mathematical result leaves that range has no defined behaviour in C.
* `size_t`, `uint64_t` and `unsigned long long` are naturals below `2^64`,
  every operation on them is followed by an explicit `% 2^64`.
* A `double` is represented by the rational it denotes.  The conversion of a
  64-bit integer to `double` rounds to the 53-bit significand (`toDouble`); the
  division by the power of two `ITERS * 512` is exact on doubles of this range.
  The sums and the quotient of `mean` are taken in exact arithmetic.
* An array is a list; a read or a write outside the list has no defined
  behaviour.  Functions whose C behaviour can be undefined return an `Option`
  (`none` is "undefined") or end with `End.undefined`.
* What the host decides (the result of `sched_setaffinity`, of the two
  `calloc` calls, the values of `lrand48`, the samples of the cycle counter) is
  an explicit argument, the record `Host`.
* The heap is the list of the blocks obtained from `calloc` and not released;
  the functions whose names end in `_heap` are the functions of the sweep with
  the heap as an additional argument and result.
-/

namespace Occupy

/-- Largest value of a C `int`. -/
def INT_MAX : Nat := 2147483647

/-- Number of values of a 64-bit unsigned integer. -/
def U64 : Nat := 2 ^ 64

/-! ## shuffle -/

/-- Body of the inner loop of `shuffle`, for the counter value `i`, where `r`
is the value returned by the call of `lrand48`:
`int v = idx[i]; int ii = (i+1) + (r % (n-(i+1))); idx[i] = idx[ii]; idx[ii] = v;`.
The remainder is the truncating remainder of C; a zero divisor and an index
outside the array are undefined. -/
def shuffleBody (r : Nat) (n : Int) (idx : List Int) (i : Nat) : Option (List Int) :=
  let d : Int := n - ((i : Int) + 1)
  if d = 0 then none
  else
    let ii : Int := ((i : Int) + 1) + (r : Int).tmod d
    if ii < 0 then none
    else
      match idx[i]?, idx[ii.toNat]? with
      | some v, some w => some ((idx.set i w).set ii.toNat v)
      | _, _ => none

/-- Inner loop of `shuffle`: `for (int i = 0; i < n-1; i++) body`.  The state is
the array together with the number of calls of `lrand48` made so far. -/
def shufflePass (rnd : Nat → Nat) (n : Int) (s : List Int × Nat) : Option (List Int × Nat) :=
  (List.range (n - 1).toNat).foldlM
    (fun s i => (shuffleBody (rnd s.2) n s.1 i).map (fun a => (a, s.2 + 1))) s

/-- The function `shuffle(idx, n)`: `(1<<4)` passes of the inner loop.  The
result is the array after the call; `rnd k` is the value returned by the
`k`-th call of `lrand48`. -/
def shuffle (rnd : Nat → Nat) (idx : List Int) (n : Int) : Option (List Int) :=
  ((List.range (1 <<< 4)).foldlM (fun s _ => shufflePass rnd n s) (idx, 0)).map Prod.fst

/-! ## The node arena and the unrolled traversal -/

/-- A pointer to a node of the arena: `none` is the null pointer, `some k` is
`&nodes[k]`. -/
abbrev Ptr := Option Nat

/-- The arena `nodes`: entry `k` is the field `nodes[k].next`. -/
abbrev Arena := List Ptr

/-- The macro `_next(_item)`: `(_item) = (_item)->next`.  The result is the new
value of `_item`; reading through a null pointer or outside the arena is
undefined. -/
def _next (nodes : Arena) (item : Ptr) : Option Ptr :=
  match item with
  | none => none
  | some k => nodes[k]?

/-- The macro `_next8(_item)`: eight times `_next`. -/
def _next8 (nodes : Arena) (item : Ptr) : Option Ptr :=
  _next nodes item >>= _next nodes >>= _next nodes >>= _next nodes >>=
  _next nodes >>= _next nodes >>= _next nodes >>= _next nodes

/-- The macro `_next64(_item)`: eight times `_next8`. -/
def _next64 (nodes : Arena) (item : Ptr) : Option Ptr :=
  _next8 nodes item >>= _next8 nodes >>= _next8 nodes >>= _next8 nodes >>=
  _next8 nodes >>= _next8 nodes >>= _next8 nodes >>= _next8 nodes

/-- The macro `_next512(_item)`: eight times `_next64`. -/
def _next512 (nodes : Arena) (item : Ptr) : Option Ptr :=
  _next64 nodes item >>= _next64 nodes >>= _next64 nodes >>= _next64 nodes >>=
  _next64 nodes >>= _next64 nodes >>= _next64 nodes >>= _next64 nodes

/-- The constant `ITERS`, `(1<<14)`. -/
def ITERS : Nat := 1 <<< 14

/-- The macro `unroll(_item)`, which is `_next512(_item)`. -/
def unroll (nodes : Arena) (item : Ptr) : Option Ptr := _next512 nodes item

/-- The loop `for (long i = 0; i < ITERS; i++) { unroll(head); }`, with the
number of iterations still to run as first argument. -/
def timedLoop (nodes : Arena) : Nat → Ptr → Option Ptr
  | 0, head => some head
  | k + 1, head => unroll nodes head >>= timedLoop nodes k

/-! ## One trial: `__test_rand_list` -/

/-- What the host decides during one call of `__test_rand_list`. -/
structure Host where
  /-- Value returned by `sched_setaffinity`. -/
  affinity : Int
  /-- Whether `calloc` returned a null pointer for the node arena. -/
  nodesNull : Bool
  /-- Whether `calloc` returned a null pointer for the index array. -/
  idxNull : Bool
  /-- Value returned by the `k`-th call of `lrand48` (a non-negative long). -/
  lrand48 : Nat → Nat
  /-- Value of the `k`-th sample of the cycle counter. -/
  tsc : Nat → Nat

/-- The function `rdtscp`, called for the `k`-th time: a 64-bit value. -/
def rdtscp (h : Host) (k : Nat) : Nat := h.tsc k % U64

/-- Subtraction of two 64-bit unsigned values, as C computes it. -/
def usub64 (a b : Nat) : Nat := (a + U64 - b % U64) % U64

/-- How a call ends: it returns a status, it is aborted by a failed `assert`,
or its behaviour is undefined. -/
inductive End where
  | returned (status : Int)
  | aborted
  | undefined
  deriving DecidableEq, Repr

/-- Result of one call of `__test_rand_list`: how it ended and the value it
stored through the pointer `cycles`, if it stored one. -/
structure Trial where
  fin : End
  cycles : Option ℚ
  deriving DecidableEq

/-- A loop `for (int i = lo; i < hi; i++) body` whose bound `hi` is the long
`nlines`.  The counter is an int: when the loop is entered and `hi` exceeds
`INT_MAX` the counter cannot reach `hi`, and `i++` at `i = INT_MAX` is a signed
overflow, hence undefined. -/
def forInt {σ : Type} (lo hi : Nat) (body : σ → Nat → Option σ) (s : σ) : Option σ :=
  if lo < hi ∧ INT_MAX < hi then none
  else (List.range' lo (hi - lo)).foldlM body s

/-- The loop `for (int i = 0; i < nlines; i++) idx[i] = i;`. -/
def initIdx (nlines : Nat) (idx : List Int) : Option (List Int) :=
  forInt 0 nlines (fun idx i => if i < idx.length then some (idx.set i (i : Int)) else none) idx

/-- The expression `&nodes[ idx[i] ]`: the read of `idx[i]` must be inside the
index array, and the address of an element before the arena cannot be formed. -/
def nodeAt (idx : List Int) (i : Nat) : Option Ptr :=
  match idx[i]? with
  | some v => if 0 ≤ v then some (some v.toNat) else none
  | none => none

/-- The assignment `head->next = p`. -/
def setNext (nodes : Arena) (head : Ptr) (p : Ptr) : Option Arena :=
  match head with
  | none => none
  | some k => if k < nodes.length then some (nodes.set k p) else none

/-- Body of the linking loop: `head->next = &nodes[ idx[i] ]; head = head->next;`.
The state is the arena and the pointer `head`. -/
def linkBody (idx : List Int) (s : Arena × Ptr) (i : Nat) : Option (Arena × Ptr) := do
  let p ← nodeAt idx i
  let nodes ← setNext s.1 s.2 p
  let head ← _next nodes s.2
  pure (nodes, head)

/-- Lines 112 to 117: `head = &nodes[ idx[0] ]`, the linking loop
`for (int i = 1; i < nlines; i++)`, and `head->next = &nodes[ idx[0] ]`.  The
result is the arena after these lines. -/
def link (nlines : Nat) (idx : List Int) (nodes : Arena) : Option Arena := do
  let head ← nodeAt idx 0
  let s ← forInt 1 nlines (linkBody idx) (nodes, head)
  let p ← nodeAt idx 0
  setNext s.1 s.2 p

/-- Lines 101 to 117 when both allocations gave a block: the zeroed arena of
`l3 / 64` nodes, the index array set to `0, 1, ...`, shuffled, and the nodes
linked.  The result is the index array and the arena.  (The index array is
allocated with `sizeof(struct node)` bytes per entry; the model keeps its first
`nlines` entries, the only ones the code addresses when `nlines` is positive.
The long `nlines` is passed to `shuffle` as an int; the call is reached only
when the initialising loop is defined, that is for `nlines ≤ INT_MAX`, where
the conversion keeps the value.) -/
def build (h : Host) (l3 : Nat) : Option (List Int × Arena) := do
  let line := 64
  let nlines := l3 / line
  let nodes : Arena := List.replicate (l3 / line) none
  let idx : List Int := List.replicate nlines 0
  let idx ← initIdx nlines idx
  let idx ← shuffle h.lrand48 idx (nlines : Int)
  let nodes ← link nlines idx nodes
  pure (idx, nodes)

/-- The number of low bits of the 64-bit value `x` that do not fit in the 53-bit
significand of a `double`: `0` below `2^53`, and `e` when
`2^(52+e) ≤ x < 2^(53+e)`, counted as the number of `k` in `0 .. 10` with
`2^(53+k) ≤ x`. -/
def excessBits (x : Nat) : Nat := ((List.range 11).filter (fun k => 2 ^ (53 + k) ≤ x)).length

/-- The multiple of `2^e` nearest to `x`, the one with an even quotient when
`x` is half way between two of them (round to nearest, ties to even). -/
def roundTo (x e : Nat) : Nat :=
  let q := x / 2 ^ e
  let r := x % 2 ^ e
  if 2 * r < 2 ^ e then q * 2 ^ e
  else if 2 ^ e < 2 * r then (q + 1) * 2 ^ e
  else if q % 2 = 0 then q * 2 ^ e
  else (q + 1) * 2 ^ e

/-- The conversion `(double) x` of a 64-bit unsigned value: `x` itself when it
has at most 53 significant bits, else `x` rounded to 53 significant bits. -/
def toDouble (x : Nat) : ℚ := ((roundTo x (excessBits x) : Nat) : ℚ)

/-- Lines 119 to 140: warm-up, measure of the empty loop, timed traversal, and
the result stored through `cycles`.  The four calls of `rdtscp` are, in this
order, the two samples around the empty loop and the two samples `c1`, `c2`
around the timed traversal.  The result is `(double)(c2-c1-loop)` divided by
the int `ITERS * 512`, a power of two: this division of doubles is exact. -/
def measure (h : Host) (idx : List Int) (nodes : Arena) : Trial :=
  match nodeAt idx 0 >>= unroll nodes with
  | none => ⟨End.undefined, none⟩
  | some _ =>
    let c1 := rdtscp h 0
    let loop := usub64 (rdtscp h 1) c1
    if ¬ (loop > 0) then ⟨End.aborted, none⟩
    else
      let c1 := rdtscp h 2
      match nodeAt idx 0 >>= timedLoop nodes ITERS with
      | none => ⟨End.undefined, none⟩
      | some _ =>
        let c2 := rdtscp h 3
        if ¬ (usub64 c2 c1 > loop) then ⟨End.aborted, none⟩
        else ⟨End.returned 0,
          some (toDouble (usub64 (usub64 c2 c1) loop) / ((ITERS * 512 : Nat) : ℚ))⟩

/-- The function `__test_rand_list(l3, cycles)`. -/
def __test_rand_list (h : Host) (l3 : Nat) : Trial :=
  if h.affinity ≠ 0 then ⟨End.returned 1, none⟩
  else if h.nodesNull then ⟨End.returned 1, none⟩
  else if h.idxNull then ⟨End.returned 1, none⟩
  else
    match build h l3 with
    | none => ⟨End.undefined, none⟩
    | some (idx, nodes) => measure h idx nodes

/-! ## The sweep: `mean` and `test_rand_list` -/

/-- The function `mean(v, n)`: the sum of `v[0] .. v[n-1]`, computed from the
left starting at `0`, divided by `n`.  A read outside `v` is undefined; the
quotient by `n = 0` is not a number and is given no value either. -/
def mean (v : List ℚ) (n : Int) : Option ℚ :=
  if n = 0 then none
  else ((List.range n.toNat).foldlM (fun sum i => v[i]?.map (fun x => sum + x)) (0 : ℚ)).map
    (fun sum => sum / (n : ℚ))

/-- What the program writes on standard output: the usage message, or a line
`bytes <bytes> cycles <cycles>`.  The line is kept as its two values; `bytes`
is the value that `%ld` prints. -/
inductive Out where
  | usage
  | line (bytes : Int) (cycles : ℚ)
  deriving DecidableEq

/-- The value that `printf` shows for the `size_t` argument `x` under `%ld`:
the 64 bits read as a signed long. -/
def toLong (x : Nat) : Int :=
  if x % U64 < 2 ^ 63 then ((x % U64 : Nat) : Int) else ((x % U64 : Nat) : Int) - (U64 : Int)

/-- A finished run of `test_rand_list` or of `main`: the output, the number of
calls of `__test_rand_list`, and how the run ended. -/
structure Run where
  out : List Out
  calls : Nat
  fin : End
  deriving DecidableEq

/-- The inner loop of `test_rand_list`,
`for (int i = 0; i < niter; i++) if (__test_rand_list(at, &v[i])) return 1;`,
over the counter values still to come.  `hosts c` is the host during the call
number `c` of `__test_rand_list`.  The result is `some e` when the loop left
the function (with `return 1`, by an abort, or undefined), then the array `v`
and the number of calls made so far. -/
def trials (hosts : Nat → Host) (size : Nat) : List Nat → List ℚ → Nat → Option End × List ℚ × Nat
  | [], v, calls => (none, v, calls)
  | i :: rest, v, calls =>
    let t := __test_rand_list (hosts calls) size
    let v1 := match t.cycles with
      | some q => v.set i q
      | none => v
    match t.fin with
    | End.returned status =>
      if status ≠ 0 then (some (End.returned 1), v1, calls + 1)
      else trials hosts size rest v1 (calls + 1)
    | End.aborted => (some End.aborted, v1, calls + 1)
    | End.undefined => (some End.undefined, v1, calls + 1)

/-- The number of trials for one size, `niter`. -/
def niter : Nat := 3

/-- The loop `for (size_t at = from; at <= to; at+=incr)` of `test_rand_list`.
The loop need not end, so the first argument bounds the number of times the
loop condition is evaluated; `none` means that this bound was reached. -/
def sweepLoop (hosts : Nat → Host) (to_ incr : Nat) :
    Nat → Nat → List ℚ → Nat → List Out → Option Run
  | 0, _, _, _, _ => none
  | fuel + 1, cur, v, calls, out =>
    if cur ≤ to_ then
      match trials hosts cur (List.range niter) v calls with
      | (some e, _, calls1) => some ⟨out, calls1, e⟩
      | (none, v1, calls1) =>
        match mean v1 (niter : Int) with
        | none => some ⟨out, calls1, End.undefined⟩
        | some m =>
          sweepLoop hosts to_ incr fuel ((cur + incr) % U64) v1 calls1
            (out ++ [Out.line (toLong cur) m])
    else some ⟨out, calls, End.returned 0⟩

/-- The function `test_rand_list(from, to, incr)`, the three arguments being
values of `size_t`.  The array `v` is not initialised by the code; no entry is
read before it is written, and the model starts it with zeros. -/
def test_rand_list (fuel : Nat) (hosts : Nat → Host) (from_ to_ incr : Nat) : Option Run :=
  sweepLoop hosts to_ incr fuel from_ (List.replicate niter 0) 0 []

/-- The variables of `test_rand_list` at an evaluation of the loop condition:
the current size `at`, the array `v`, the number of calls of
`__test_rand_list` made so far, and the lines written so far. -/
structure LoopState where
  cur : Nat
  v : List ℚ
  calls : Nat
  out : List Out
  deriving DecidableEq

/-- One turn of the loop of `test_rand_list` from the state `s`: the loop
condition `at <= to`, the three trials, the line, and `at += incr`.  The result
is either the finished run, when the condition fails or the function is left
inside the turn, or the state at the next evaluation of the loop condition. -/
def sweepTurn (hosts : Nat → Host) (to_ incr : Nat) (s : LoopState) : Run ⊕ LoopState :=
  if s.cur ≤ to_ then
    match trials hosts s.cur (List.range niter) s.v s.calls with
    | (some e, _, calls1) => Sum.inl ⟨s.out, calls1, e⟩
    | (none, v1, calls1) =>
      match mean v1 (niter : Int) with
      | none => Sum.inl ⟨s.out, calls1, End.undefined⟩
      | some m =>
        Sum.inr ⟨(s.cur + incr) % U64, v1, calls1, s.out ++ [Out.line (toLong s.cur) m]⟩
  else Sum.inl ⟨s.out, s.calls, End.returned 0⟩

/-- The loop of `test_rand_list` run for at most `k` turns from the state `s`:
the finished run if the function ends within these turns, else the state after
`k` completed turns. -/
def sweepTurns (hosts : Nat → Host) (to_ incr : Nat) : Nat → LoopState → Run ⊕ LoopState
  | 0, s => Sum.inr s
  | k + 1, s =>
    match sweepTurn hosts to_ incr s with
    | Sum.inl r => Sum.inl r
    | Sum.inr s1 => sweepTurns hosts to_ incr k s1

/-! ## The heap: `calloc` in the trials -/

/-- The blocks obtained from `calloc` and not released by `free`, the oldest
first, each given by its size in bytes. -/
abbrev Heap := List Nat

/-- A call `calloc(nmemb, size)` on the heap `heap`: whether the call gave a
block (it gives none when `null` holds), and the heap after the call. -/
def calloc (null : Bool) (nmemb size : Nat) (heap : Heap) : Bool × Heap :=
  if null then (false, heap) else (true, heap ++ [nmemb * size])

/-- The function `__test_rand_list(l3, cycles)` together with the heap: the
calls of `calloc` at lines 101 and 105, each with `sizeof(struct node) = 64`;
the function leaves at lines 99, 102 and 106 with `return 1` and at line 140
with `return 0`, and no line of the file calls `free`.  The result is the
result of the call and the heap when the call ends. -/
def __test_rand_list_heap (h : Host) (l3 : Nat) (heap : Heap) : Trial × Heap :=
  if h.affinity ≠ 0 then (⟨End.returned 1, none⟩, heap)
  else
    let nodes := calloc h.nodesNull (l3 / 64) 64 heap
    if ¬ nodes.1 then (⟨End.returned 1, none⟩, nodes.2)
    else
      let idx := calloc h.idxNull (l3 / 64) 64 nodes.2
      if ¬ idx.1 then (⟨End.returned 1, none⟩, idx.2)
      else
        match build h l3 with
        | none => (⟨End.undefined, none⟩, idx.2)
        | some (idx1, nodes1) => (measure h idx1 nodes1, idx.2)

/-- The inner loop of `test_rand_list` together with the heap. -/
def trials_heap (hosts : Nat → Host) (size : Nat) :
    List Nat → List ℚ → Nat → Heap → Option End × List ℚ × Nat × Heap
  | [], v, calls, heap => (none, v, calls, heap)
  | i :: rest, v, calls, heap =>
    let th := __test_rand_list_heap (hosts calls) size heap
    let v1 := match th.1.cycles with
      | some q => v.set i q
      | none => v
    match th.1.fin with
    | End.returned status =>
      if status ≠ 0 then (some (End.returned 1), v1, calls + 1, th.2)
      else trials_heap hosts size rest v1 (calls + 1) th.2
    | End.aborted => (some End.aborted, v1, calls + 1, th.2)
    | End.undefined => (some End.undefined, v1, calls + 1, th.2)

/-- The loop of `test_rand_list` together with the heap; the first argument
bounds the number of times the loop condition is evaluated. -/
def sweepLoop_heap (hosts : Nat → Host) (to_ incr : Nat) :
    Nat → Nat → List ℚ → Nat → List Out → Heap → Option (Run × Heap)
  | 0, _, _, _, _, _ => none
  | fuel + 1, cur, v, calls, out, heap =>
    if cur ≤ to_ then
      match trials_heap hosts cur (List.range niter) v calls heap with
      | (some e, _, calls1, heap1) => some (⟨out, calls1, e⟩, heap1)
      | (none, v1, calls1, heap1) =>
        match mean v1 (niter : Int) with
        | none => some (⟨out, calls1, End.undefined⟩, heap1)
        | some m =>
          sweepLoop_heap hosts to_ incr fuel ((cur + incr) % U64) v1 calls1
            (out ++ [Out.line (toLong cur) m]) heap1
    else some (⟨out, calls, End.returned 0⟩, heap)

/-- The function `test_rand_list(from, to, incr)` together with the heap,
started on a heap that holds no block: the finished run and the blocks that are
live when the function ends, all of them obtained by the trials. -/
def test_rand_list_heap (fuel : Nat) (hosts : Nat → Host) (from_ to_ incr : Nat) :
    Option (Run × Heap) :=
  sweepLoop_heap hosts to_ incr fuel from_ (List.replicate niter 0) 0 [] []

/-! ## The command line: `strtoll` and `main` -/

/-- The test `isspace` of the C library in the default locale. -/
def isspace (c : Char) : Bool :=
  c.toNat = 32 || (9 ≤ c.toNat && c.toNat ≤ 13)

/-- The value of the longest run of decimal digits at the start of the text,
added to `acc` as the digits read so far. -/
def digitsValue : List Char → Nat → Nat
  | [], acc => acc
  | c :: cs, acc =>
    if 48 ≤ c.toNat ∧ c.toNat ≤ 57 then digitsValue cs (acc * 10 + (c.toNat - 48)) else acc

/-- The C library function `strtoll(s, NULL, 10)`: white space is skipped, then
an optional sign, then the longest run of decimal digits is read; with no digit
the value is `0`; a value outside `long long` is replaced by the nearest
bound. -/
def strtoll (s : String) : Int :=
  match s.toList.dropWhile isspace with
  | c :: rest =>
    if c.toNat = 45 then max (-(digitsValue rest 0 : Int)) (-(2 ^ 63 : Int))
    else if c.toNat = 43 then min (digitsValue rest 0 : Int) (2 ^ 63 - 1)
    else min (digitsValue (c :: rest) 0 : Int) (2 ^ 63 - 1)
  | [] => 0

/-- Conversion of a `long long` to `size_t`. -/
def toSize (x : Int) : Nat := (x % (U64 : Int)).toNat

/-- The function `main(argc, argv)`, where `argc` is the length of `argv` and
`argv[0]` is the name of the program.  A run of `main` that ends with
`End.returned s` is a process that exits with status `s`. -/
def main (fuel : Nat) (hosts : Nat → Host) (argv : List String) : Option Run :=
  if argv.length ≠ 4 then some ⟨[Out.usage], 0, End.returned 1⟩
  else
    let from_ := toSize (strtoll (argv.getD 1 ""))
    let to_ := toSize (strtoll (argv.getD 2 ""))
    let incr := toSize (strtoll (argv.getD 3 ""))
    (test_rand_list fuel hosts from_ to_ incr).map fun r =>
      match r.fin with
      | End.returned _ => ⟨r.out, r.calls, End.returned 0⟩
      | e => ⟨r.out, r.calls, e⟩


/-! ## Notions used in the statements -/

/-- Following `next` from a pointer `k` times: the macro `_next` applied `k`
times in a row. -/
def follow (nodes : Arena) : Nat → Ptr → Option Ptr
  | 0, item => some item
  | k + 1, item => _next nodes item >>= follow nodes k

/-- The successor relation of the list `p[0] → p[1] → .. → p[n-1] → p[0]`. -/
def Linked (p : List Nat) (nodes : Arena) : Prop :=
  nodes.length = p.length ∧
  ∀ t a b, t < p.length → p[t]? = some a → p[(t + 1) % p.length]? = some b →
    nodes[a]? = some (some b)

/-- The loop overhead measured by a trial: the variable `loop`, the difference
of the first two samples of the cycle counter. -/
def loopCost (h : Host) : Nat := usub64 (rdtscp h 1) (rdtscp h 0)

/-- The counter difference `c2 - c1` of the timed traversal, the difference of
the last two samples of the cycle counter. -/
def elapsed (h : Host) : Nat := usub64 (rdtscp h 3) (rdtscp h 2)

/-- A host on which pinning and both allocations succeed; the random source
returns `7k+3` at its call number `k` and the cycle counter returns `k*k` at
its sample number `k`. -/
def hostOk : Host := ⟨0, false, false, fun k => 7 * k + 3, fun k => k * k⟩

/-- A host on which `sched_setaffinity` fails (it returns `-1`). -/
def hostNoPin : Host := ⟨-1, false, false, fun k => 7 * k + 3, fun k => k * k⟩

/-- A host on which pinning and both allocations succeed and whose cycle
counter always returns `0`, so that the empty loop is measured as `0`. -/
def hostFlat : Host := ⟨0, false, false, fun k => 7 * k + 3, fun _ => 0⟩

/-- A host on which pinning and both allocations succeed and whose cycle
counter returns the samples `0`, `1`, `0` and `2^53 + 2`: the empty loop costs
`1` and the timed traversal `2^53 + 2`. -/
def hostLong : Host :=
  ⟨0, false, false, fun k => 7 * k + 3,
    fun k => if k = 1 then 1 else if k = 3 then 9007199254740994 else 0⟩

/-- The value of the variable `at` of `test_rand_list` when the loop condition
is evaluated for the time number `k` (from `0`), as long as the loop goes on:
it starts at `from` and each turn adds `incr` on 64 bits. -/
def sizeAt (from_ incr : Nat) : Nat → Nat
  | 0 => from_
  | k + 1 => (sizeAt from_ incr k + incr) % U64

/-- The value stored through `cycles` by a trial, `0` when it stored none. -/
def cyclesOf (t : Trial) : ℚ := t.cycles.getD 0

/-- The line that the sweep writes in its turn number `k` when the three trials
of that turn (the calls `3k`, `3k+1`, `3k+2` of `__test_rand_list`) return `0`:
the current size and the mean of the three stored results. -/
def lineAt (hosts : Nat → Host) (from_ incr k : Nat) : Out :=
  Out.line (sizeAt from_ incr k : Int)
    ((cyclesOf (__test_rand_list (hosts (3 * k)) (sizeAt from_ incr k))
      + cyclesOf (__test_rand_list (hosts (3 * k + 1)) (sizeAt from_ incr k))
      + cyclesOf (__test_rand_list (hosts (3 * k + 2)) (sizeAt from_ incr k))) / 3)

/-- The hosts of a sweep in which only the call number `c0` of
`__test_rand_list` meets a host that cannot pin the process. -/
def hostsFailAt (c0 : Nat) : Nat → Host := fun c => if c = c0 then hostNoPin else hostOk

/-- A host on which pinning and the allocation of the arena succeed and the
allocation of the index array fails. -/
def hostNoIdx : Host := ⟨0, false, true, fun k => 7 * k + 3, fun k => k * k⟩

/-- The hosts of a sweep in which only the call number `c0` of
`__test_rand_list` fails to obtain the index array. -/
def hostsNoIdxAt (c0 : Nat) : Nat → Host := fun c => if c = c0 then hostNoIdx else hostOk

/-! ## The exchanges of `shuffle`, as lists of pairs of positions -/

/-- The array `l` after the exchange of the entries at the positions `i` and
`j`; positions outside the array exchange nothing. -/
def exchange (l : List Int) (i j : Nat) : List Int :=
  match l[i]?, l[j]? with
  | some v, some w => (l.set i w).set j v
  | _, _ => l

/-- The partner position of the step `i` of a pass over `n` entries when
`lrand48` returns `r`: a position in `i+1 .. n-1`. -/
def partner (r n i : Nat) : Nat := (i + 1) + r % (n - (i + 1))

/-- The exchanges of one pass over `n` entries that starts after `k` calls of
`lrand48`: for `i = 0 .. n-2`, in this order, the position `i` with its
partner. -/
def passExchanges (rnd : Nat → Nat) (n k : Nat) : List (Nat × Nat) :=
  (List.range (n - 1)).map (fun i => (i, partner (rnd (k + i)) n i))

/-- The exchanges of the first `p` passes over `n` entries, in the order in
which they are made. -/
def passesExchanges (rnd : Nat → Nat) (n p : Nat) : List (Nat × Nat) :=
  (List.range p).flatMap (fun q => passExchanges rnd n (q * (n - 1)))

/-- The array `l` after the exchanges `es`, made from the first to the last. -/
def applyExchanges (es : List (Nat × Nat)) (l : List Int) : List Int :=
  es.foldl (fun l e => exchange l e.1 e.2) l

/-- The transposition of the positions `e.1` and `e.2` of an array of `n`
entries. -/
def swapOf (n : Nat) (e : Nat × Nat) : Equiv.Perm (Fin n) :=
  if h : e.1 < n ∧ e.2 < n then Equiv.swap ⟨e.1, h.1⟩ ⟨e.2, h.2⟩ else 1

/-! ## General lemmas on loops and arrays -/

/-- Exchanging two entries of a list gives a permutation of the list. -/
theorem set_set_perm_aux {α : Type} [DecidableEq α] (l : List α) (i j : Nat)
    (hi : i < l.length) (hj : j < l.length) :
    ((l.set i l[j]).set j l[i]).Perm l := by
  rw [List.perm_iff_count]
  intro a
  have hci : l[i] = a → 0 < l.count a := fun h => List.count_pos_iff.2 (h ▸ List.getElem_mem _)
  have hcj : l[j] = a → 0 < l.count a := fun h => List.count_pos_iff.2 (h ▸ List.getElem_mem _)
  rw [List.count_set _ _ _ _ (by simpa using hj), List.count_set _ _ _ _ hi]
  simp only [List.getElem_set, beq_iff_eq]
  by_cases hij : i = j
  · subst hij
    simp only [if_true]
    by_cases h1 : l[i] = a
    · have := hci h1
      simp only [h1, if_true]
      omega
    · simp only [h1, if_false]
      omega
  · simp only [hij, if_false]
    by_cases h1 : l[i] = a <;> by_cases h2 : l[j] = a
    · have := hci h1
      simp only [h1, h2, if_true]
      omega
    · have := hci h1
      simp only [h1, h2, if_true, if_false]
      omega
    · have := hcj h2
      simp only [h1, h2, if_true, if_false]
      omega
    · simp only [h1, h2, if_false]
      omega

/-- A monadic fold keeps an invariant that every step keeps, and does not fail
when no step fails under the invariant. -/
theorem foldlM_inv {σ α : Type} (f : σ → α → Option σ) (P : σ → Prop) (Q : α → Prop)
    (hstep : ∀ s a, P s → Q a → ∃ s1, f s a = some s1 ∧ P s1) :
    ∀ (l : List α) (s : σ), (∀ a ∈ l, Q a) → P s → ∃ s1, l.foldlM f s = some s1 ∧ P s1 := by
  intro l
  induction l with
  | nil => intro s _ hs; exact ⟨s, rfl, hs⟩
  | cons a l ih =>
    intro s hl hs
    obtain ⟨s1, h1, hp1⟩ := hstep s a hs (hl a (List.mem_cons_self _ _))
    obtain ⟨s2, h2, hp2⟩ := ih s1 (fun b hb => hl b (List.mem_cons_of_mem _ hb)) hp1
    exact ⟨s2, by simp [List.foldlM, h1, h2], hp2⟩

/-- A counted loop carries an invariant indexed by the counter from its first
value to the value at which the loop is left. -/
theorem range_foldlM_inv {σ : Type} (f : σ → Nat → Option σ) (P : Nat → σ → Prop) :
    ∀ (cnt lo : Nat) (s : σ),
      (∀ i s, lo ≤ i → i < lo + cnt → P i s → ∃ s1, f s i = some s1 ∧ P (i + 1) s1) →
      P lo s → ∃ s1, (List.range' lo cnt).foldlM f s = some s1 ∧ P (lo + cnt) s1 := by
  intro cnt
  induction cnt with
  | zero => intro lo s _ hs; exact ⟨s, rfl, hs⟩
  | succ cnt ih =>
    intro lo s hstep hs
    obtain ⟨s1, h1, hp1⟩ := hstep lo s (le_refl _) (by omega) hs
    obtain ⟨s2, h2, hp2⟩ := ih (lo + 1) s1
      (fun i t hlo hhi hp => hstep i t (by omega) (by omega) hp) hp1
    refine ⟨s2, ?_, ?_⟩
    · simp [List.range', List.foldlM, h1, h2]
    · have : lo + (cnt + 1) = lo + 1 + cnt := by omega
      rw [this]; exact hp2

/-! ## shuffle -/

/-- In a step of `shuffle` whose counter `i` is below `n - 1`, with `n` the
length of the array, the partner index lies in `i+1 .. n-1` and the step
exchanges the entries `i` and the partner. -/
theorem shuffleBody_eq (r : Nat) (n : Int) (idx : List Int) (i : Nat)
    (hn : n = (idx.length : Int)) (hi : i + 1 < idx.length) :
    ∃ j, ∃ (_ : i < j) (hj : j < idx.length),
      shuffleBody r n idx i = some ((idx.set i idx[j]).set j (idx[i])) := by
  subst hn
  have hd : (idx.length : Int) - ((i : Int) + 1) = ((idx.length - (i + 1) : Nat) : Int) := by omega
  have hpos : 0 < idx.length - (i + 1) := by omega
  have hlt : r % (idx.length - (i + 1)) < idx.length - (i + 1) := Nat.mod_lt _ hpos
  refine ⟨i + 1 + r % (idx.length - (i + 1)), by omega, by omega, ?_⟩
  have hii : ((i : Int) + 1) + (r : Int).tmod ((idx.length : Int) - ((i : Int) + 1))
      = ((i + 1 + r % (idx.length - (i + 1)) : Nat) : Int) := by
    rw [hd, Int.tmod_eq_emod (Int.natCast_nonneg _) (Int.natCast_nonneg _)]
    push_cast
    rfl
  unfold shuffleBody
  simp only [hii]
  have hne : ¬ ((idx.length : Int) - ((i : Int) + 1) = 0) := by omega
  have hnn : ¬ (((i + 1 + r % (idx.length - (i + 1)) : Nat) : Int) < 0) := by omega
  simp only [hne, hnn, if_false, Int.toNat_ofNat]
  rw [List.getElem?_eq_getElem (by omega : i < idx.length),
    List.getElem?_eq_getElem (by omega : i + 1 + r % (idx.length - (i + 1)) < idx.length)]


/-- One pass of `shuffle` over an array of `n` entries is defined and permutes
the array. -/
theorem shufflePass_perm (rnd : Nat → Nat) (idx0 : List Int) (s : List Int × Nat)
    (hs : s.1.Perm idx0) :
    ∃ s1, shufflePass rnd (idx0.length : Int) s = some s1 ∧ s1.1.Perm idx0 := by
  unfold shufflePass
  apply foldlM_inv _ (fun t : List Int × Nat => t.1.Perm idx0)
    (fun i => i + 1 < idx0.length) _ _ s _ hs
  · intro t i ht hi
    have hlen : t.1.length = idx0.length := ht.length_eq
    obtain ⟨j, _, hj, h⟩ := shuffleBody_eq (rnd t.2) (idx0.length : Int) t.1 i
      (by rw [hlen]) (by omega)
    refine ⟨(_, t.2 + 1), by rw [h]; rfl, ?_⟩
    exact (set_set_perm_aux t.1 i j (by omega) hj).trans ht
  · intro i hi
    rw [List.mem_range] at hi
    omega

/-- The call `shuffle(idx, n)` on an array of `n` entries is defined and its
result is a permutation of the array. -/
theorem shuffle_perm_aux (rnd : Nat → Nat) (idx : List Int) :
    ∃ out, shuffle rnd idx (idx.length : Int) = some out ∧ out.Perm idx := by
  unfold shuffle
  obtain ⟨s1, h1, hp⟩ := foldlM_inv (fun s (_ : Nat) => shufflePass rnd (idx.length : Int) s)
    (fun t : List Int × Nat => t.1.Perm idx) (fun _ => True)
    (fun s _ hs _ => shufflePass_perm rnd idx s hs) (List.range (1 <<< 4)) (idx, 0)
    (fun _ _ => trivial) (List.Perm.refl _)
  exact ⟨s1.1, by rw [h1]; rfl, hp⟩

/-- The loop that initialises the index array sets it to `0, 1, .., nlines-1`. -/
theorem initIdx_eq (n : Nat) (hn : n ≤ INT_MAX) :
    initIdx n (List.replicate n 0) = some ((List.range n).map (fun k : Nat => (k : Int))) := by
  unfold initIdx forInt
  rw [if_neg (by omega)]
  obtain ⟨l, hl, hlen, hget⟩ := range_foldlM_inv
    (fun (idx : List Int) i => if i < idx.length then some (idx.set i (i : Int)) else none)
    (fun i l => l.length = n ∧ ∀ k, k < i → l[k]? = some (k : Int)) n 0 (List.replicate n 0)
    (by
      intro i l _ hi ⟨hlen, hget⟩
      refine ⟨l.set i (i : Int), if_pos (by omega), by simpa using hlen, ?_⟩
      intro k hk
      rw [List.getElem?_set]
      by_cases hik : i = k
      · subst hik; simp; omega
      · rw [if_neg hik]; exact hget k (by omega))
    ⟨by simp, fun k hk => absurd hk (by omega)⟩
  rw [Nat.sub_zero, hl]
  congr 1
  apply List.ext_getElem?
  intro k
  by_cases hk : k < n
  · rw [hget k (by omega), List.getElem?_map, List.getElem?_range hk]
    rfl
  · rw [List.getElem?_eq_none (by omega),
      List.getElem?_eq_none (by rw [List.length_map, List.length_range]; omega)]


/-! ## The linked list built by one trial -/

/-- An index array that is a permutation of `0, .., n-1` is the image of a
list of naturals which is itself such a permutation. -/
theorem perm_range_nat (out : List Int) (n : Nat)
    (h : out.Perm ((List.range n).map (fun k : Nat => (k : Int)))) :
    ∃ p : List Nat, out = p.map (fun k : Nat => (k : Int)) ∧ p.Perm (List.range n) := by
  refine ⟨out.map Int.toNat, ?_, ?_⟩
  · rw [List.map_map]
    conv_lhs => rw [← List.map_id out]
    apply List.map_congr_left
    intro x hx
    obtain ⟨k, _, rfl⟩ := List.mem_map.1 (h.mem_iff.1 hx)
    simp
  · have h2 := h.map Int.toNat
    rw [List.map_map] at h2
    have h3 : (List.range n).map (Int.toNat ∘ fun k : Nat => (k : Int)) = List.range n := by
      conv_rhs => rw [← List.map_id (List.range n)]
      apply List.map_congr_left
      intro x _
      simp
    rw [h3] at h2
    exact h2

/-- Two positions of a list without duplicates that hold the same value are
the same position. -/
theorem nodup_getElem?_inj {l : List Nat} (hl : l.Nodup) {i j a : Nat}
    (hi : l[i]? = some a) (hj : l[j]? = some a) : i = j := by
  obtain ⟨h1, e1⟩ := List.getElem?_eq_some.1 hi
  obtain ⟨h2, e2⟩ := List.getElem?_eq_some.1 hj
  exact (hl.getElem_inj_iff).1 (e1.trans e2.symm)

/-- The address `&nodes[ idx[i] ]` when the index array holds naturals. -/
theorem nodeAt_map (p : List Nat) (i : Nat) :
    nodeAt (p.map (fun k : Nat => (k : Int))) i = (p[i]?).map some := by
  unfold nodeAt
  rw [List.getElem?_map]
  cases p[i]? with
  | none => rfl
  | some a => simp

/-- Lines 112 to 117 link the nodes in the order of the index array, when the
index array is a duplicate-free list of `n` node numbers, `1 ≤ n ≤ INT_MAX`. -/
theorem link_linked (p : List Nat) (nodes0 : Arena) (hp : p.Nodup)
    (hlt : ∀ a ∈ p, a < p.length) (h1 : 1 ≤ p.length) (hmax : p.length ≤ INT_MAX)
    (hn0 : nodes0.length = p.length) :
    ∃ nodes, link p.length (p.map (fun k : Nat => (k : Int))) nodes0 = some nodes ∧
      Linked p nodes := by
  have hget : ∀ i, i < p.length → ∃ a, p[i]? = some a ∧ a < p.length := by
    intro i hi
    exact ⟨p[i], List.getElem?_eq_getElem hi, hlt _ (List.getElem_mem _)⟩
  obtain ⟨a0, ha0, ha0lt⟩ := hget 0 (by omega)
  obtain ⟨s, hs, hslen, hshead, hsnext⟩ := range_foldlM_inv
    (linkBody (p.map (fun k : Nat => (k : Int))))
    (fun i (s : Arena × Ptr) => s.1.length = p.length ∧ s.2 = p[i - 1]? ∧
      ∀ t a b, t + 1 < i → p[t]? = some a → p[t + 1]? = some b → s.1[a]? = some (some b))
    (p.length - 1) 1 (nodes0, some a0)
    (by
      intro i s hlo hhi ⟨hlen, hhead, hnext⟩
      obtain ⟨b, hb, _⟩ := hget i (by omega)
      obtain ⟨a, ha, halt⟩ := hget (i - 1) (by omega)
      refine ⟨(s.1.set a (some b), some b), ?_, ?_, ?_, ?_⟩
      · unfold linkBody
        rw [nodeAt_map, hb, hhead, ha]
        simp [setNext, _next, hlen, halt]
      · simpa using hlen
      · simpa using hb.symm
      · intro t a1 b1 ht ha1 hb1
        show (s.1.set a (some b))[a1]? = some (some b1)
        by_cases hta : t = i - 1
        · subst hta
          have e1 : a1 = a := by rw [ha] at ha1; exact (Option.some.inj ha1).symm
          have e2 : b1 = b := by
            rw [show i - 1 + 1 = i by omega, hb] at hb1; exact (Option.some.inj hb1).symm
          subst e1; subst e2
          exact List.getElem?_set_self (by omega)
        · have hne : a ≠ a1 := by
            intro e
            subst e
            exact hta (nodup_getElem?_inj hp ha1 ha)
          rw [List.getElem?_set_ne hne]
          exact hnext t a1 b1 (by omega) ha1 hb1)
    ⟨hn0, by simpa using ha0.symm, fun t a b ht => absurd ht (by omega)⟩
  have hN : 1 + (p.length - 1) = p.length := by omega
  rw [hN] at hshead hsnext
  obtain ⟨c, hc, hclt⟩ := hget (p.length - 1) (by omega)
  refine ⟨s.1.set c (some a0), ?_, by simpa using hslen, ?_⟩
  · unfold link forInt
    rw [nodeAt_map, ha0]
    simp only [Option.map_some', Option.bind_eq_bind, Option.some_bind]
    rw [if_neg (by omega), hs]
    simp [setNext, hshead, hc, hslen, hclt]
  · intro t a b ht ha hb
    by_cases htl : t = p.length - 1
    · subst htl
      have e1 : a = c := by rw [hc] at ha; exact (Option.some.inj ha).symm
      have e2 : b = a0 := by
        rw [show (p.length - 1 + 1) % p.length = 0 by
          rw [show p.length - 1 + 1 = p.length by omega, Nat.mod_self], ha0] at hb
        exact (Option.some.inj hb).symm
      subst e1; subst e2
      exact List.getElem?_set_self (by omega)
    · have hne : c ≠ a := by
        intro e
        subst e
        exact htl (nodup_getElem?_inj hp ha hc)
      rw [List.getElem?_set_ne hne]
      rw [Nat.mod_eq_of_lt (by omega)] at hb
      exact hsnext t a b (by omega) ha hb

/-- Following `next` in a linked arena from the node in position `t` of the
order `p` reaches, after `k` steps, the node in position `(t + k) % n`. -/
theorem follow_linked (p : List Nat) (nodes : Arena) (h : Linked p nodes) :
    ∀ (k t : Nat), t < p.length → follow nodes k (p[t]?) = some (p[(t + k) % p.length]?) := by
  intro k
  induction k with
  | zero =>
    intro t ht
    simp [follow, Nat.mod_eq_of_lt ht]
  | succ k ih =>
    intro t ht
    have hpos : 0 < p.length := by omega
    have hm : (t + 1) % p.length < p.length := Nat.mod_lt _ hpos
    have hnext : _next nodes (p[t]?) = some (p[(t + 1) % p.length]?) := by
      rw [List.getElem?_eq_getElem ht, List.getElem?_eq_getElem hm]
      exact h.2 t _ _ ht (List.getElem?_eq_getElem ht) (List.getElem?_eq_getElem hm)
    unfold follow
    rw [hnext]
    simp only [Option.bind_eq_bind, Option.some_bind]
    rw [ih _ hm]
    congr 2
    rw [Nat.mod_add_mod]
    congr 1
    omega


/-- Lines 101 to 117, for a size of `1 ≤ l3/64 ≤ INT_MAX` nodes: they are
defined, the index array is a permutation `p` of the node numbers and the nodes
are linked in the order `p`. -/
theorem build_linked (h : Host) (l3 : Nat) (h1 : 1 ≤ l3 / 64) (hmax : l3 / 64 ≤ INT_MAX) :
    ∃ (p : List Nat) (nodes : Arena),
      build h l3 = some (p.map (fun k : Nat => (k : Int)), nodes) ∧
      p.Perm (List.range (l3 / 64)) ∧ Linked p nodes := by
  obtain ⟨out, hout, hperm⟩ := shuffle_perm_aux h.lrand48
    ((List.range (l3 / 64)).map (fun k : Nat => (k : Int)))
  rw [List.length_map, List.length_range] at hout
  obtain ⟨p, rfl, hp⟩ := perm_range_nat out (l3 / 64) hperm
  have hlen : p.length = l3 / 64 := by rw [hp.length_eq, List.length_range]
  have hnodup : p.Nodup := hp.nodup_iff.2 (List.nodup_range _)
  have hlt : ∀ a ∈ p, a < p.length := by
    intro a ha
    rw [hlen]
    exact List.mem_range.1 (hp.mem_iff.1 ha)
  obtain ⟨nodes, hnodes, hlinked⟩ := link_linked p (List.replicate (l3 / 64) none) hnodup hlt
    (by omega) (by omega) (by rw [List.length_replicate, hlen])
  rw [hlen] at hnodes
  refine ⟨p, nodes, ?_, hp, hlinked⟩
  unfold build
  simp only [Option.bind_eq_bind]
  rw [initIdx_eq _ hmax]
  simp only [Option.some_bind]
  rw [hout]
  simp only [Option.some_bind]
  rw [hnodes]
  rfl

/-- The macro `_next8` follows `next` 8 times. -/
theorem _next8_eq (nodes : Arena) (item : Ptr) : _next8 nodes item = follow nodes 8 item := by
  simp only [_next8, follow, Option.bind_eq_bind, Option.bind_assoc, Option.bind_some]

/-- Following `k + m` times is following `k` times, then `m` times. -/
theorem follow_add (nodes : Arena) (m : Nat) :
    ∀ (k : Nat) (item : Ptr),
      follow nodes (k + m) item = follow nodes k item >>= follow nodes m := by
  intro k
  induction k with
  | zero => intro item; simp [follow]
  | succ k ih =>
    intro item
    rw [show k + 1 + m = (k + m) + 1 by omega]
    simp only [follow, Option.bind_eq_bind, Option.bind_assoc]
    congr 1
    funext x
    simpa using ih x

/-- The macro `_next64` follows `next` 64 times. -/
theorem _next64_eq (nodes : Arena) (item : Ptr) : _next64 nodes item = follow nodes 64 item := by
  have e : ∀ x, _next8 nodes x = follow nodes 8 x := _next8_eq nodes
  have e1 : _next8 nodes = follow nodes 8 := funext e
  unfold _next64
  rw [e1, show 64 = 8 + 8 + 8 + 8 + 8 + 8 + 8 + 8 by rfl]
  simp only [follow_add]

/-- The macro `_next512` follows `next` 512 times. -/
theorem _next512_eq (nodes : Arena) (item : Ptr) :
    _next512 nodes item = follow nodes 512 item := by
  have e1 : _next64 nodes = follow nodes 64 := funext (_next64_eq nodes)
  unfold _next512
  rw [e1, show 512 = 64 + 64 + 64 + 64 + 64 + 64 + 64 + 64 by rfl]
  simp only [follow_add]

/-- The timed loop with `k` iterations follows `next` `512 * k` times. -/
theorem timedLoop_eq (nodes : Arena) :
    ∀ (k : Nat) (head : Ptr), timedLoop nodes k head = follow nodes (512 * k) head := by
  intro k
  induction k with
  | zero => intro head; rfl
  | succ k ih =>
    intro head
    rw [show 512 * (k + 1) = 512 + 512 * k by omega, follow_add]
    simp only [timedLoop, unroll, _next512_eq]
    congr 1
    funext x
    exact ih x


/-! ## The measurement of one trial -/

/-- A difference of 64-bit values is a 64-bit value. -/
theorem usub64_lt (a b : Nat) : usub64 a b < U64 := Nat.mod_lt _ (by decide)

/-- The 64-bit difference of `a` and a smaller 64-bit value `b` is `a - b`. -/
theorem usub64_of_le (a b : Nat) (hb : b ≤ a) (ha : a < U64) : usub64 a b = a - b := by
  unfold usub64 U64 at *
  omega


/-- Below `2^53` no bit is in excess. -/
theorem excessBits_small (x : Nat) (hx : x < 2 ^ 53) : excessBits x = 0 := by
  unfold excessBits
  rw [List.length_eq_zero, List.filter_eq_nil_iff]
  intro k _
  have : 2 ^ 53 ≤ 2 ^ (53 + k) := Nat.pow_le_pow_right (by decide) (by omega)
  simp only [decide_eq_true_eq]
  omega

/-- At most 11 bits of a 64-bit value are in excess. -/
theorem excessBits_le (x : Nat) : excessBits x ≤ 11 := by
  unfold excessBits
  exact (List.length_filter_le _ _).trans (by simp)

/-- Rounding to a multiple of `1` changes nothing. -/
theorem roundTo_zero (x : Nat) : roundTo x 0 = x := by
  unfold roundTo
  simp only [Nat.pow_zero, Nat.mod_one, Nat.div_one, Nat.mul_one, Nat.mul_zero]
  rw [if_pos (by decide)]

/-- The conversion to `double` is exact below `2^53`. -/
theorem toDouble_small (x : Nat) (hx : x < 2 ^ 53) : toDouble x = (x : ℚ) := by
  unfold toDouble
  rw [excessBits_small x hx, roundTo_zero]

/-- A value of at least `2^e` is rounded to a positive multiple of `2^e`. -/
theorem roundTo_pos (x e : Nat) (he : 2 ^ e ≤ x) : 0 < roundTo x e := by
  have hp : 0 < 2 ^ e := Nat.two_pow_pos e
  have hq : 0 < x / 2 ^ e := Nat.div_pos he hp
  unfold roundTo
  simp only
  split
  · exact Nat.mul_pos hq hp
  · split
    · exact Nat.mul_pos (by omega) hp
    · split
      · exact Nat.mul_pos hq hp
      · exact Nat.mul_pos (by omega) hp

/-- The conversion to `double` of a positive value is positive. -/
theorem toDouble_pos (x : Nat) (hx : 0 < x) : 0 < toDouble x := by
  unfold toDouble
  by_cases hs : x < 2 ^ 53
  · rw [excessBits_small x hs]
    have : 0 < roundTo x 0 := roundTo_pos x 0 (by simpa using hx)
    exact_mod_cast this
  · have h11 : 2 ^ excessBits x ≤ 2 ^ 11 := Nat.pow_le_pow_right (by decide) (excessBits_le x)
    have : 0 < roundTo x (excessBits x) := roundTo_pos x _ (by omega)
    exact_mod_cast this

/-- The conversion to `double` of a 64-bit value is at most `2^64`. -/
theorem toDouble_le (x : Nat) (hx : x < 2 ^ 64) : toDouble x ≤ 2 ^ 64 := by
  have he := excessBits_le x
  have key : roundTo x (excessBits x) ≤ 2 ^ 64 := by
    generalize excessBits x = e at he
    unfold roundTo
    interval_cases e <;> simp only [] <;> split_ifs <;> omega
  unfold toDouble
  exact_mod_cast key

/-- From the head `&nodes[ idx[0] ]` of a linked arena, `k` steps along `next`
are defined and reach the node in position `k % n` of the order `p`. -/
theorem head_follow (p : List Nat) (nodes : Arena) (hl : Linked p nodes) (h1 : 1 ≤ p.length)
    (k : Nat) :
    nodeAt (p.map (fun k : Nat => (k : Int))) 0 >>= follow nodes k = some (p[k % p.length]?) := by
  rw [nodeAt_map, List.getElem?_eq_getElem (by omega : 0 < p.length)]
  simp only [Option.map_some', Option.bind_eq_bind, Option.some_bind]
  rw [← List.getElem?_eq_getElem (by omega : 0 < p.length)]
  have := follow_linked p nodes hl k 0 (by omega)
  rw [Nat.zero_add] at this
  exact this

/-- The divisor `ITERS * 512` is `8388608`. -/
theorem ITERS_mul : ((ITERS * 512 : Nat) : ℚ) = 8388608 := by
  have : ITERS * 512 = 8388608 := by decide
  rw [this]; norm_num


/-- In a linked arena both traversals of `measure` are defined, and the trial
ends as the two assertions on the samples of the cycle counter decide. -/
theorem measure_linked (h : Host) (p : List Nat) (nodes : Arena) (hl : Linked p nodes)
    (h1 : 1 ≤ p.length) :
    measure h (p.map (fun k : Nat => (k : Int))) nodes =
      if loopCost h = 0 then ⟨End.aborted, none⟩
      else if elapsed h ≤ loopCost h then ⟨End.aborted, none⟩
      else ⟨End.returned 0, some (toDouble (elapsed h - loopCost h) / 8388608)⟩ := by
  have e1 : unroll nodes = follow nodes 512 := funext (fun x => _next512_eq nodes x)
  have e2 : timedLoop nodes ITERS = follow nodes (512 * ITERS) :=
    funext (timedLoop_eq nodes ITERS)
  unfold measure
  rw [e1, e2, head_follow p nodes hl h1, head_follow p nodes hl h1]
  simp only [loopCost, elapsed]
  by_cases hc : usub64 (rdtscp h 1) (rdtscp h 0) = 0
  · rw [if_pos hc, if_pos (by omega)]
  · have hpos : usub64 (rdtscp h 1) (rdtscp h 0) > 0 := Nat.pos_of_ne_zero hc
    rw [if_neg hc, if_neg (by omega)]
    by_cases he : usub64 (rdtscp h 3) (rdtscp h 2) ≤ usub64 (rdtscp h 1) (rdtscp h 0)
    · rw [if_pos he, if_pos (by omega)]
    · have hgt : usub64 (rdtscp h 3) (rdtscp h 2) > usub64 (rdtscp h 1) (rdtscp h 0) := by omega
      have hsub := usub64_of_le _ _ (le_of_lt hgt) (usub64_lt (rdtscp h 3) (rdtscp h 2))
      rw [if_neg he, if_neg (by omega), hsub, ITERS_mul]


/-- A trial on `1 ≤ l3/64 ≤ INT_MAX` nodes in which pinning and both
allocations succeed ends as the two assertions decide. -/
theorem trial_eq (h : Host) (l3 : Nat) (hpin : h.affinity = 0) (hnodes : h.nodesNull = false)
    (hidx : h.idxNull = false) (h1 : 1 ≤ l3 / 64) (hmax : l3 / 64 ≤ INT_MAX) :
    __test_rand_list h l3 =
      if loopCost h = 0 then ⟨End.aborted, none⟩
      else if elapsed h ≤ loopCost h then ⟨End.aborted, none⟩
      else ⟨End.returned 0, some (toDouble (elapsed h - loopCost h) / 8388608)⟩ := by
  obtain ⟨p, nodes, hb, hp, hl⟩ := build_linked h l3 h1 hmax
  have hlen : 1 ≤ p.length := by rw [hp.length_eq, List.length_range]; exact h1
  unfold __test_rand_list
  rw [if_neg (by simp [hpin]), if_neg (by simp [hnodes]), if_neg (by simp [hidx]), hb]
  exact measure_linked h p nodes hl hlen

/-- With no node, or with more nodes than an int can count, lines 101 to 117
have no defined behaviour: `idx[0]` is read outside the empty index array, or
the int counter of the initialising loop overflows. -/
theorem build_undefined (h : Host) (l3 : Nat) (hN : l3 / 64 = 0 ∨ INT_MAX < l3 / 64) :
    build h l3 = none := by
  unfold build
  rcases hN with h0 | hbig
  · have hs : shuffle h.lrand48 [] (0 : Int) = some [] := by
      simp [shuffle, shufflePass, List.range, List.range.loop, List.foldlM]
    simp only [h0, Option.bind_eq_bind]
    have hi : initIdx 0 (List.replicate 0 0) = some [] := rfl
    rw [hi]
    simp only [Option.some_bind, Nat.cast_zero, hs]
    rfl
  · have hi : initIdx (l3 / 64) (List.replicate (l3 / 64) 0) = none := by
      unfold initIdx forInt
      rw [if_pos ⟨by unfold INT_MAX at hbig; omega, hbig⟩]
    simp only [Option.bind_eq_bind, hi, Option.none_bind]

/-- A trial in which pinning and both allocations succeed has no defined
behaviour when there is no node or more nodes than an int can count. -/
theorem trial_undefined (h : Host) (l3 : Nat) (hpin : h.affinity = 0)
    (hnodes : h.nodesNull = false) (hidx : h.idxNull = false)
    (hN : l3 / 64 = 0 ∨ INT_MAX < l3 / 64) :
    __test_rand_list h l3 = ⟨End.undefined, none⟩ := by
  unfold __test_rand_list
  rw [if_neg (by simp [hpin]), if_neg (by simp [hnodes]), if_neg (by simp [hidx]),
    build_undefined h l3 hN]


/-! ## The claims -/

/-- The visited nodes: in a linked arena, the pointers reached from the head
in `0, 1, .., n-1` steps are the nodes in the order `p`. -/
theorem visited_eq (p : List Nat) (nodes : Arena) (hl : Linked p nodes) (h1 : 1 ≤ p.length) :
    (List.range p.length).map (fun k => follow nodes k (p[0]?))
      = p.map (fun j => some (some j)) := by
  apply List.ext_getElem?
  intro i
  rw [List.getElem?_map, List.getElem?_map]
  by_cases hi : i < p.length
  · rw [List.getElem?_range hi, List.getElem?_eq_getElem hi]
    simp only [Option.map_some']
    have := follow_linked p nodes hl i 0 (by omega)
    rw [Nat.zero_add, Nat.mod_eq_of_lt hi, List.getElem?_eq_getElem hi] at this
    rw [this]
  · have e1 : (List.range p.length)[i]? = none :=
      List.getElem?_eq_none (by rw [List.length_range]; omega)
    have e2 : p[i]? = none := List.getElem?_eq_none (by omega)
    rw [e1, e2]
    rfl

/-- C1, in the range of an int: for every size with `2 ≤ N = size/64 ≤ INT_MAX`
and every sequence of values of the random source, lines 101 to 117 of
`__test_rand_list` are defined, and in the arena they leave, following `next`
from the head `&nodes[idx[0]]` exactly `N` times returns to the head, no
smaller positive number of steps does, and the nodes visited in the steps
`0 .. N-1` are, up to order, the `N` nodes of the arena, each once. -/
theorem list_is_single_cycle (h : Host) (l3 : Nat) (h2 : 2 ≤ l3 / 64)
    (hmax : l3 / 64 ≤ INT_MAX) :
    ∃ (idx : List Int) (nodes : Arena) (head : Ptr),
      build h l3 = some (idx, nodes) ∧ nodeAt idx 0 = some head ∧
      nodes.length = l3 / 64 ∧
      follow nodes (l3 / 64) head = some head ∧
      (∀ k, 0 < k → k < l3 / 64 → follow nodes k head ≠ some head) ∧
      ((List.range (l3 / 64)).map (fun k => follow nodes k head)).Perm
        ((List.range (l3 / 64)).map (fun j => some (some j))) := by
  obtain ⟨p, nodes, hb, hp, hl⟩ := build_linked h l3 (by omega) hmax
  have hlen : p.length = l3 / 64 := by rw [hp.length_eq, List.length_range]
  have hnodup : p.Nodup := hp.nodup_iff.2 (List.nodup_range _)
  have h0 : 0 < p.length := by omega
  refine ⟨_, nodes, p[0]?, hb, ?_, ?_, ?_, ?_, ?_⟩
  · rw [nodeAt_map, List.getElem?_eq_getElem h0]
    rfl
  · rw [hl.1, hlen]
  · have := follow_linked p nodes hl (l3 / 64) 0 h0
    rw [Nat.zero_add, ← hlen, Nat.mod_self] at this
    rw [← hlen]
    exact this
  · intro k hk0 hkN hk
    have := follow_linked p nodes hl k 0 h0
    rw [Nat.zero_add, Nat.mod_eq_of_lt (by omega)] at this
    rw [this] at hk
    have hk2 : p[k]? = p[0]? := Option.some.inj hk
    rw [List.getElem?_eq_getElem h0] at hk2
    have := nodup_getElem?_inj hnodup hk2 (List.getElem?_eq_getElem h0)
    omega
  · rw [← hlen, visited_eq p nodes hl (by omega), hlen]
    exact hp.map _

/-- Witness of C1: a working set of 192 bytes, three nodes. -/
theorem list_is_single_cycle_witness :
    2 ≤ 192 / 64 ∧ 192 / 64 ≤ INT_MAX ∧
    ∃ (idx : List Int) (nodes : Arena) (head : Ptr),
      build hostOk 192 = some (idx, nodes) ∧ nodeAt idx 0 = some head ∧
      nodes.length = 192 / 64 ∧
      follow nodes (192 / 64) head = some head ∧
      (∀ k, 0 < k → k < 192 / 64 → follow nodes k head ≠ some head) ∧
      ((List.range (192 / 64)).map (fun k => follow nodes k head)).Perm
        ((List.range (192 / 64)).map (fun j => some (some j))) :=
  ⟨by decide, by decide, list_is_single_cycle hostOk 192 (by decide) (by decide)⟩

/-- C1 as stated fails beyond the range of an int: for the size `2^37`, that
is `N = 2^31` nodes, lines 101 to 117 leave no list at all, the int counter of
the loop `for (int i = 0; i < nlines; i++)` overflows. -/
theorem list_is_single_cycle_not_for_every_size :
    2 ≤ 137438953472 / 64 ∧
      ¬ ∃ (idx : List Int) (nodes : Arena), build hostOk 137438953472 = some (idx, nodes) := by
  refine ⟨by decide, ?_⟩
  rw [build_undefined hostOk 137438953472 (Or.inr (by decide))]
  rintro ⟨_, _, h⟩
  exact Option.noConfusion h

/-- C2: for every `n ≥ 0`, every array `idx` of `n` entries and every sequence
of values returned by `lrand48`, the call `shuffle(idx, n)` is defined and
leaves a permutation of the input array, of the same length. -/
theorem shuffle_is_permutation (rnd : Nat → Nat) (idx : List Int) (n : Int)
    (hn : n = (idx.length : Int)) :
    ∃ out, shuffle rnd idx n = some out ∧ out.Perm idx ∧ out.length = idx.length := by
  subst hn
  obtain ⟨out, h1, h2⟩ := shuffle_perm_aux rnd idx
  exact ⟨out, h1, h2, h2.length_eq⟩

/-- Witness of C2: an array of four entries, two of them equal. -/
theorem shuffle_is_permutation_witness :
    (4 : Int) = (([10, 20, 30, 20] : List Int).length : Int) ∧
    ∃ out, shuffle (fun k => 7 * k + 3) [10, 20, 30, 20] 4 = some out ∧
      out.Perm [10, 20, 30, 20] ∧ out.length = ([10, 20, 30, 20] : List Int).length :=
  ⟨by decide, shuffle_is_permutation (fun k => 7 * k + 3) [10, 20, 30, 20] 4 (by decide)⟩


/-! ## The sweep -/

/-- A trial that returns `0` ran on `1 ≤ l3/64 ≤ INT_MAX` nodes, after pinning
and both allocations succeeded. -/
theorem trial_returned_zero (h : Host) (l3 : Nat)
    (hr : (__test_rand_list h l3).fin = End.returned 0) :
    1 ≤ l3 / 64 ∧ l3 / 64 ≤ INT_MAX ∧ h.affinity = 0 ∧ h.nodesNull = false ∧
      h.idxNull = false := by
  by_cases hpin : h.affinity = 0
  · by_cases hnodes : h.nodesNull = false
    · by_cases hidx : h.idxNull = false
      · by_cases hN : l3 / 64 = 0 ∨ INT_MAX < l3 / 64
        · rw [trial_undefined h l3 hpin hnodes hidx hN] at hr
          exact absurd hr (by decide)
        · exact ⟨by omega, by omega, hpin, hnodes, hidx⟩
      · exfalso
        unfold __test_rand_list at hr
        rw [if_neg (by simp [hpin]), if_neg (by simp [hnodes]), if_pos (by simpa using hidx)] at hr
        exact absurd hr (by decide)
    · exfalso
      unfold __test_rand_list at hr
      rw [if_neg (by simp [hpin]), if_pos (by simpa using hnodes)] at hr
      exact absurd hr (by decide)
  · exfalso
    unfold __test_rand_list at hr
    rw [if_pos hpin] at hr
    exact absurd hr (by decide)

/-- The value printed under `%ld` for a size below `2^63` is the size. -/
theorem toLong_small (x : Nat) (hx : x < 2 ^ 63) : toLong x = (x : Int) := by
  unfold toLong U64
  have : x % 2 ^ 64 = x := Nat.mod_eq_of_lt (by omega)
  rw [this, if_pos hx]

/-- Three trials that succeed fill the array `v` with their three results and
the inner loop runs to its end. -/
theorem trials_ok (hosts : Nat → Host) (size c : Nat) (a0 a1 a2 q0 q1 q2 : ℚ)
    (h0 : __test_rand_list (hosts c) size = ⟨End.returned 0, some q0⟩)
    (h1 : __test_rand_list (hosts (c + 1)) size = ⟨End.returned 0, some q1⟩)
    (h2 : __test_rand_list (hosts (c + 2)) size = ⟨End.returned 0, some q2⟩) :
    trials hosts size (List.range niter) [a0, a1, a2] c = (none, [q0, q1, q2], c + 3) := by
  have hr : List.range niter = [0, 1, 2] := by decide
  rw [hr]
  simp only [trials, h0, h1, h2, ne_eq, not_true_eq_false, if_false, List.set_cons_zero,
    List.set_cons_succ]

/-- The mean of three values. -/
theorem mean_three (q0 q1 q2 : ℚ) : mean [q0, q1, q2] (niter : Int) = some ((q0 + q1 + q2) / 3) := by
  have hr : List.range ((niter : Int)).toNat = [0, 1, 2] := by decide
  unfold mean
  rw [if_neg (by decide), hr]
  simp [List.foldlM, niter]


/-- The sweep loop from its iteration number `j` on, when every trial succeeds:
with `n` sizes left and more than `n` evaluations of the loop condition
allowed, the loop ends, returns `0`, and appends one line for each size left. -/
theorem sweepLoop_ok (hosts : Nat → Host) (from_ to_ incr : Nat) (hft : from_ ≤ to_)
    (hincr : 1 ≤ incr) (hov : to_ + incr < 2 ^ 64)
    (hok : ∀ k, k ≤ (to_ - from_) / incr → ∀ i, i < 3 → ∃ q,
      __test_rand_list (hosts (3 * k + i)) (from_ + k * incr) = ⟨End.returned 0, some q⟩) :
    ∀ (n j : Nat), j + n = (to_ - from_) / incr + 1 →
      ∀ (fuel : Nat) (a0 a1 a2 : ℚ) (out : List Out), n < fuel →
      ∃ L, sweepLoop hosts to_ incr fuel (from_ + j * incr) [a0, a1, a2] (3 * j) out
          = some ⟨out ++ L, 3 * ((to_ - from_) / incr + 1), End.returned 0⟩ ∧
        L.length = n ∧
        ∀ k, k < n → ∃ m, L[k]? = some (Out.line ((from_ + (j + k) * incr : Nat) : Int) m) := by
  have hK1 : to_ - from_ < incr * ((to_ - from_) / incr + 1) := Nat.lt_mul_div_succ _ hincr
  have hK2 : (to_ - from_) / incr * incr ≤ to_ - from_ := Nat.div_mul_le_self _ _
  intro n
  induction n with
  | zero =>
    intro j hj fuel a0 a1 a2 out hfuel
    obtain ⟨f, rfl⟩ : ∃ f, fuel = f + 1 := ⟨fuel - 1, by omega⟩
    have hjK : j = (to_ - from_) / incr + 1 := by omega
    have hgt : ¬ (from_ + j * incr ≤ to_) := by
      rw [hjK, Nat.mul_comm]
      omega
    refine ⟨[], ?_, rfl, fun k hk => absurd hk (by omega)⟩
    unfold sweepLoop
    rw [if_neg hgt, List.append_nil, hjK]
  | succ n ih =>
    intro j hj fuel a0 a1 a2 out hfuel
    obtain ⟨f, rfl⟩ : ∃ f, fuel = f + 1 := ⟨fuel - 1, by omega⟩
    have hjK : j ≤ (to_ - from_) / incr := by omega
    have hmul : j * incr ≤ (to_ - from_) / incr * incr := Nat.mul_le_mul_right _ hjK
    have hle : from_ + j * incr ≤ to_ := by omega
    obtain ⟨q0, h0⟩ := hok j hjK 0 (by omega)
    obtain ⟨q1, h1⟩ := hok j hjK 1 (by omega)
    obtain ⟨q2, h2⟩ := hok j hjK 2 (by omega)
    have hb := (trial_returned_zero _ _ (by rw [h0])).2.1
    have hsmall : from_ + j * incr < 2 ^ 63 := by
      unfold INT_MAX at hb
      omega
    have hnext : (from_ + j * incr + incr) % U64 = from_ + (j + 1) * incr := by
      rw [Nat.succ_mul]
      unfold U64
      omega
    obtain ⟨L, hL, hlen, hget⟩ := ih (j + 1) (by omega) f q0 q1 q2
      (out ++ [Out.line (toLong (from_ + j * incr)) ((q0 + q1 + q2) / 3)]) (by omega)
    refine ⟨Out.line (toLong (from_ + j * incr)) ((q0 + q1 + q2) / 3) :: L, ?_, ?_, ?_⟩
    · unfold sweepLoop
      rw [if_pos hle, trials_ok hosts _ (3 * j) a0 a1 a2 q0 q1 q2 h0 h1 h2]
      simp only [mean_three, hnext]
      rw [show 3 * j + 3 = 3 * (j + 1) by omega, hL, List.append_assoc]
      rfl
    · simp [hlen]
    · intro k hk
      cases k with
      | zero =>
        refine ⟨(q0 + q1 + q2) / 3, ?_⟩
        rw [toLong_small _ hsmall, Nat.add_zero, List.getElem?_cons_zero]
      | succ k =>
        obtain ⟨m, hm⟩ := hget k (by omega)
        refine ⟨m, ?_⟩
        rw [List.getElem?_cons_succ, hm, show j + 1 + k = j + (k + 1) by omega]


/-- The trial of `hostOk` on any size of `1 ≤ l3/64 ≤ INT_MAX` nodes returns
`0` and stores `4 / 8388608`. -/
theorem trial_hostOk (l3 : Nat) (h1 : 1 ≤ l3 / 64) (hmax : l3 / 64 ≤ INT_MAX) :
    __test_rand_list hostOk l3 = ⟨End.returned 0, some (4 / 8388608)⟩ := by
  have hl : loopCost hostOk = 1 := by decide
  have he : elapsed hostOk = 5 := by decide
  rw [trial_eq hostOk l3 rfl rfl rfl h1 hmax, hl, he, if_neg (by decide), if_neg (by decide),
    show (5 - 1 : Nat) = 4 from rfl, toDouble_small 4 (by decide)]
  norm_num

/-- C3: for every `from ≤ to` and `incr ≥ 1` with `to + incr < 2^64`, when
every trial of the sweep succeeds (returns `0` with a result), the function
`test_rand_list` ends as soon as it may evaluate its loop condition
`(to - from)/incr + 2` times, returns `0`, and has written exactly
`(to - from)/incr + 1` lines, the line number `k` carrying the size
`from + k*incr`; it ran three trials for each line. -/
theorem sweep_emits_every_size (hosts : Nat → Host) (from_ to_ incr : Nat) (hft : from_ ≤ to_)
    (hincr : 1 ≤ incr) (hov : to_ + incr < 2 ^ 64)
    (hok : ∀ k, k ≤ (to_ - from_) / incr → ∀ i, i < 3 → ∃ q,
      __test_rand_list (hosts (3 * k + i)) (from_ + k * incr) = ⟨End.returned 0, some q⟩)
    (fuel : Nat) (hfuel : (to_ - from_) / incr + 1 < fuel) :
    ∃ r, test_rand_list fuel hosts from_ to_ incr = some r ∧ r.fin = End.returned 0 ∧
      r.out.length = (to_ - from_) / incr + 1 ∧
      (∀ k, k < (to_ - from_) / incr + 1 →
        ∃ m, r.out[k]? = some (Out.line ((from_ + k * incr : Nat) : Int) m)) ∧
      r.calls = 3 * ((to_ - from_) / incr + 1) := by
  obtain ⟨L, hL, hlen, hget⟩ := sweepLoop_ok hosts from_ to_ incr hft hincr hov hok
    ((to_ - from_) / incr + 1) 0 (by omega) fuel 0 0 0 [] hfuel
  rw [Nat.zero_mul, Nat.add_zero, Nat.mul_zero, List.nil_append] at hL
  refine ⟨_, hL, rfl, hlen, ?_, rfl⟩
  intro k hk
  obtain ⟨m, hm⟩ := hget k hk
  rw [Nat.zero_add] at hm
  exact ⟨m, hm⟩

/-- Witness of C3: the sweep `from = 64, to = 192, incr = 64` on `hostOk`
writes three lines, for the sizes 64, 128 and 192 in this order. -/
theorem sweep_emits_every_size_witness :
    64 ≤ 192 ∧ 1 ≤ 64 ∧ 192 + 64 < 2 ^ 64 ∧
    ∃ r, test_rand_list 4 (fun _ => hostOk) 64 192 64 = some r ∧ r.fin = End.returned 0 ∧
      r.out.length = (192 - 64) / 64 + 1 ∧
      (∀ k, k < (192 - 64) / 64 + 1 →
        ∃ m, r.out[k]? = some (Out.line ((64 + k * 64 : Nat) : Int) m)) ∧
      r.calls = 3 * ((192 - 64) / 64 + 1) :=
  ⟨by decide, by decide, by decide,
    sweep_emits_every_size (fun _ => hostOk) 64 192 64 (by decide) (by decide) (by decide)
      (fun k hk i _ => ⟨4 / 8388608, trial_hostOk (64 + k * 64)
        (by omega) (by have : k ≤ 2 := hk; unfold INT_MAX; omega)⟩)
      4 (by decide)⟩

/-! ## Degenerate sizes -/

/-- With exactly one node, lines 101 to 117 build the list whose only node is
its own successor. -/
theorem build_one_node (h : Host) (l3 : Nat) (hN : l3 / 64 = 1) :
    build h l3 = some ([0], [some 0]) := by
  unfold build
  simp only [hN]
  rfl

/-- C4 as stated fails: for the size 64, one node, the trial on `hostOk`
returns `0` and stores a result. -/
theorem one_node_trial_succeeds :
    64 / 64 ≤ 1 ∧ __test_rand_list hostOk 64 = ⟨End.returned 0, some (4 / 8388608)⟩ :=
  ⟨by decide, trial_hostOk 64 (by decide) (by decide)⟩

/-- C4, amended: for every size with `N = size/64 = 1` the trial reports no
degenerate size.  It returns a non-zero status exactly when pinning or one of
the two allocations fails; when they succeed it builds the one-node list whose
node is its own successor, and it returns `0` with a result as soon as the two
assertions on the cycle counter hold. -/
theorem one_node_trial (h : Host) (l3 : Nat) (hN : l3 / 64 = 1) :
    ((∃ s, (__test_rand_list h l3).fin = End.returned s ∧ s ≠ 0) ↔
      (h.affinity ≠ 0 ∨ h.nodesNull = true ∨ h.idxNull = true)) ∧
    (h.affinity = 0 → h.nodesNull = false → h.idxNull = false →
      build h l3 = some ([0], [some 0]) ∧
      (0 < loopCost h → loopCost h < elapsed h →
        __test_rand_list h l3 =
          ⟨End.returned 0, some (toDouble (elapsed h - loopCost h) / 8388608)⟩)) := by
  constructor
  · constructor
    · rintro ⟨s, hs, hne⟩
      by_contra hcon
      have hpin : h.affinity = 0 := by
        by_contra hp; exact hcon (Or.inl hp)
      have hnodes : h.nodesNull = false := by
        cases hn : h.nodesNull
        · rfl
        · exact absurd (Or.inr (Or.inl hn)) hcon
      have hidx : h.idxNull = false := by
        cases hn : h.idxNull
        · rfl
        · exact absurd (Or.inr (Or.inr hn)) hcon
      rw [trial_eq h l3 hpin hnodes hidx (by omega) (by unfold INT_MAX; omega)] at hs
      split at hs
      · exact End.noConfusion hs
      · split at hs
        · exact End.noConfusion hs
        · exact hne (End.returned.inj hs).symm
    · intro hfail
      refine ⟨1, ?_, by decide⟩
      unfold __test_rand_list
      by_cases hpin : h.affinity = 0
      · rw [if_neg (by simp [hpin])]
        cases hn : h.nodesNull
        · rw [if_neg (by simp)]
          cases hi : h.idxNull
          · rcases hfail with hf | hf | hf
            · exact absurd hpin hf
            · rw [hn] at hf; exact absurd hf (by decide)
            · rw [hi] at hf; exact absurd hf (by decide)
          · rw [if_pos rfl]
        · rw [if_pos rfl]
      · rw [if_pos hpin]
  · intro hpin hnodes hidx
    refine ⟨build_one_node h l3 hN, fun hpos hlt => ?_⟩
    rw [trial_eq h l3 hpin hnodes hidx (by omega) (by unfold INT_MAX; omega),
      if_neg (by omega), if_neg (by omega)]

/-- Witness of C4, amended: the size 64 on `hostOk`. -/
theorem one_node_trial_witness :
    64 / 64 = 1 ∧
    ((∃ s, (__test_rand_list hostOk 64).fin = End.returned s ∧ s ≠ 0) ↔
      (hostOk.affinity ≠ 0 ∨ hostOk.nodesNull = true ∨ hostOk.idxNull = true)) ∧
    build hostOk 64 = some ([0], [some 0]) ∧
    __test_rand_list hostOk 64 =
      ⟨End.returned 0, some (toDouble (elapsed hostOk - loopCost hostOk) / 8388608)⟩ :=
  ⟨by decide, (one_node_trial hostOk 64 (by decide)).1,
    ((one_node_trial hostOk 64 (by decide)).2 rfl rfl rfl).1,
    ((one_node_trial hostOk 64 (by decide)).2 rfl rfl rfl).2 (by decide) (by decide)⟩

/-- C5 fails on the code: for the size 0, with both `calloc` calls returning a
block of no element, the initialising loop and `shuffle` do nothing, and then
the expression `&nodes[ idx[0] ]` reads `idx[0]` outside the index array; the
trial does not return a failure, its behaviour is undefined. -/
theorem zero_nodes_read_outside :
    0 / 64 = 0 ∧ initIdx (0 / 64) (List.replicate (0 / 64) 0) = some [] ∧
    shuffle hostOk.lrand48 [] 0 = some [] ∧
    nodeAt ([] : List Int) 0 = none ∧
    build hostOk 0 = none ∧
    __test_rand_list hostOk 0 = ⟨End.undefined, none⟩ :=
  ⟨by decide, rfl, by decide, rfl, build_undefined _ _ (Or.inl (by decide)),
    trial_undefined _ _ rfl rfl rfl (Or.inl (by decide))⟩


/-! ## The command line -/

/-- The sweep loop writes only measurement lines: the usage message is not in
its output unless it was there before. -/
theorem sweepLoop_no_usage (hosts : Nat → Host) (to_ incr : Nat) :
    ∀ (fuel cur : Nat) (v : List ℚ) (calls : Nat) (out : List Out) (r : Run),
      sweepLoop hosts to_ incr fuel cur v calls out = some r → Out.usage ∉ out →
      Out.usage ∉ r.out := by
  intro fuel
  induction fuel with
  | zero => intro cur v calls out r h; exact Option.noConfusion h
  | succ fuel ih =>
    intro cur v calls out r h hout
    unfold sweepLoop at h
    split at h
    · split at h
      · rw [← Option.some.inj h]; exact hout
      · split at h
        · rw [← Option.some.inj h]; exact hout
        · refine ih _ _ _ _ _ h ?_
          intro hmem
          rcases List.mem_append.1 hmem with hm | hm
          · exact hout hm
          · rw [List.mem_singleton] at hm
            exact Out.noConfusion hm
    · rw [← Option.some.inj h]; exact hout

/-- With three positional arguments `main` is the sweep on the three converted
values, followed by `return 0`. -/
theorem main_four (fuel : Nat) (hosts : Nat → Host) (a0 a1 a2 a3 : String) (r : Run)
    (h : main fuel hosts [a0, a1, a2, a3] = some r) :
    ∃ r0, test_rand_list fuel hosts (toSize (strtoll a1)) (toSize (strtoll a2))
        (toSize (strtoll a3)) = some r0 ∧
      r.out = r0.out ∧ r.calls = r0.calls ∧
      (r.fin = End.returned 0 ∨ (r.fin = r0.fin ∧ ∀ s, r0.fin ≠ End.returned s)) := by
  unfold main at h
  rw [if_neg (by simp)] at h
  simp only [List.getD_cons_succ, List.getD_cons_zero] at h
  cases hs : test_rand_list fuel hosts (toSize (strtoll a1)) (toSize (strtoll a2))
      (toSize (strtoll a3)) with
  | none => rw [hs] at h; exact Option.noConfusion h
  | some r0 =>
    rw [hs] at h
    have h2 := Option.some.inj h
    refine ⟨r0, rfl, ?_⟩
    obtain ⟨o, c, f⟩ := r0
    cases f with
    | returned s =>
      dsimp only at h2
      subst h2
      exact ⟨rfl, rfl, Or.inl rfl⟩
    | aborted =>
      dsimp only at h2
      subst h2
      exact ⟨rfl, rfl, Or.inr ⟨rfl, fun s => by simp⟩⟩
    | undefined =>
      dsimp only at h2
      subst h2
      exact ⟨rfl, rfl, Or.inr ⟨rfl, fun s => by simp⟩⟩

/-- C6 fails on the code: when the only trial fails because the process cannot
be pinned, `test_rand_list` returns `1` and `main`, called with three
arguments, returns the exit status `0`. -/
theorem main_drops_failure :
    test_rand_list 1 (fun _ => hostNoPin) 64 64 64 = some ⟨[], 1, End.returned 1⟩ ∧
    main 1 (fun _ => hostNoPin) ["occupy", "64", "64", "64"] = some ⟨[], 1, End.returned 0⟩ :=
  ⟨by decide, by decide⟩

/-- C7: when the number of positional arguments is not 3, `main` writes the
usage message and nothing else, makes no call of `__test_rand_list`, and
returns the exit status `1`; with exactly 3 positional arguments the run of
`main` is a run of the sweep on the three converted arguments: same output,
same calls of `__test_rand_list`, and no usage message. -/
theorem main_argument_count (fuel : Nat) (hosts : Nat → Host) (argv : List String) :
    (argv.length ≠ 4 → main fuel hosts argv = some ⟨[Out.usage], 0, End.returned 1⟩) ∧
    (argv.length = 4 → ∀ r, main fuel hosts argv = some r →
      Out.usage ∉ r.out ∧
      ∃ r0, test_rand_list fuel hosts (toSize (strtoll (argv.getD 1 "")))
          (toSize (strtoll (argv.getD 2 ""))) (toSize (strtoll (argv.getD 3 ""))) = some r0 ∧
        r.out = r0.out ∧ r.calls = r0.calls) := by
  constructor
  · intro h
    unfold main
    rw [if_pos h]
  · intro h r hr
    obtain ⟨a0, a1, a2, a3, rfl⟩ : ∃ a0 a1 a2 a3, argv = [a0, a1, a2, a3] := by
      match argv, h with
      | [a0, a1, a2, a3], _ => exact ⟨a0, a1, a2, a3, rfl⟩
    obtain ⟨r0, h0, hout, hcalls, _⟩ := main_four fuel hosts a0 a1 a2 a3 r hr
    refine ⟨?_, r0, h0, hout, hcalls⟩
    rw [hout]
    exact sweepLoop_no_usage hosts _ _ fuel _ _ 0 [] r0 h0 (by simp)

/-- Witness of C7: two arguments give the usage message and the status `1`
with no trial; three arguments start the sweep (here its only trial fails). -/
theorem main_argument_count_witness :
    (["occupy", "64", "192"].length ≠ 4 ∧
      main 0 (fun _ => hostOk) ["occupy", "64", "192"] = some ⟨[Out.usage], 0, End.returned 1⟩) ∧
    (["occupy", "64", "64", "64"].length = 4 ∧
      main 1 (fun _ => hostNoPin) ["occupy", "64", "64", "64"] = some ⟨[], 1, End.returned 0⟩ ∧
      Out.usage ∉ ([] : List Out) ∧
      ∃ r0, test_rand_list 1 (fun _ => hostNoPin) (toSize (strtoll "64")) (toSize (strtoll "64"))
          (toSize (strtoll "64")) = some r0 ∧
        ([] : List Out) = r0.out ∧ 1 = r0.calls) :=
  ⟨⟨by decide, (main_argument_count 0 (fun _ => hostOk) ["occupy", "64", "192"]).1 (by decide)⟩,
    ⟨by decide, by decide,
      (main_argument_count 1 (fun _ => hostNoPin) ["occupy", "64", "64", "64"]).2 (by decide)
        ⟨[], 1, End.returned 0⟩ (by decide)⟩⟩


/-- A sweep over the single size 64 on `hostOk`, whatever the increment: one
line, for the size 64, after three trials. -/
theorem sweep_hostOk_64 (incr : Nat) (h1 : 1 ≤ incr) (h2 : incr < 2 ^ 63) :
    test_rand_list 2 (fun _ => hostOk) 64 64 incr
      = some ⟨[Out.line 64 (4 / 8388608)], 3, End.returned 0⟩ := by
  have ht := trial_hostOk 64 (by decide) (by decide)
  have h3 := trials_ok (fun _ => hostOk) 64 0 0 0 0 _ _ _ ht ht ht
  have hrep : List.replicate niter (0 : ℚ) = [0, 0, 0] := rfl
  have hm : ((4 : ℚ) / 8388608 + 4 / 8388608 + 4 / 8388608) / 3 = 4 / 8388608 := by norm_num
  have hnext : ¬ ((64 + incr) % U64 ≤ 64) := by
    unfold U64
    omega
  unfold test_rand_list
  rw [hrep]
  unfold sweepLoop
  rw [if_pos (le_refl _), h3]
  simp only [mean_three, hm]
  unfold sweepLoop
  rw [if_neg hnext, toLong_small 64 (by decide)]
  rfl

/-- The second example of C3: the sweep `from = 64, to = 64, incr = 1` on
`hostOk` writes exactly one line, for the size 64. -/
theorem sweep_one_size :
    test_rand_list 2 (fun _ => hostOk) 64 64 1
      = some ⟨[Out.line 64 (4 / 8388608)], 3, End.returned 0⟩ :=
  sweep_hostOk_64 1 (by decide) (by decide)

/-- C8 as stated fails: with the non-numeric second argument `abc` the usage
message is not written and `main` returns the status `0`; with the third
argument `64x` the sweep runs and writes a measurement line before `main`
returns the status `0`. -/
theorem invalid_argument_is_not_rejected :
    strtoll "abc" = 0 ∧
    main 1 (fun _ => hostOk) ["occupy", "64", "abc", "64"] = some ⟨[], 0, End.returned 0⟩ ∧
    strtoll "64x" = 64 ∧
    main 2 (fun _ => hostOk) ["occupy", "64", "64", "64x"]
      = some ⟨[Out.line 64 (4 / 8388608)], 3, End.returned 0⟩ := by
  refine ⟨by decide, by decide, by decide, ?_⟩
  have e1 : toSize (strtoll "64") = 64 := by decide
  have e2 : toSize (strtoll "64x") = 64 := by decide
  unfold main
  rw [if_neg (by decide)]
  simp only [List.getD_cons_succ, List.getD_cons_zero, e1, e2,
    sweep_hostOk_64 64 (by decide) (by decide)]
  rfl

/-- C8, amended: with exactly 3 positional arguments, valid decimal integers or
not, `main` never writes the usage message.  It converts each argument with
`strtoll` in base 10 and runs the sweep on the three values: a finished run of
`main` has the output and the trials of a finished run of the sweep on these
values, every finished run of the sweep gives such a run of `main`, and when
the sweep returns `0` the exit status of `main` is `0`. -/
theorem main_three_arguments (fuel : Nat) (hosts : Nat → Host) (a0 a1 a2 a3 : String) :
    (∀ r, main fuel hosts [a0, a1, a2, a3] = some r →
      Out.usage ∉ r.out ∧
      ∃ r0, test_rand_list fuel hosts (toSize (strtoll a1)) (toSize (strtoll a2))
          (toSize (strtoll a3)) = some r0 ∧ r.out = r0.out ∧ r.calls = r0.calls) ∧
    (∀ r0, test_rand_list fuel hosts (toSize (strtoll a1)) (toSize (strtoll a2))
          (toSize (strtoll a3)) = some r0 →
      ∃ r, main fuel hosts [a0, a1, a2, a3] = some r ∧ r.out = r0.out ∧ r.calls = r0.calls) ∧
    (∀ r0, test_rand_list fuel hosts (toSize (strtoll a1)) (toSize (strtoll a2))
          (toSize (strtoll a3)) = some r0 → r0.fin = End.returned 0 →
      main fuel hosts [a0, a1, a2, a3] = some ⟨r0.out, r0.calls, End.returned 0⟩) := by
  have hmain : ∀ r0, test_rand_list fuel hosts (toSize (strtoll a1)) (toSize (strtoll a2))
        (toSize (strtoll a3)) = some r0 →
      main fuel hosts [a0, a1, a2, a3] = some (match r0.fin with
        | End.returned _ => ⟨r0.out, r0.calls, End.returned 0⟩
        | e => ⟨r0.out, r0.calls, e⟩) := by
    intro r0 h0
    unfold main
    rw [if_neg (by simp)]
    simp only [List.getD_cons_succ, List.getD_cons_zero, h0, Option.map_some']
  refine ⟨?_, ?_, ?_⟩
  · intro r hr
    obtain ⟨r0, h0, hout, hcalls, _⟩ := main_four fuel hosts a0 a1 a2 a3 r hr
    refine ⟨?_, r0, h0, hout, hcalls⟩
    rw [hout]
    exact sweepLoop_no_usage hosts _ _ fuel _ _ 0 [] r0 h0 (by simp)
  · intro r0 h0
    refine ⟨_, hmain r0 h0, ?_⟩
    obtain ⟨o, c, f⟩ := r0
    cases f <;> exact ⟨rfl, rfl⟩
  · intro r0 h0 hfin
    rw [hmain r0 h0]
    obtain ⟨o, c, f⟩ := r0
    have hf : f = End.returned 0 := hfin
    subst hf
    rfl

/-- Witness of C8, amended: the arguments `64 abc 64`, for which the sweep
returns `0` without a turn. -/
theorem main_three_arguments_witness :
    test_rand_list 1 (fun _ => hostOk) (toSize (strtoll "64")) (toSize (strtoll "abc"))
      (toSize (strtoll "64")) = some ⟨[], 0, End.returned 0⟩ ∧
    main 1 (fun _ => hostOk) ["occupy", "64", "abc", "64"] = some ⟨[], 0, End.returned 0⟩ ∧
    Out.usage ∉ ([] : List Out) ∧
    ∃ r0, test_rand_list 1 (fun _ => hostOk) (toSize (strtoll "64")) (toSize (strtoll "abc"))
      (toSize (strtoll "64")) = some r0 ∧ ([] : List Out) = r0.out ∧ 0 = r0.calls :=
  ⟨by decide,
    (main_three_arguments 1 (fun _ => hostOk) "occupy" "64" "abc" "64").2.2
      ⟨[], 0, End.returned 0⟩ (by decide) rfl,
    (main_three_arguments 1 (fun _ => hostOk) "occupy" "64" "abc" "64").1
      ⟨[], 0, End.returned 0⟩ (by decide)⟩

/-! ## The result of a trial -/

/-- C9 as stated fails above `2^53`: on `hostLong` the trial of the size 64
succeeds with `loop = 1` and `c2 - c1 = 2^53 + 2`, and the value stored through
`cycles` is `2^30`, not `(2^53 + 1) / 8388608`: the conversion to `double`
rounds the numerator `2^53 + 1` to `2^53`. -/
theorem cycles_value_is_rounded :
    loopCost hostLong = 1 ∧ elapsed hostLong = 9007199254740994 ∧
    __test_rand_list hostLong 64 = ⟨End.returned 0, some 1073741824⟩ ∧
    (1073741824 : ℚ) ≠ ((9007199254740994 : ℚ) - 1) / 8388608 := by
  have hl : loopCost hostLong = 1 := by decide
  have he : elapsed hostLong = 9007199254740994 := by decide
  have hround : roundTo 9007199254740993 (excessBits 9007199254740993) = 9007199254740992 := by
    decide
  refine ⟨hl, he, ?_, by norm_num⟩
  rw [trial_eq hostLong 64 rfl rfl rfl (by decide) (by decide), hl, he, if_neg (by decide),
    if_neg (by decide), show (9007199254740994 - 1 : Nat) = 9007199254740993 from rfl]
  unfold toDouble
  rw [hround]
  norm_num

/-- C9, amended: for every successful trial, with `loop` the measured cost of
the empty loop and `c2 - c1` the counter difference of the timed traversal,
both computed on 64 bits, the subtraction `c2 - c1 - loop` does not wrap
(`loop < c2 - c1`) and the value stored through `cycles` is
`(double)(c2 - c1 - loop) / (16384 * 512)`, with `16384 * 512 = 8388608`.
Whenever `c2 - c1 - loop < 2^53` this is `(c2 - c1 - loop) / 8388608` as an
exact rational; above, the numerator is first rounded to 53 significant bits.
The value is strictly positive and at most `2^64 / 8388608`, hence finite.
When the counter samples do not decrease, the two differences are the
differences of the samples. -/
theorem cycles_value (h : Host) (l3 : Nat)
    (hs : (__test_rand_list h l3).fin = End.returned 0) :
    ∃ q : ℚ, (__test_rand_list h l3).cycles = some q ∧
      0 < loopCost h ∧ loopCost h < elapsed h ∧
      usub64 (elapsed h) (loopCost h) + loopCost h = elapsed h ∧
      q = toDouble (elapsed h - loopCost h) / (16384 * 512) ∧
      q = toDouble (elapsed h - loopCost h) / 8388608 ∧
      (elapsed h - loopCost h < 2 ^ 53 →
        q = ((elapsed h : ℚ) - (loopCost h : ℚ)) / 8388608) ∧
      0 < q ∧ q ≤ 2 ^ 64 / 8388608 ∧
      (rdtscp h 0 ≤ rdtscp h 1 → (loopCost h : ℚ) = (rdtscp h 1 : ℚ) - (rdtscp h 0 : ℚ)) ∧
      (rdtscp h 2 ≤ rdtscp h 3 → (elapsed h : ℚ) = (rdtscp h 3 : ℚ) - (rdtscp h 2 : ℚ)) := by
  obtain ⟨h1, hmax, hpin, hnodes, hidx⟩ := trial_returned_zero h l3 hs
  have heq := trial_eq h l3 hpin hnodes hidx h1 hmax
  have hr : ∀ k, rdtscp h k < U64 := fun k => Nat.mod_lt _ (by decide)
  have hmono : ∀ a b : Nat, a ≤ b → b < U64 → ((usub64 b a : Nat) : ℚ) = (b : ℚ) - (a : ℚ) := by
    intro a b hab hb
    rw [usub64_of_le b a hab hb, Nat.cast_sub hab]
  by_cases hc : loopCost h = 0
  · rw [heq, if_pos hc] at hs
    exact absurd hs (by decide)
  · by_cases he : elapsed h ≤ loopCost h
    · rw [heq, if_neg hc, if_pos he] at hs
      exact absurd hs (by decide)
    · have hlt : loopCost h < elapsed h := by omega
      have hcast : (((elapsed h - loopCost h : Nat) : ℚ)) = (elapsed h : ℚ) - (loopCost h : ℚ) :=
        Nat.cast_sub (le_of_lt hlt)
      have h64 : elapsed h - loopCost h < 2 ^ 64 := by
        have := usub64_lt (rdtscp h 3) (rdtscp h 2)
        unfold U64 at this
        unfold elapsed
        omega
      have hpos : (0 : ℚ) < toDouble (elapsed h - loopCost h) :=
        toDouble_pos _ (Nat.sub_pos_of_lt hlt)
      refine ⟨toDouble (elapsed h - loopCost h) / 8388608, ?_, by omega, hlt, ?_, ?_, rfl,
        ?_, ?_, ?_, ?_, ?_⟩
      · rw [heq, if_neg hc, if_neg he]
      · rw [usub64_of_le _ _ (le_of_lt hlt) (usub64_lt _ _)]
        omega
      · norm_num
      · intro hsmall
        rw [toDouble_small _ hsmall, hcast]
      · exact div_pos hpos (by norm_num)
      · exact div_le_div_of_nonneg_right (toDouble_le _ h64) (by norm_num)
      · intro hm
        exact hmono _ _ hm (hr 1)
      · intro hm
        exact hmono _ _ hm (hr 3)

/-- Witness of C9, amended: the trial of `hostOk` on the size 64 (samples 0, 1,
4, 9 of the cycle counter), whose numerator `4` is below `2^53`. -/
theorem cycles_value_witness :
    (__test_rand_list hostOk 64).fin = End.returned 0 ∧
    elapsed hostOk - loopCost hostOk < 2 ^ 53 ∧
    ∃ q : ℚ, (__test_rand_list hostOk 64).cycles = some q ∧
      0 < loopCost hostOk ∧ loopCost hostOk < elapsed hostOk ∧
      usub64 (elapsed hostOk) (loopCost hostOk) + loopCost hostOk = elapsed hostOk ∧
      q = toDouble (elapsed hostOk - loopCost hostOk) / (16384 * 512) ∧
      q = toDouble (elapsed hostOk - loopCost hostOk) / 8388608 ∧
      (elapsed hostOk - loopCost hostOk < 2 ^ 53 →
        q = ((elapsed hostOk : ℚ) - (loopCost hostOk : ℚ)) / 8388608) ∧
      0 < q ∧ q ≤ 2 ^ 64 / 8388608 ∧
      (rdtscp hostOk 0 ≤ rdtscp hostOk 1 →
        (loopCost hostOk : ℚ) = (rdtscp hostOk 1 : ℚ) - (rdtscp hostOk 0 : ℚ)) ∧
      (rdtscp hostOk 2 ≤ rdtscp hostOk 3 →
        (elapsed hostOk : ℚ) = (rdtscp hostOk 3 : ℚ) - (rdtscp hostOk 2 : ℚ)) :=
  ⟨by rw [trial_hostOk 64 (by decide) (by decide)], by decide,
    cycles_value hostOk 64 (by rw [trial_hostOk 64 (by decide) (by decide)])⟩

/-- C10 as stated fails outside `1 ≤ N ≤ INT_MAX`: on `hostFlat` pinning and
both allocations succeed and the loop overhead is measured as zero, yet for the
size 0 and for the size `2^37` the trial does not reach the assertions, its
behaviour is undefined before the first sample of the cycle counter. -/
theorem assertion_failure_not_for_every_size :
    hostFlat.affinity = 0 ∧ hostFlat.nodesNull = false ∧ hostFlat.idxNull = false ∧
    loopCost hostFlat = 0 ∧
    __test_rand_list hostFlat 0 = ⟨End.undefined, none⟩ ∧
    __test_rand_list hostFlat 137438953472 = ⟨End.undefined, none⟩ :=
  ⟨rfl, rfl, rfl, by decide, trial_undefined _ _ rfl rfl rfl (Or.inl (by decide)),
    trial_undefined _ _ rfl rfl rfl (Or.inr (by decide))⟩

/-- C10, amended: given that pinning and both allocations succeed and that
`1 ≤ N = size/64 ≤ INT_MAX`, the trial ends in a failed assertion if and only
if the measured loop overhead is zero or the counter difference `c2 - c1` of
the timed traversal does not exceed the loop overhead; in that case nothing is
stored through `cycles` and the trial does not return. -/
theorem assertion_failure_iff (h : Host) (l3 : Nat) (hpin : h.affinity = 0)
    (hnodes : h.nodesNull = false) (hidx : h.idxNull = false) (h1 : 1 ≤ l3 / 64)
    (hmax : l3 / 64 ≤ INT_MAX) :
    ((__test_rand_list h l3).fin = End.aborted ↔ (loopCost h = 0 ∨ elapsed h ≤ loopCost h)) ∧
    ((__test_rand_list h l3).fin = End.aborted →
      (__test_rand_list h l3).cycles = none ∧
      ∀ s, (__test_rand_list h l3).fin ≠ End.returned s) := by
  have heq := trial_eq h l3 hpin hnodes hidx h1 hmax
  by_cases hc : loopCost h = 0
  · rw [heq, if_pos hc]
    exact ⟨⟨fun _ => Or.inl hc, fun _ => rfl⟩, fun _ => ⟨rfl, fun s => by simp⟩⟩
  · by_cases he : elapsed h ≤ loopCost h
    · rw [heq, if_neg hc, if_pos he]
      exact ⟨⟨fun _ => Or.inr he, fun _ => rfl⟩, fun _ => ⟨rfl, fun s => by simp⟩⟩
    · rw [heq, if_neg hc, if_neg he]
      refine ⟨⟨fun hab => absurd hab (by simp), fun hor => ?_⟩, fun hab => absurd hab (by simp)⟩
      rcases hor with h0 | h0
      · exact absurd h0 hc
      · exact absurd h0 he

/-- Witness of C10, amended: on `hostFlat` and the size 64 the loop overhead is
measured as zero and the trial ends in a failed assertion. -/
theorem assertion_failure_iff_witness :
    hostFlat.affinity = 0 ∧ hostFlat.nodesNull = false ∧ hostFlat.idxNull = false ∧
    1 ≤ 64 / 64 ∧ 64 / 64 ≤ INT_MAX ∧
    (__test_rand_list hostFlat 64).fin = End.aborted ∧
    (__test_rand_list hostFlat 64).cycles = none ∧
    ∀ s, (__test_rand_list hostFlat 64).fin ≠ End.returned s :=
  ⟨rfl, rfl, rfl, by decide, by decide,
    (assertion_failure_iff hostFlat 64 rfl rfl rfl (by decide) (by decide)).1.2
      (Or.inl (by decide)),
    (assertion_failure_iff hostFlat 64 rfl rfl rfl (by decide) (by decide)).2
      ((assertion_failure_iff hostFlat 64 rfl rfl rfl (by decide) (by decide)).1.2
        (Or.inl (by decide)))⟩

/-! ## The sweep, turn by turn -/

/-- A trial that returns `0` has stored a result. -/
theorem trial_zero_cycles (h : Host) (l3 : Nat)
    (hr : (__test_rand_list h l3).fin = End.returned 0) :
    __test_rand_list h l3 = ⟨End.returned 0, some (cyclesOf (__test_rand_list h l3))⟩ := by
  obtain ⟨h1, hmax, hpin, hnodes, hidx⟩ := trial_returned_zero h l3 hr
  have heq := trial_eq h l3 hpin hnodes hidx h1 hmax
  by_cases hc : loopCost h = 0
  · rw [heq, if_pos hc] at hr
    exact absurd hr (by decide)
  · by_cases he : elapsed h ≤ loopCost h
    · rw [heq, if_neg hc, if_pos he] at hr
      exact absurd hr (by decide)
    · rw [heq, if_neg hc, if_neg he]
      rfl

/-- One turn of the sweep loop whose three trials return `0`: the line of the
current size is written, with the mean of the three results, and the loop goes
on with the next size. -/
theorem sweepLoop_turn (hosts : Nat → Host) (to_ incr fuel cur c : Nat) (a0 a1 a2 : ℚ)
    (out : List Out) (hle : cur ≤ to_)
    (h0 : (__test_rand_list (hosts c) cur).fin = End.returned 0)
    (h1 : (__test_rand_list (hosts (c + 1)) cur).fin = End.returned 0)
    (h2 : (__test_rand_list (hosts (c + 2)) cur).fin = End.returned 0) :
    sweepLoop hosts to_ incr (fuel + 1) cur [a0, a1, a2] c out =
      sweepLoop hosts to_ incr fuel ((cur + incr) % U64)
        [cyclesOf (__test_rand_list (hosts c) cur),
          cyclesOf (__test_rand_list (hosts (c + 1)) cur),
          cyclesOf (__test_rand_list (hosts (c + 2)) cur)] (c + 3)
        (out ++ [Out.line (cur : Int)
          ((cyclesOf (__test_rand_list (hosts c) cur)
            + cyclesOf (__test_rand_list (hosts (c + 1)) cur)
            + cyclesOf (__test_rand_list (hosts (c + 2)) cur)) / 3)]) := by
  have hb := (trial_returned_zero _ _ h0).2.1
  have hsmall : cur < 2 ^ 63 := by
    unfold INT_MAX at hb
    omega
  conv_lhs => unfold sweepLoop
  rw [if_pos hle, trials_ok hosts cur c a0 a1 a2 _ _ _ (trial_zero_cycles _ _ h0)
    (trial_zero_cycles _ _ h1) (trial_zero_cycles _ _ h2)]
  simp only [mean_three, toLong_small cur hsmall]

/-- The first `j` turns of the sweep, when the sizes of these turns are in the
range and all their trials return `0`: the loop reaches its turn number `j`
having written the `j` lines of these turns and made `3 j` calls. -/
theorem sweepLoop_unroll (hosts : Nat → Host) (from_ to_ incr : Nat) :
    ∀ (j : Nat), (∀ k, k < j → sizeAt from_ incr k ≤ to_) →
      (∀ k, k < j → ∀ i, i < 3 →
        (__test_rand_list (hosts (3 * k + i)) (sizeAt from_ incr k)).fin = End.returned 0) →
      ∀ (fuel : Nat) (a0 a1 a2 : ℚ), ∃ b0 b1 b2 : ℚ,
        sweepLoop hosts to_ incr (fuel + j) from_ [a0, a1, a2] 0 [] =
          sweepLoop hosts to_ incr fuel (sizeAt from_ incr j) [b0, b1, b2] (3 * j)
            ((List.range j).map (lineAt hosts from_ incr)) := by
  intro j
  induction j with
  | zero => intro _ _ fuel a0 a1 a2; exact ⟨a0, a1, a2, rfl⟩
  | succ j ih =>
    intro hle hok fuel a0 a1 a2
    obtain ⟨b0, b1, b2, hb⟩ := ih (fun k hk => hle k (by omega))
      (fun k hk i hi => hok k (by omega) i hi) (fuel + 1) a0 a1 a2
    have h0 := hok j (by omega) 0 (by omega)
    have h1 := hok j (by omega) 1 (by omega)
    have h2 := hok j (by omega) 2 (by omega)
    rw [Nat.add_zero] at h0
    refine ⟨cyclesOf (__test_rand_list (hosts (3 * j)) (sizeAt from_ incr j)),
      cyclesOf (__test_rand_list (hosts (3 * j + 1)) (sizeAt from_ incr j)),
      cyclesOf (__test_rand_list (hosts (3 * j + 2)) (sizeAt from_ incr j)), ?_⟩
    rw [show fuel + (j + 1) = fuel + 1 + j by omega, hb,
      sweepLoop_turn hosts to_ incr fuel _ (3 * j) b0 b1 b2 _ (hle j (by omega)) h0 h1 h2,
      List.range_succ, List.map_append]
    rfl

/-- The inner loop stops at the first trial that does not return `0`: when the
trials before the repetition `i` return `0` and the trial of the repetition `i`
does not, the loop leaves the function after `i + 1` calls, with `return 1`
when that trial returned a status. -/
theorem trials_stop (hosts : Nat → Host) (size c : Nat) (a0 a1 a2 : ℚ) (i : Nat) (hi : i < 3)
    (hok : ∀ i1, i1 < i → (__test_rand_list (hosts (c + i1)) size).fin = End.returned 0)
    (hne : (__test_rand_list (hosts (c + i)) size).fin ≠ End.returned 0) :
    ∃ (e : End) (v1 : List ℚ),
      trials hosts size (List.range niter) [a0, a1, a2] c = (some e, v1, c + i + 1) ∧
      (∀ s, (__test_rand_list (hosts (c + i)) size).fin = End.returned s → e = End.returned 1) := by
  have hr : List.range niter = [0, 1, 2] := by decide
  have key : ∀ (rest : List Nat) (j : Nat) (v : List ℚ) (d : Nat),
      (__test_rand_list (hosts d) size).fin ≠ End.returned 0 →
      ∃ (e : End) (v1 : List ℚ), trials hosts size (j :: rest) v d = (some e, v1, d + 1) ∧
        (∀ s, (__test_rand_list (hosts d) size).fin = End.returned s → e = End.returned 1) := by
    intro rest j v d hd
    unfold trials
    cases hf : (__test_rand_list (hosts d) size).fin with
    | returned s =>
      have hs : s ≠ 0 := fun h0 => hd (by rw [hf, h0])
      simp only [hf, ne_eq, hs, not_false_eq_true, if_true]
      exact ⟨_, _, rfl, fun _ _ => rfl⟩
    | aborted =>
      simp only [hf]
      exact ⟨_, _, rfl, fun s hs => End.noConfusion hs⟩
    | undefined =>
      simp only [hf]
      exact ⟨_, _, rfl, fun s hs => End.noConfusion hs⟩
  have step : ∀ (rest : List Nat) (j : Nat) (v : List ℚ) (d : Nat),
      (__test_rand_list (hosts d) size).fin = End.returned 0 →
      ∃ v1, trials hosts size (j :: rest) v d = trials hosts size rest v1 (d + 1) := by
    intro rest j v d hd
    refine ⟨(match (__test_rand_list (hosts d) size).cycles with
      | some q => v.set j q
      | none => v), ?_⟩
    conv_lhs => unfold trials
    simp only [hd, ne_eq, not_true_eq_false, if_false]
  rw [hr]
  have h3 : i = 0 ∨ i = 1 ∨ i = 2 := by omega
  rcases h3 with rfl | rfl | rfl
  · exact key _ _ _ _ hne
  · obtain ⟨v1, e1⟩ := step [1, 2] 0 [a0, a1, a2] c (hok 0 (by omega))
    rw [e1]
    exact key _ _ _ _ hne
  · obtain ⟨v1, e1⟩ := step [1, 2] 0 [a0, a1, a2] c (hok 0 (by omega))
    obtain ⟨v2, e2⟩ := step [2] 1 v1 (c + 1) (hok 1 (by omega))
    rw [e1, e2]
    exact key _ _ _ _ hne

/-- One turn of the sweep loop in which a trial does not return `0`: the
function ends there, without a line for the current size. -/
theorem sweepLoop_stop (hosts : Nat → Host) (to_ incr fuel cur c : Nat) (a0 a1 a2 : ℚ)
    (out : List Out) (hle : cur ≤ to_) (i : Nat) (hi : i < 3)
    (hok : ∀ i1, i1 < i → (__test_rand_list (hosts (c + i1)) cur).fin = End.returned 0)
    (hne : (__test_rand_list (hosts (c + i)) cur).fin ≠ End.returned 0) :
    ∃ e, sweepLoop hosts to_ incr (fuel + 1) cur [a0, a1, a2] c out = some ⟨out, c + i + 1, e⟩ ∧
      (∀ s, (__test_rand_list (hosts (c + i)) cur).fin = End.returned s → e = End.returned 1) := by
  obtain ⟨e, v1, ht, he⟩ := trials_stop hosts cur c a0 a1 a2 i hi hok hne
  refine ⟨e, ?_, he⟩
  unfold sweepLoop
  rw [if_pos hle, ht]

/-- C11: if the first trial that returns a non-zero status is the repetition
`i` of the turn `j` of the sweep (the sizes of the turns up to `j` being in the
range), then `test_rand_list` ends there and returns `1`: its output is exactly
the lines of the turns `0 .. j-1`, there is no line for the size of the turn
`j` whatever the number `i` of repetitions that succeeded for it, and the
failing trial is the last call of `__test_rand_list`. -/
theorem sweep_stops_at_first_failure (hosts : Nat → Host) (from_ to_ incr j i : Nat) (s : Int)
    (hi : i < 3) (hle : ∀ k, k ≤ j → sizeAt from_ incr k ≤ to_)
    (hok : ∀ k, k < j → ∀ i1, i1 < 3 →
      (__test_rand_list (hosts (3 * k + i1)) (sizeAt from_ incr k)).fin = End.returned 0)
    (hoki : ∀ i1, i1 < i →
      (__test_rand_list (hosts (3 * j + i1)) (sizeAt from_ incr j)).fin = End.returned 0)
    (hfail : (__test_rand_list (hosts (3 * j + i)) (sizeAt from_ incr j)).fin = End.returned s)
    (hs : s ≠ 0) (fuel : Nat) (hfuel : j < fuel) :
    test_rand_list fuel hosts from_ to_ incr =
      some ⟨(List.range j).map (lineAt hosts from_ incr), 3 * j + i + 1, End.returned 1⟩ := by
  obtain ⟨f, rfl⟩ : ∃ f, fuel = f + 1 + j := ⟨fuel - 1 - j, by omega⟩
  obtain ⟨b0, b1, b2, hb⟩ := sweepLoop_unroll hosts from_ to_ incr j
    (fun k hk => hle k (by omega)) hok (f + 1) 0 0 0
  obtain ⟨e, he, hret⟩ := sweepLoop_stop hosts to_ incr f (sizeAt from_ incr j) (3 * j) b0 b1 b2
    ((List.range j).map (lineAt hosts from_ incr)) (hle j (le_refl _)) i hi hoki
    (by rw [hfail]; intro h; exact hs (End.returned.inj h))
  have hrep : List.replicate niter (0 : ℚ) = [0, 0, 0] := rfl
  unfold test_rand_list
  rw [hrep, hb, he, hret s hfail]

/-- Witness of C11: in the sweep `from = 64, to = 192, incr = 64` the call
number 4, second trial of the size 128, cannot pin the process; the output is
the one line of the size 64, five trials were run, and `1` is returned. -/
theorem sweep_stops_at_first_failure_witness :
    (__test_rand_list (hostsFailAt 4 (3 * 1 + 1)) (sizeAt 64 64 1)).fin = End.returned 1 ∧
    test_rand_list 2 (hostsFailAt 4) 64 192 64 =
      some ⟨(List.range 1).map (lineAt (hostsFailAt 4) 64 64), 3 * 1 + 1 + 1, End.returned 1⟩ :=
  ⟨by decide,
    sweep_stops_at_first_failure (hostsFailAt 4) 64 192 64 1 1 1 (by decide)
      (fun k hk => by interval_cases k <;> decide)
      (fun k hk i1 hi1 => by
        interval_cases k
        interval_cases i1 <;>
          exact (congrArg Trial.fin (trial_hostOk 64 (by decide) (by decide))))
      (fun i1 hi1 => by
        interval_cases i1
        exact (congrArg Trial.fin (trial_hostOk 128 (by decide) (by decide))))
      (by decide) (by decide) 2 (by decide)⟩

/-! ## The mean -/

/-- The function `mean` on an array of `n ≥ 1` values is their sum divided by
`n`. -/
theorem mean_eq_sum_div (v : List ℚ) (n : Int) (h1 : 1 ≤ n) (hn : n = (v.length : Int)) :
    mean v n = some (v.sum / (n : ℚ)) := by
  subst hn
  obtain ⟨s, hs, hsum⟩ := range_foldlM_inv
    (fun (sum : ℚ) i => v[i]?.map (fun x => sum + x))
    (fun i s => i ≤ v.length → s = (v.take i).sum) v.length 0 (0 : ℚ)
    (by
      intro i s _ hi hp
      refine ⟨s + v[i], ?_, ?_⟩
      · show Option.map (fun x => s + x) v[i]? = some (s + v[i])
        rw [List.getElem?_eq_getElem (by omega)]
        rfl
      · intro _
        rw [List.sum_take_succ v i (by omega), hp (by omega)])
    (fun _ => by simp)
  unfold mean
  rw [if_neg (by omega), Int.toNat_ofNat, List.range_eq_range', hs, Nat.zero_add] at *
  rw [hsum (le_refl _), List.take_length]
  rfl

/-- Every finished run of the sweep loop that starts at the turn `j`, after the
lines of the turns before `j`, has written the lines of the turns before some
`j1`, and nothing else; all the trials of these turns returned `0`. -/
theorem sweepLoop_lines (hosts : Nat → Host) (from_ to_ incr : Nat) :
    ∀ (fuel j : Nat) (a0 a1 a2 : ℚ) (r : Run),
      (∀ k, k < j → ∀ i, i < 3 →
        (__test_rand_list (hosts (3 * k + i)) (sizeAt from_ incr k)).fin = End.returned 0) →
      sweepLoop hosts to_ incr fuel (sizeAt from_ incr j) [a0, a1, a2] (3 * j)
        ((List.range j).map (lineAt hosts from_ incr)) = some r →
      ∃ j1, r.out = (List.range j1).map (lineAt hosts from_ incr) ∧
        ∀ k, k < j1 → ∀ i, i < 3 →
          (__test_rand_list (hosts (3 * k + i)) (sizeAt from_ incr k)).fin = End.returned 0 := by
  intro fuel
  induction fuel with
  | zero => intro j a0 a1 a2 r _ h; exact Option.noConfusion h
  | succ fuel ih =>
    intro j a0 a1 a2 r hok h
    by_cases hle : sizeAt from_ incr j ≤ to_
    · by_cases h0 : (__test_rand_list (hosts (3 * j)) (sizeAt from_ incr j)).fin = End.returned 0
      · by_cases h1 :
            (__test_rand_list (hosts (3 * j + 1)) (sizeAt from_ incr j)).fin = End.returned 0
        · by_cases h2 :
              (__test_rand_list (hosts (3 * j + 2)) (sizeAt from_ incr j)).fin = End.returned 0
          · rw [sweepLoop_turn hosts to_ incr fuel _ (3 * j) a0 a1 a2 _ hle h0 h1 h2] at h
            have hl : (List.range (j + 1)).map (lineAt hosts from_ incr)
                = (List.range j).map (lineAt hosts from_ incr) ++ [lineAt hosts from_ incr j] := by
              rw [List.range_succ, List.map_append]
              rfl
            refine ih (j + 1) _ _ _ r ?_ (by rw [hl]; exact h)
            intro k hk i hi
            by_cases hkj : k < j
            · exact hok k hkj i hi
            · have hkj2 : k = j := by omega
              subst hkj2
              have h3 : i = 0 ∨ i = 1 ∨ i = 2 := by omega
              rcases h3 with rfl | rfl | rfl
              · exact h0
              · exact h1
              · exact h2
          · obtain ⟨e, he, _⟩ := sweepLoop_stop hosts to_ incr fuel _ (3 * j) a0 a1 a2
              ((List.range j).map (lineAt hosts from_ incr)) hle 2 (by omega)
              (fun i1 hi1 => by
                have h3 : i1 = 0 ∨ i1 = 1 := by omega
                rcases h3 with rfl | rfl
                · exact h0
                · exact h1) h2
            rw [he] at h
            exact ⟨j, by rw [← Option.some.inj h], hok⟩
        · obtain ⟨e, he, _⟩ := sweepLoop_stop hosts to_ incr fuel _ (3 * j) a0 a1 a2
            ((List.range j).map (lineAt hosts from_ incr)) hle 1 (by omega)
            (fun i1 hi1 => by
              have h3 : i1 = 0 := by omega
              subst h3
              exact h0) h1
          rw [he] at h
          exact ⟨j, by rw [← Option.some.inj h], hok⟩
      · obtain ⟨e, he, _⟩ := sweepLoop_stop hosts to_ incr fuel _ (3 * j) a0 a1 a2
          ((List.range j).map (lineAt hosts from_ incr)) hle 0 (by omega)
          (fun i1 hi1 => absurd hi1 (by omega)) h0
        rw [he] at h
        exact ⟨j, by rw [← Option.some.inj h], hok⟩
    · unfold sweepLoop at h
      rw [if_neg hle] at h
      exact ⟨j, by rw [← Option.some.inj h], hok⟩

/-- C12: for every `n ≥ 1` and every array `v` of `n` values, `mean(v, n)` is
`(v[0] + ... + v[n-1]) / n` over the rationals; `mean([1, 2, 3]) = 2` and
`mean([5]) = 5`; and in every finished run of `test_rand_list` the line number
`k` of the output carries the mean, computed by `mean(v, 3)`, of the results
stored by the three trials of the turn `k`, which are the calls `3k`, `3k+1`,
`3k+2` of `__test_rand_list`, all on the size of that turn. -/
theorem mean_is_average (v : List ℚ) (n : Int) (h1 : 1 ≤ n) (hn : n = (v.length : Int)) :
    mean v n = some (v.sum / (n : ℚ)) ∧
    mean [1, 2, 3] 3 = some 2 ∧ mean [5] 1 = some 5 ∧
    ∀ (fuel : Nat) (hosts : Nat → Host) (from_ to_ incr : Nat) (r : Run),
      test_rand_list fuel hosts from_ to_ incr = some r →
      ∀ k, k < r.out.length → ∃ q0 q1 q2 m : ℚ,
        __test_rand_list (hosts (3 * k)) (sizeAt from_ incr k) = ⟨End.returned 0, some q0⟩ ∧
        __test_rand_list (hosts (3 * k + 1)) (sizeAt from_ incr k) = ⟨End.returned 0, some q1⟩ ∧
        __test_rand_list (hosts (3 * k + 2)) (sizeAt from_ incr k) = ⟨End.returned 0, some q2⟩ ∧
        mean [q0, q1, q2] 3 = some m ∧ m = (q0 + q1 + q2) / 3 ∧
        r.out[k]? = some (Out.line (sizeAt from_ incr k : Int) m) := by
  refine ⟨mean_eq_sum_div v n h1 hn, ?_, ?_, ?_⟩
  · rw [mean_eq_sum_div [1, 2, 3] 3 (by decide) (by decide)]
    norm_num
  · rw [mean_eq_sum_div [5] 1 (by decide) (by decide)]
    norm_num
  · intro fuel hosts from_ to_ incr r hr k hk
    have hrep : List.replicate niter (0 : ℚ) = [0, 0, 0] := rfl
    unfold test_rand_list at hr
    rw [hrep] at hr
    obtain ⟨j1, hout, hok⟩ := sweepLoop_lines hosts from_ to_ incr fuel 0 0 0 0 r
      (fun k hk => absurd hk (by omega)) hr
    rw [hout, List.length_map, List.length_range] at hk
    have e0 := hok k hk 0 (by omega)
    rw [Nat.add_zero] at e0
    refine ⟨_, _, _, _, trial_zero_cycles _ _ e0, trial_zero_cycles _ _ (hok k hk 1 (by omega)),
      trial_zero_cycles _ _ (hok k hk 2 (by omega)), mean_three _ _ _, rfl, ?_⟩
    rw [hout, List.getElem?_map, List.getElem?_range hk]
    rfl

/-- Witness of C12: the array `[1, 2, 3]`, and the only line of the sweep of the
size 64 on `hostOk`. -/
theorem mean_is_average_witness :
    (1 : Int) ≤ 3 ∧ (3 : Int) = (([1, 2, 3] : List ℚ).length : Int) ∧
    mean [1, 2, 3] 3 = some (([1, 2, 3] : List ℚ).sum / ((3 : Int) : ℚ)) ∧
    ∃ q0 q1 q2 m : ℚ,
      __test_rand_list hostOk (sizeAt 64 64 0) = ⟨End.returned 0, some q0⟩ ∧
      __test_rand_list hostOk (sizeAt 64 64 0) = ⟨End.returned 0, some q1⟩ ∧
      __test_rand_list hostOk (sizeAt 64 64 0) = ⟨End.returned 0, some q2⟩ ∧
      mean [q0, q1, q2] 3 = some m ∧ m = (q0 + q1 + q2) / 3 ∧
      ([Out.line 64 (4 / 8388608)] : List Out)[0]? = some (Out.line (sizeAt 64 64 0 : Int) m) :=
  ⟨by decide, by decide, (mean_is_average [1, 2, 3] 3 (by decide) (by decide)).1,
    (mean_is_average [1, 2, 3] 3 (by decide) (by decide)).2.2.2 2 (fun _ => hostOk) 64 64 64
      ⟨[Out.line 64 (4 / 8388608)], 3, End.returned 0⟩
      (sweep_hostOk_64 64 (by decide) (by decide)) 0 (by decide)⟩

/-! ## A sweep with a zero increment -/

/-- With a zero increment the size of every turn is `from`, when `from` is a
64-bit value. -/
theorem sizeAt_zero_incr (from_ : Nat) (hf : from_ < U64) : ∀ k, sizeAt from_ 0 k = from_ := by
  intro k
  induction k with
  | zero => rfl
  | succ k ih =>
    show (sizeAt from_ 0 k + 0) % U64 = from_
    rw [ih, Nat.add_zero, Nat.mod_eq_of_lt hf]

/-- With a zero increment, `from ≤ to` and trials that all return `0`, no bound
on the number of turns lets the sweep loop end. -/
theorem sweepLoop_zero_incr (hosts : Nat → Host) (from_ to_ : Nat) (hft : from_ ≤ to_)
    (hok : ∀ c, (__test_rand_list (hosts c) from_).fin = End.returned 0) :
    ∀ (fuel : Nat) (a0 a1 a2 : ℚ) (c : Nat) (out : List Out),
      sweepLoop hosts to_ 0 fuel from_ [a0, a1, a2] c out = none := by
  have hf : from_ < U64 := by
    have hb := (trial_returned_zero _ _ (hok 0)).2.1
    unfold INT_MAX at hb
    unfold U64
    omega
  intro fuel
  induction fuel with
  | zero => intro a0 a1 a2 c out; rfl
  | succ fuel ih =>
    intro a0 a1 a2 c out
    rw [sweepLoop_turn hosts to_ 0 fuel from_ c a0 a1 a2 out hft (hok _) (hok _) (hok _),
      Nat.add_zero, Nat.mod_eq_of_lt hf]
    exact ih _ _ _ _ _

/-- The bounded loop `sweepLoop` is the turn by turn run of the loop: it gives
the finished run when the function ends within the allowed number of turns,
and nothing when that many turns are completed without an end. -/
theorem sweepLoop_eq_turns (hosts : Nat → Host) (to_ incr : Nat) :
    ∀ (fuel cur : Nat) (v : List ℚ) (calls : Nat) (out : List Out),
      sweepLoop hosts to_ incr fuel cur v calls out =
        match sweepTurns hosts to_ incr fuel ⟨cur, v, calls, out⟩ with
        | Sum.inl r => some r
        | Sum.inr _ => none := by
  intro fuel
  induction fuel with
  | zero => intro cur v calls out; rfl
  | succ fuel ih =>
    intro cur v calls out
    unfold sweepLoop sweepTurns sweepTurn
    by_cases hle : cur ≤ to_
    · simp only [hle, if_true]
      rcases ht : trials hosts cur (List.range niter) v calls with ⟨oe, v1, calls1⟩
      cases oe with
      | some e => rfl
      | none =>
        simp only []
        cases hm : mean v1 (niter : Int) with
        | none => rfl
        | some m => exact ih _ _ _ _
    · simp only [hle, if_false]

/-- Completing one more turn: the run of at most `k + 1` turns is the run of at
most `k` turns followed, if the function has not ended, by one turn. -/
theorem sweepTurns_succ (hosts : Nat → Host) (to_ incr : Nat) :
    ∀ (k : Nat) (s : LoopState),
      sweepTurns hosts to_ incr (k + 1) s =
        match sweepTurns hosts to_ incr k s with
        | Sum.inl r => Sum.inl r
        | Sum.inr s1 => sweepTurn hosts to_ incr s1 := by
  intro k
  induction k with
  | zero =>
    intro s
    simp only [sweepTurns]
    cases sweepTurn hosts to_ incr s <;> rfl
  | succ k ih =>
    intro s
    conv_lhs => unfold sweepTurns
    cases h1 : sweepTurn hosts to_ incr s with
    | inl r => simp only [sweepTurns, h1]
    | inr s1 =>
      simp only []
      rw [ih s1]
      conv_rhs => unfold sweepTurns
      simp only [h1]

/-- One turn whose three trials return `0`: the next state has the next size,
the three results in `v`, three more calls and one more line, for the current
size, with the mean of the three results. -/
theorem sweepTurn_ok (hosts : Nat → Host) (to_ incr cur c : Nat) (a0 a1 a2 : ℚ)
    (out : List Out) (hle : cur ≤ to_)
    (h0 : (__test_rand_list (hosts c) cur).fin = End.returned 0)
    (h1 : (__test_rand_list (hosts (c + 1)) cur).fin = End.returned 0)
    (h2 : (__test_rand_list (hosts (c + 2)) cur).fin = End.returned 0) :
    sweepTurn hosts to_ incr ⟨cur, [a0, a1, a2], c, out⟩ =
      Sum.inr ⟨(cur + incr) % U64,
        [cyclesOf (__test_rand_list (hosts c) cur),
          cyclesOf (__test_rand_list (hosts (c + 1)) cur),
          cyclesOf (__test_rand_list (hosts (c + 2)) cur)], c + 3,
        out ++ [Out.line (cur : Int)
          ((cyclesOf (__test_rand_list (hosts c) cur)
            + cyclesOf (__test_rand_list (hosts (c + 1)) cur)
            + cyclesOf (__test_rand_list (hosts (c + 2)) cur)) / 3)]⟩ := by
  have hb := (trial_returned_zero _ _ h0).2.1
  have hsmall : cur < 2 ^ 63 := by
    unfold INT_MAX at hb
    omega
  unfold sweepTurn
  simp only [hle, if_true]
  rw [trials_ok hosts cur c a0 a1 a2 _ _ _ (trial_zero_cycles _ _ h0)
    (trial_zero_cycles _ _ h1) (trial_zero_cycles _ _ h2)]
  simp only [mean_three, toLong_small cur hsmall]

/-- C19: with `incr = 0`, `from ≤ to` and every trial succeeding, the loop of
`test_rand_list` never ends.  For every `k` the loop completes `k` turns
without leaving the function, and in the state reached after these `k` turns
the current size is `from`, the loop condition `at ≤ to` holds, `3 k` trials
have been made, and exactly `k` lines have been written, the line of the turn
`j` carrying the size `from` and the mean of the three results of that turn.
Accordingly no bound on the number of turns lets `test_rand_list` finish. -/
theorem sweep_zero_increment_never_ends (hosts : Nat → Host) (from_ to_ : Nat)
    (hft : from_ ≤ to_)
    (hok : ∀ c, (__test_rand_list (hosts c) from_).fin = End.returned 0) :
    (∀ k, ∃ s : LoopState,
      sweepTurns hosts to_ 0 k ⟨from_, List.replicate niter 0, 0, []⟩ = Sum.inr s ∧
      s.cur = from_ ∧ s.cur ≤ to_ ∧ s.calls = 3 * k ∧ s.out.length = k ∧
      s.out = (List.range k).map (fun j => Out.line (from_ : Int)
        ((cyclesOf (__test_rand_list (hosts (3 * j)) from_)
          + cyclesOf (__test_rand_list (hosts (3 * j + 1)) from_)
          + cyclesOf (__test_rand_list (hosts (3 * j + 2)) from_)) / 3))) ∧
    (∀ fuel, test_rand_list fuel hosts from_ to_ 0 = none) ∧
    (∀ fuel, test_rand_list fuel hosts from_ to_ 0 =
      match sweepTurns hosts to_ 0 fuel ⟨from_, List.replicate niter 0, 0, []⟩ with
      | Sum.inl r => some r
      | Sum.inr _ => none) := by
  have hf : from_ < U64 := by
    have hb := (trial_returned_zero _ _ (hok 0)).2.1
    unfold INT_MAX at hb
    unfold U64
    omega
  have hrep : List.replicate niter (0 : ℚ) = [0, 0, 0] := rfl
  have hturns : ∀ k, ∃ a0 a1 a2 : ℚ,
      sweepTurns hosts to_ 0 k ⟨from_, List.replicate niter 0, 0, []⟩ =
        Sum.inr ⟨from_, [a0, a1, a2], 3 * k,
          (List.range k).map (fun j => Out.line (from_ : Int)
            ((cyclesOf (__test_rand_list (hosts (3 * j)) from_)
              + cyclesOf (__test_rand_list (hosts (3 * j + 1)) from_)
              + cyclesOf (__test_rand_list (hosts (3 * j + 2)) from_)) / 3))⟩ := by
    intro k
    induction k with
    | zero => exact ⟨0, 0, 0, rfl⟩
    | succ k ih =>
      obtain ⟨a0, a1, a2, hk⟩ := ih
      refine ⟨cyclesOf (__test_rand_list (hosts (3 * k)) from_),
        cyclesOf (__test_rand_list (hosts (3 * k + 1)) from_),
        cyclesOf (__test_rand_list (hosts (3 * k + 2)) from_), ?_⟩
      rw [sweepTurns_succ, hk]
      simp only []
      rw [sweepTurn_ok hosts to_ 0 from_ (3 * k) a0 a1 a2 _ hft (hok _) (hok _) (hok _),
        Nat.add_zero, Nat.mod_eq_of_lt hf, List.range_succ, List.map_append]
      rfl
  refine ⟨?_, ?_, ?_⟩
  · intro k
    obtain ⟨a0, a1, a2, hk⟩ := hturns k
    exact ⟨_, hk, rfl, hft, rfl, by simp only [List.length_map, List.length_range], rfl⟩
  · intro fuel
    unfold test_rand_list
    rw [hrep]
    exact sweepLoop_zero_incr hosts from_ to_ hft hok fuel 0 0 0 0 []
  · intro fuel
    exact sweepLoop_eq_turns hosts to_ 0 fuel _ _ _ _

/-- Witness of C19: the sweep `from = 64, to = 64, incr = 0` on `hostOk`; after
two turns the loop is still running, at the size 64, with six trials made and
two lines written for the size 64. -/
theorem sweep_zero_increment_never_ends_witness :
    64 ≤ 64 ∧
    (∃ s : LoopState,
      sweepTurns (fun _ => hostOk) 64 0 2 ⟨64, List.replicate niter 0, 0, []⟩ = Sum.inr s ∧
      s.cur = 64 ∧ s.calls = 6 ∧
      s.out = [Out.line 64 (4 / 8388608), Out.line 64 (4 / 8388608)]) ∧
    (∀ fuel, test_rand_list fuel (fun _ => hostOk) 64 64 0 = none) := by
  have ht : (__test_rand_list hostOk 64).fin = End.returned 0 :=
    congrArg Trial.fin (trial_hostOk 64 (by decide) (by decide))
  have hc : cyclesOf (__test_rand_list hostOk 64) = 4 / 8388608 := by
    rw [trial_hostOk 64 (by decide) (by decide)]
    rfl
  have hm : ((4 : ℚ) / 8388608 + 4 / 8388608 + 4 / 8388608) / 3 = 4 / 8388608 := by norm_num
  obtain ⟨s, hs, hcur, _, hcalls, _, hout⟩ :=
    (sweep_zero_increment_never_ends (fun _ => hostOk) 64 64 (by decide) (fun _ => ht)).1 2
  refine ⟨by decide, ⟨s, hs, hcur, hcalls, ?_⟩,
    (sweep_zero_increment_never_ends (fun _ => hostOk) 64 64 (by decide) (fun _ => ht)).2.1⟩
  rw [hout]
  simp only [hc, hm]
  rfl

/-! ## The blocks allocated by the trials -/

/-- A call of `__test_rand_list` with the heap is the call without it, and the
heap after the call is the heap before it followed by the blocks that the call
obtained: none when pinning or the first allocation fails, the arena when the
second allocation fails, and the arena and the index array otherwise. -/
theorem trial_heap_eq (h : Host) (l3 : Nat) (heap : Heap) :
    __test_rand_list_heap h l3 heap =
      (__test_rand_list h l3,
        if h.affinity ≠ 0 then heap
        else if h.nodesNull then heap
        else if h.idxNull then heap ++ [l3 / 64 * 64]
        else heap ++ [l3 / 64 * 64, l3 / 64 * 64]) := by
  unfold __test_rand_list_heap __test_rand_list calloc
  by_cases hpin : h.affinity ≠ 0
  · rw [if_pos hpin, if_pos hpin, if_pos hpin]
  · rw [if_neg hpin, if_neg hpin, if_neg hpin]
    cases hn : h.nodesNull with
    | true => simp
    | false =>
      cases hi : h.idxNull with
      | true => simp
      | false =>
        simp only [Bool.false_eq_true, if_false, not_true_eq_false, List.append_assoc,
          List.singleton_append]
        cases build h l3 with
        | none => rfl
        | some p => rfl

/-- The blocks added by one call of `__test_rand_list`: at most two, and
exactly the arena and the index array when the call returns `0`. -/
theorem trial_heap_grow (h : Host) (l3 : Nat) (heap : Heap) :
    ∃ added : Heap, (__test_rand_list_heap h l3 heap).2 = heap ++ added ∧ added.length ≤ 2 ∧
      ((__test_rand_list h l3).fin = End.returned 0 → added = [l3 / 64 * 64, l3 / 64 * 64]) := by
  rw [trial_heap_eq]
  by_cases hpin : h.affinity ≠ 0
  · refine ⟨[], by simp [hpin], by simp, fun hr => ?_⟩
    exact absurd (trial_returned_zero h l3 hr).2.2.1 hpin
  · cases hn : h.nodesNull with
    | true =>
      refine ⟨[], by simp [hpin, hn], by simp, fun hr => ?_⟩
      have := (trial_returned_zero h l3 hr).2.2.2.1
      rw [hn] at this
      exact absurd this (by decide)
    | false =>
      cases hi : h.idxNull with
      | true =>
        refine ⟨[l3 / 64 * 64], by simp [hpin, hn, hi], by simp, fun hr => ?_⟩
        have := (trial_returned_zero h l3 hr).2.2.2.2
        rw [hi] at this
        exact absurd this (by decide)
      | false =>
        exact ⟨[l3 / 64 * 64, l3 / 64 * 64], by simp [hpin, hn, hi], by simp, fun _ => rfl⟩

/-- The inner loop with the heap is the inner loop without it; it adds at most
two blocks for each call it makes, and exactly two for each call when it runs
to its end, which it does when and only when it does not leave the function. -/
theorem trials_heap_spec (hosts : Nat → Host) (size : Nat) :
    ∀ (l : List Nat) (v : List ℚ) (calls : Nat) (heap : Heap),
      ∃ (added : Heap) (c : Nat),
        trials_heap hosts size l v calls heap =
          ((trials hosts size l v calls).1, (trials hosts size l v calls).2.1,
            calls + c, heap ++ added) ∧
        (trials hosts size l v calls).2.2 = calls + c ∧
        added.length ≤ 2 * c ∧ c ≤ l.length ∧
        ((trials hosts size l v calls).1 = none → added.length = 2 * c ∧ c = l.length) ∧
        (trials hosts size l v calls).1 ≠ some (End.returned 0) := by
  intro l
  induction l with
  | nil =>
    intro v calls heap
    exact ⟨[], 0, by simp [trials_heap, trials], rfl, by simp, by simp, fun _ => ⟨rfl, rfl⟩,
      by simp [trials]⟩
  | cons i rest ih =>
    intro v calls heap
    obtain ⟨a1, ha1, hlen1, hzero⟩ := trial_heap_grow (hosts calls) size heap
    have hth : __test_rand_list_heap (hosts calls) size heap
        = (__test_rand_list (hosts calls) size, heap ++ a1) := by
      rw [← ha1, trial_heap_eq]
    have hstop : ∀ (e : End) (v1 : List ℚ), e ≠ End.returned 0 →
        ∃ (added : Heap) (c : Nat),
          ((some e, v1, calls + 1, heap ++ a1) : Option End × List ℚ × Nat × Heap) =
            (((some e, v1, calls + 1) : Option End × List ℚ × Nat).1,
              ((some e, v1, calls + 1) : Option End × List ℚ × Nat).2.1,
              calls + c, heap ++ added) ∧
          ((some e, v1, calls + 1) : Option End × List ℚ × Nat).2.2 = calls + c ∧
          added.length ≤ 2 * c ∧ c ≤ (i :: rest).length ∧
          (((some e, v1, calls + 1) : Option End × List ℚ × Nat).1 = none →
            added.length = 2 * c ∧ c = (i :: rest).length) ∧
          ((some e, v1, calls + 1) : Option End × List ℚ × Nat).1 ≠ some (End.returned 0) := by
      intro e v1 he
      refine ⟨a1, 1, rfl, rfl, by omega, by simp, fun h => absurd h (by simp), ?_⟩
      intro h
      exact he (Option.some.inj h)
    have hgo : (__test_rand_list (hosts calls) size).fin = End.returned 0 → ∀ v1 : List ℚ,
        ∃ (added : Heap) (c : Nat),
          trials_heap hosts size rest v1 (calls + 1) (heap ++ a1) =
            ((trials hosts size rest v1 (calls + 1)).1, (trials hosts size rest v1 (calls + 1)).2.1,
              calls + c, heap ++ added) ∧
          (trials hosts size rest v1 (calls + 1)).2.2 = calls + c ∧
          added.length ≤ 2 * c ∧ c ≤ (i :: rest).length ∧
          ((trials hosts size rest v1 (calls + 1)).1 = none →
            added.length = 2 * c ∧ c = (i :: rest).length) ∧
          (trials hosts size rest v1 (calls + 1)).1 ≠ some (End.returned 0) := by
      intro hfin v1
      have ha : a1.length = 2 := by rw [hzero hfin]; rfl
      obtain ⟨a2, c2, h2, hc2, hl2, hcl, hnone, hne⟩ := ih v1 (calls + 1) (heap ++ a1)
      refine ⟨a1 ++ a2, c2 + 1, ?_, ?_, ?_, ?_, ?_, hne⟩
      · rw [h2, List.append_assoc, Nat.add_assoc, Nat.add_comm 1 c2]
      · rw [hc2]
        omega
      · rw [List.length_append]
        omega
      · rw [List.length_cons]
        omega
      · intro hn
        obtain ⟨e1, e2⟩ := hnone hn
        rw [List.length_append, List.length_cons]
        omega
    unfold trials_heap trials
    simp only [hth]
    rcases ht : __test_rand_list (hosts calls) size with ⟨fin, cyc⟩
    rw [ht] at hgo
    cases fin with
    | returned status =>
      by_cases hst : status = 0
      · subst hst
        simp only [ne_eq, not_true_eq_false, if_false]
        exact hgo rfl _
      · simp only [ne_eq, hst, not_false_eq_true, if_true]
        exact hstop _ _ (by decide)
    | aborted => exact hstop _ _ (by decide)
    | undefined => exact hstop _ _ (by decide)

/-- The loop of `test_rand_list` with the heap is the loop without it, and a
finished run that wrote `m` more lines in `c` more calls of `__test_rand_list`
leaves the heap it started on followed by at least `6 m` and at most `2 c` new
blocks, exactly `2 c = 6 m` when the function returns `0`. -/
theorem sweepLoop_heap_spec (hosts : Nat → Host) (to_ incr : Nat) :
    ∀ (fuel cur : Nat) (v : List ℚ) (calls : Nat) (out : List Out) (heap : Heap),
      (sweepLoop_heap hosts to_ incr fuel cur v calls out heap).map Prod.fst
        = sweepLoop hosts to_ incr fuel cur v calls out ∧
      ∀ (r : Run) (heap1 : Heap),
        sweepLoop_heap hosts to_ incr fuel cur v calls out heap = some (r, heap1) →
        ∃ (added : Heap) (m c : Nat), heap1 = heap ++ added ∧
          r.out.length = out.length + m ∧ r.calls = calls + c ∧
          6 * m ≤ added.length ∧ added.length ≤ 2 * c ∧
          (r.fin = End.returned 0 → added.length = 2 * c ∧ c = 3 * m) := by
  intro fuel
  induction fuel with
  | zero =>
    intro cur v calls out heap
    exact ⟨rfl, fun r heap1 h => absurd h (by simp [sweepLoop_heap])⟩
  | succ fuel ih =>
    intro cur v calls out heap
    obtain ⟨added, c, hT, hc, hlen, hcl, hnone, hne⟩ :=
      trials_heap_spec hosts cur (List.range niter) v calls heap
    have hniter : (List.range niter).length = 3 := rfl
    unfold sweepLoop_heap sweepLoop
    by_cases hle : cur ≤ to_
    · simp only [hle, if_true, hT]
      rcases hR : trials hosts cur (List.range niter) v calls with ⟨oe, v1, calls1⟩
      rw [hR] at hc hnone hne
      simp only [] at hc hnone hne ⊢
      cases oe with
      | some e =>
        simp only [Option.map_some', hc, true_and]
        intro r heap1 h
        simp only [Option.some.injEq, Prod.mk.injEq] at h
        obtain ⟨rfl, rfl⟩ := h
        refine ⟨added, 0, c, rfl, rfl, rfl, by omega, hlen, ?_⟩
        intro hfin
        exact absurd (congrArg some hfin) hne
      | none =>
        obtain ⟨e1, e2⟩ := hnone rfl
        simp only []
        cases hm : mean v1 (niter : Int) with
        | none =>
          simp only [Option.map_some', hc, true_and]
          intro r heap1 h
          simp only [Option.some.injEq, Prod.mk.injEq] at h
          obtain ⟨rfl, rfl⟩ := h
          refine ⟨added, 0, c, rfl, rfl, rfl, by omega, hlen, ?_⟩
          intro hfin
          exact End.noConfusion hfin
        | some q =>
          simp only []
          obtain ⟨ih1, ih2⟩ := ih ((cur + incr) % U64) v1 (calls + c)
            (out ++ [Out.line (toLong cur) q]) (heap ++ added)
          rw [hc]
          refine ⟨ih1, ?_⟩
          intro r heap1 h
          obtain ⟨added2, m2, c2, h1, h2, h3, h4, h5, h6⟩ := ih2 r heap1 h
          refine ⟨added ++ added2, m2 + 1, c + c2, ?_, ?_, ?_, ?_, ?_, ?_⟩
          · rw [h1, List.append_assoc]
          · rw [h2, List.length_append]
            simp only [List.length_cons, List.length_nil]
            omega
          · rw [h3]
            omega
          · rw [List.length_append]
            omega
          · rw [List.length_append]
            omega
          · intro hfin
            obtain ⟨e3, e4⟩ := h6 hfin
            rw [List.length_append]
            omega
    · simp only [hle, if_false, Option.map_some', true_and]
      intro r heap1 h
      simp only [Option.some.injEq, Prod.mk.injEq] at h
      obtain ⟨rfl, rfl⟩ := h
      exact ⟨[], 0, 0, by simp, rfl, rfl, by simp, by simp, fun _ => ⟨rfl, rfl⟩⟩

/-- A trial on `hostOk` leaves the arena and the index array on the heap. -/
theorem trial_heap_hostOk (l3 : Nat) (h1 : 1 ≤ l3 / 64) (hmax : l3 / 64 ≤ INT_MAX)
    (heap : Heap) :
    __test_rand_list_heap hostOk l3 heap
      = (⟨End.returned 0, some (4 / 8388608)⟩, heap ++ [l3 / 64 * 64, l3 / 64 * 64]) := by
  rw [trial_heap_eq, trial_hostOk l3 h1 hmax]
  rfl

/-- The sweep over the single size 64 on `hostOk`, started on an empty heap:
one line after three trials, and six blocks of 64 bytes on the heap when the
function returns. -/
theorem sweep_heap_hostOk_64 :
    test_rand_list_heap 2 (fun _ => hostOk) 64 64 64
      = some (⟨[Out.line 64 (4 / 8388608)], 3, End.returned 0⟩, [64, 64, 64, 64, 64, 64]) := by
  have hr : List.range niter = [0, 1, 2] := by decide
  have hrep : List.replicate niter (0 : ℚ) = [0, 0, 0] := rfl
  have hm : ((4 : ℚ) / 8388608 + 4 / 8388608 + 4 / 8388608) / 3 = 4 / 8388608 := by norm_num
  have hnext : ¬ ((64 + 64) % U64 ≤ 64) := by decide
  have h3 : trials_heap (fun _ => hostOk) 64 [0, 1, 2] [0, 0, 0] 0 []
      = (none, [4 / 8388608, 4 / 8388608, 4 / 8388608], 3, [64, 64, 64, 64, 64, 64]) := by
    have ht : ∀ heap : Heap, __test_rand_list_heap hostOk 64 heap
        = (⟨End.returned 0, some (4 / 8388608)⟩, heap ++ [64, 64]) :=
      fun heap => trial_heap_hostOk 64 (by decide) (by decide) heap
    unfold trials_heap
    rw [ht]
    simp only [ne_eq, not_true_eq_false, if_false]
    unfold trials_heap
    rw [ht]
    simp only [ne_eq, not_true_eq_false, if_false]
    unfold trials_heap
    rw [ht]
    simp only [ne_eq, not_true_eq_false, if_false]
    unfold trials_heap
    rfl
  unfold test_rand_list_heap
  rw [hrep]
  unfold sweepLoop_heap
  rw [if_pos (le_refl _), hr, h3]
  simp only [mean_three, hm]
  unfold sweepLoop_heap
  rw [if_neg hnext, toLong_small 64 (by decide)]
  rfl

/-- C13 as stated fails: the trial of `hostOk` on the size 64, started on an
empty heap, returns `0` and leaves the arena and the index array allocated;
the sweep over that size returns `0` after three trials and leaves six blocks
allocated, not zero. -/
theorem trial_leaves_blocks :
    __test_rand_list_heap hostOk 64 [] = (⟨End.returned 0, some (4 / 8388608)⟩, [64, 64]) ∧
    test_rand_list_heap 2 (fun _ => hostOk) 64 64 64
      = some (⟨[Out.line 64 (4 / 8388608)], 3, End.returned 0⟩, [64, 64, 64, 64, 64, 64]) ∧
    ([64, 64, 64, 64, 64, 64] : Heap).length = 6 :=
  ⟨trial_heap_hostOk 64 (by decide) (by decide) [], sweep_heap_hostOk_64, rfl⟩

/-- C13, amended: no trial releases a block.  A call of `__test_rand_list`
keeps every block that was live before it, adds at most two blocks, and adds
exactly the arena and the index array, of `64 (l3 / 64)` bytes each, when it
returns `0`.  After a finished run of `test_rand_list` that wrote `m` lines in
`c` calls of `__test_rand_list`, the number of live blocks obtained by the
trials is at least `6 m` and at most `2 c`, and it is exactly `2 c = 6 m` when
the function returns `0`.  The run with the heap is the run of
`test_rand_list` itself. -/
theorem trials_release_nothing (fuel : Nat) (hosts : Nat → Host) (from_ to_ incr : Nat)
    (r : Run) (heap : Heap)
    (hrun : test_rand_list_heap fuel hosts from_ to_ incr = some (r, heap)) :
    test_rand_list fuel hosts from_ to_ incr = some r ∧
    6 * r.out.length ≤ heap.length ∧ heap.length ≤ 2 * r.calls ∧
    (r.fin = End.returned 0 → heap.length = 2 * r.calls ∧ r.calls = 3 * r.out.length) ∧
    (∀ (h : Host) (l3 : Nat) (heap0 : Heap),
      (__test_rand_list_heap h l3 heap0).1 = __test_rand_list h l3 ∧
      heap0 <+: (__test_rand_list_heap h l3 heap0).2 ∧
      (__test_rand_list_heap h l3 heap0).2.length ≤ heap0.length + 2 ∧
      ((__test_rand_list h l3).fin = End.returned 0 →
        (__test_rand_list_heap h l3 heap0).2 = heap0 ++ [l3 / 64 * 64, l3 / 64 * 64])) ∧
    (∀ (fuel1 from1 to1 incr1 : Nat),
      (test_rand_list_heap fuel1 hosts from1 to1 incr1).map Prod.fst
        = test_rand_list fuel1 hosts from1 to1 incr1) := by
  obtain ⟨herase, hgrow⟩ :=
    sweepLoop_heap_spec hosts to_ incr fuel from_ (List.replicate niter 0) 0 [] []
  obtain ⟨added, m, c, h1, h2, h3, h4, h5, h6⟩ := hgrow r heap hrun
  have hheap : heap = added := by rw [h1, List.nil_append]
  have hm : r.out.length = m := by rw [h2, List.length_nil, Nat.zero_add]
  have hc : r.calls = c := by rw [h3, Nat.zero_add]
  refine ⟨?_, by rw [hheap, hm]; exact h4, by rw [hheap, hc]; exact h5, ?_, ?_, ?_⟩
  · unfold test_rand_list
    rw [← herase]
    unfold test_rand_list_heap at hrun
    rw [hrun]
    rfl
  · intro hfin
    rw [hheap, hm, hc]
    exact h6 hfin
  · intro h l3 heap0
    obtain ⟨a, ha, hlen, hzero⟩ := trial_heap_grow h l3 heap0
    refine ⟨by rw [trial_heap_eq], by rw [ha]; exact List.prefix_append _ _, ?_, ?_⟩
    · rw [ha, List.length_append]
      omega
    · intro hr
      rw [ha, hzero hr]
  · intro fuel1 from1 to1 incr1
    exact (sweepLoop_heap_spec hosts to1 incr1 fuel1 from1 (List.replicate niter 0) 0 [] []).1

/-- The sweep over the sizes 64 and 128 in which the fourth trial fails to
obtain its index array: the function returns `1` after one line and four
trials, and seven blocks are on the heap, the arena of the failed trial among
them. -/
theorem sweep_heap_failed_allocation :
    test_rand_list_heap 3 (hostsNoIdxAt 3) 64 128 64
      = some (⟨[Out.line 64 (4 / 8388608)], 4, End.returned 1⟩,
        [64, 64, 64, 64, 64, 64, 128]) := by
  have hr : List.range niter = [0, 1, 2] := by decide
  have hrep : List.replicate niter (0 : ℚ) = [0, 0, 0] := rfl
  have hm : ((4 : ℚ) / 8388608 + 4 / 8388608 + 4 / 8388608) / 3 = 4 / 8388608 := by norm_num
  have hnext : (64 + 64) % U64 = 128 := by decide
  have ht : ∀ heap : Heap, __test_rand_list_heap hostOk 64 heap
      = (⟨End.returned 0, some (4 / 8388608)⟩, heap ++ [64, 64]) :=
    fun heap => trial_heap_hostOk 64 (by decide) (by decide) heap
  have hfail : ∀ heap : Heap, __test_rand_list_heap hostNoIdx 128 heap
      = (⟨End.returned 1, none⟩, heap ++ [128]) := by
    intro heap
    rw [trial_heap_eq]
    rfl
  have h0 : hostsNoIdxAt 3 0 = hostOk := rfl
  have h1 : hostsNoIdxAt 3 (0 + 1) = hostOk := rfl
  have h2 : hostsNoIdxAt 3 (0 + 1 + 1) = hostOk := rfl
  have h3 : hostsNoIdxAt 3 3 = hostNoIdx := rfl
  have e1 : trials_heap (hostsNoIdxAt 3) 64 [0, 1, 2] [0, 0, 0] 0 []
      = (none, [4 / 8388608, 4 / 8388608, 4 / 8388608], 3, [64, 64, 64, 64, 64, 64]) := by
    unfold trials_heap
    rw [h0, ht]
    simp only [ne_eq, not_true_eq_false, if_false]
    unfold trials_heap
    rw [h1, ht]
    simp only [ne_eq, not_true_eq_false, if_false]
    unfold trials_heap
    rw [h2, ht]
    simp only [ne_eq, not_true_eq_false, if_false]
    unfold trials_heap
    rfl
  have e2 : ∀ v : List ℚ, trials_heap (hostsNoIdxAt 3) 128 [0, 1, 2] v 3 [64, 64, 64, 64, 64, 64]
      = (some (End.returned 1), v, 4, [64, 64, 64, 64, 64, 64, 128]) := by
    intro v
    unfold trials_heap
    rw [h3, hfail]
    rfl
  unfold test_rand_list_heap
  rw [hrep]
  unfold sweepLoop_heap
  rw [if_pos (by decide), hr, e1]
  simp only [mean_three, hm]
  unfold sweepLoop_heap
  rw [hnext, if_pos (by decide), hr, e2, toLong_small 64 (by decide)]
  rfl

/-- Witness of C13, amended: the sweep over the single size 64 on `hostOk`
leaves six blocks, two for each of its three trials; the sweep over the sizes
64 and 128 whose fourth trial fails to obtain its index array leaves seven
blocks after one line and four trials. -/
theorem trials_release_nothing_witness :
    test_rand_list_heap 2 (fun _ => hostOk) 64 64 64
      = some (⟨[Out.line 64 (4 / 8388608)], 3, End.returned 0⟩, [64, 64, 64, 64, 64, 64]) ∧
    test_rand_list 2 (fun _ => hostOk) 64 64 64
      = some ⟨[Out.line 64 (4 / 8388608)], 3, End.returned 0⟩ ∧
    ([64, 64, 64, 64, 64, 64] : Heap).length = 2 * 3 ∧
    test_rand_list_heap 3 (hostsNoIdxAt 3) 64 128 64
      = some (⟨[Out.line 64 (4 / 8388608)], 4, End.returned 1⟩,
        [64, 64, 64, 64, 64, 64, 128]) ∧
    test_rand_list 3 (hostsNoIdxAt 3) 64 128 64
      = some ⟨[Out.line 64 (4 / 8388608)], 4, End.returned 1⟩ ∧
    6 * 1 ≤ ([64, 64, 64, 64, 64, 64, 128] : Heap).length ∧
    ([64, 64, 64, 64, 64, 64, 128] : Heap).length ≤ 2 * 4 :=
  ⟨sweep_heap_hostOk_64,
    (trials_release_nothing 2 (fun _ => hostOk) 64 64 64
      ⟨[Out.line 64 (4 / 8388608)], 3, End.returned 0⟩ [64, 64, 64, 64, 64, 64]
      sweep_heap_hostOk_64).1,
    ((trials_release_nothing 2 (fun _ => hostOk) 64 64 64
      ⟨[Out.line 64 (4 / 8388608)], 3, End.returned 0⟩ [64, 64, 64, 64, 64, 64]
      sweep_heap_hostOk_64).2.2.2.1 rfl).1,
    sweep_heap_failed_allocation,
    (trials_release_nothing 3 (hostsNoIdxAt 3) 64 128 64
      ⟨[Out.line 64 (4 / 8388608)], 4, End.returned 1⟩ [64, 64, 64, 64, 64, 64, 128]
      sweep_heap_failed_allocation).1,
    (trials_release_nothing 3 (hostsNoIdxAt 3) 64 128 64
      ⟨[Out.line 64 (4 / 8388608)], 4, End.returned 1⟩ [64, 64, 64, 64, 64, 64, 128]
      sweep_heap_failed_allocation).2.1,
    (trials_release_nothing 3 (hostsNoIdxAt 3) 64 128 64
      ⟨[Out.line 64 (4 / 8388608)], 4, End.returned 1⟩ [64, 64, 64, 64, 64, 64, 128]
      sweep_heap_failed_allocation).2.2.1⟩

/-! ## The indices used by shuffle -/

/-- With `n ≤ 1` a pass of `shuffle` runs no step: it leaves the array and the
number of calls of `lrand48` as they are, whatever the array. -/
theorem shufflePass_small (rnd : Nat → Nat) (n : Int) (hn : n ≤ 1) (s : List Int × Nat) :
    shufflePass rnd n s = some s := by
  unfold shufflePass
  rw [show (n - 1).toNat = 0 by omega]
  rfl

/-- C14: for every `n`, every array of `n` entries and every sequence of
random values, the call `shuffle(idx, n)` is defined, so that it reads or
writes no entry outside `0 .. n-1` and takes no remainder by zero.  In each
step, that is for each `i` with `0 ≤ i ≤ n-2`, every random value `r` and every
array of `n` entries, the divisor `n-(i+1)` is at least `1`, the partner
`(i+1) + r % (n-(i+1))` lies in `i+1 .. n-1`, and the step is defined.  For
`n ≤ 1` the inner loop has no counter value at all: a pass changes neither the
array nor the number of calls of `lrand48`, and the call is defined even on an
array with no entry. -/
theorem shuffle_stays_in_bounds (rnd : Nat → Nat) (idx : List Int) (n : Int)
    (hn : n = (idx.length : Int)) :
    (∃ out, shuffle rnd idx n = some out) ∧
    (∀ (r i : Nat) (arr : List Int), arr.length = idx.length → (i : Int) ≤ n - 2 →
      1 ≤ n - ((i : Int) + 1) ∧
      (i : Int) + 1 ≤ ((i : Int) + 1) + (r : Int).tmod (n - ((i : Int) + 1)) ∧
      ((i : Int) + 1) + (r : Int).tmod (n - ((i : Int) + 1)) ≤ n - 1 ∧
      ∃ out, shuffleBody r n arr i = some out) ∧
    (n ≤ 1 → List.range (n - 1).toNat = [] ∧
      ∀ (arr : List Int) (k : Nat),
        shufflePass rnd n (arr, k) = some (arr, k) ∧ shuffle rnd arr n = some arr) := by
  refine ⟨?_, ?_, ?_⟩
  · obtain ⟨out, h, _⟩ := shuffle_perm_aux rnd idx
    exact ⟨out, by rw [hn]; exact h⟩
  · intro r i arr harr hi
    have hd : 1 ≤ n - ((i : Int) + 1) := by omega
    have hmod : (r : Int).tmod (n - ((i : Int) + 1)) = (r : Int) % (n - ((i : Int) + 1)) :=
      Int.tmod_eq_emod (Int.natCast_nonneg _) (by omega)
    have h0 : 0 ≤ (r : Int) % (n - ((i : Int) + 1)) := Int.emod_nonneg _ (by omega)
    have h1 : (r : Int) % (n - ((i : Int) + 1)) < n - ((i : Int) + 1) :=
      Int.emod_lt_of_pos _ (by omega)
    refine ⟨hd, by rw [hmod]; omega, by rw [hmod]; omega, ?_⟩
    obtain ⟨j, _, _, h⟩ := shuffleBody_eq r n arr i (by rw [harr]; exact hn) (by omega)
    exact ⟨_, h⟩
  · intro h1
    refine ⟨by rw [show (n - 1).toNat = 0 by omega]; rfl, fun arr k => ?_⟩
    have hp : ∀ s, shufflePass rnd n s = some s := shufflePass_small rnd n h1
    refine ⟨hp _, ?_⟩
    obtain ⟨s1, hs1, heq⟩ := foldlM_inv (fun s (_ : Nat) => shufflePass rnd n s)
      (fun t : List Int × Nat => t = (arr, 0)) (fun _ => True)
      (fun s _ hs _ => ⟨s, hp s, hs⟩) (List.range (1 <<< 4)) (arr, 0)
      (fun _ _ => trivial) rfl
    unfold shuffle
    rw [hs1, heq]
    rfl

/-- Witness of C14: the array `[10, 20, 30]`, the step `i = 1` with the random
value `5`, and the empty array. -/
theorem shuffle_stays_in_bounds_witness :
    (3 : Int) = (([10, 20, 30] : List Int).length : Int) ∧
    (∃ out, shuffle (fun k => 7 * k + 3) [10, 20, 30] 3 = some out) ∧
    (1 ≤ (3 : Int) - (((1 : Nat) : Int) + 1) ∧
      ((1 : Nat) : Int) + 1 ≤ (((1 : Nat) : Int) + 1)
        + ((5 : Nat) : Int).tmod ((3 : Int) - (((1 : Nat) : Int) + 1)) ∧
      (((1 : Nat) : Int) + 1) + ((5 : Nat) : Int).tmod ((3 : Int) - (((1 : Nat) : Int) + 1))
        ≤ (3 : Int) - 1 ∧
      ∃ out, shuffleBody 5 3 [10, 20, 30] 1 = some out) ∧
    (List.range ((0 : Int) - 1).toNat = [] ∧
      ∀ (arr : List Int) (k : Nat),
        shufflePass (fun k => 7 * k + 3) 0 (arr, k) = some (arr, k) ∧
        shuffle (fun k => 7 * k + 3) arr 0 = some arr) :=
  ⟨by decide, (shuffle_stays_in_bounds (fun k => 7 * k + 3) [10, 20, 30] 3 (by decide)).1,
    (shuffle_stays_in_bounds (fun k => 7 * k + 3) [10, 20, 30] 3 (by decide)).2.1 5 1
      [10, 20, 30] rfl (by decide),
    (shuffle_stays_in_bounds (fun k => 7 * k + 3) [] 0 (by decide)).2.2 (by decide)⟩

/-! ## The number of dereferences -/

/-- C16: one expansion of `unroll(head)`, that is `_next512`, follows `next`
exactly 512 times, and the timed loop of `ITERS` turns follows it exactly
`ITERS * 512 = 8388608` times.  In an arena linked as the cycle of the `N`
nodes in the order of the index array, the warm-up started at
`&nodes[idx[0]]` is defined and ends at `&nodes[idx[512 % N]]`, the timed walk
started again at `&nodes[idx[0]]` is defined and ends at
`&nodes[idx[8388608 % N]]`, and the result of the trial is the counter
difference divided by this same number `8388608`. -/
theorem unroll_counts_dereferences (p : List Nat) (nodes : Arena) (hl : Linked p nodes)
    (h1 : 1 ≤ p.length) :
    (∀ (arena : Arena) (item : Ptr), unroll arena item = follow arena 512 item) ∧
    (∀ (arena : Arena) (item : Ptr),
      timedLoop arena ITERS item = follow arena 8388608 item) ∧
    ITERS * 512 = 8388608 ∧
    nodeAt (p.map (fun k : Nat => (k : Int))) 0 >>= unroll nodes
      = nodeAt (p.map (fun k : Nat => (k : Int))) (512 % p.length) ∧
    nodeAt (p.map (fun k : Nat => (k : Int))) 0 >>= timedLoop nodes ITERS
      = nodeAt (p.map (fun k : Nat => (k : Int))) (8388608 % p.length) ∧
    (∃ a, a < nodes.length ∧
      nodeAt (p.map (fun k : Nat => (k : Int))) (8388608 % p.length) = some (some a)) ∧
    ∀ h : Host, measure h (p.map (fun k : Nat => (k : Int))) nodes =
      if loopCost h = 0 then ⟨End.aborted, none⟩
      else if elapsed h ≤ loopCost h then ⟨End.aborted, none⟩
      else ⟨End.returned 0, some (toDouble (elapsed h - loopCost h) / 8388608)⟩ := by
  have hI : 512 * ITERS = 8388608 := by decide
  have e1 : unroll nodes = follow nodes 512 := funext (fun x => _next512_eq nodes x)
  have e2 : timedLoop nodes ITERS = follow nodes (512 * ITERS) :=
    funext (timedLoop_eq nodes ITERS)
  have hpos : 0 < p.length := by omega
  have hat : ∀ k, k < p.length →
      nodeAt (p.map (fun k : Nat => (k : Int))) k = some (p[k]?) := by
    intro k hk
    rw [nodeAt_map, List.getElem?_eq_getElem hk]
    rfl
  refine ⟨fun arena item => _next512_eq arena item, ?_, by decide, ?_, ?_, ?_,
    fun h => measure_linked h p nodes hl h1⟩
  · intro arena item
    rw [timedLoop_eq arena ITERS item, hI]
  · rw [e1, head_follow p nodes hl h1 512, hat _ (Nat.mod_lt _ hpos)]
  · rw [e2, head_follow p nodes hl h1 (512 * ITERS), hI, hat _ (Nat.mod_lt _ hpos)]
  · have hk : 8388608 % p.length < p.length := Nat.mod_lt _ hpos
    have hk1 : (8388608 % p.length + 1) % p.length < p.length := Nat.mod_lt _ hpos
    refine ⟨p[8388608 % p.length], ?_, ?_⟩
    · have hn := hl.2 (8388608 % p.length) _ _ hk (List.getElem?_eq_getElem hk)
        (List.getElem?_eq_getElem hk1)
      by_contra hcon
      rw [List.getElem?_eq_none (by omega)] at hn
      exact Option.noConfusion hn
    · rw [hat _ hk, List.getElem?_eq_getElem hk]

/-- The arena of three nodes linked in the order `2, 0, 1`. -/
theorem linked_example : Linked [2, 0, 1] [some 1, some 2, some 0] := by
  refine ⟨rfl, ?_⟩
  intro t a b ht ha hb
  have h3 : t = 0 ∨ t = 1 ∨ t = 2 := by
    have : t < 3 := ht
    omega
  rcases h3 with rfl | rfl | rfl
  · have ea : a = 2 := (Option.some.inj ha).symm
    have eb : b = 0 := (Option.some.inj hb).symm
    subst ea; subst eb
    rfl
  · have ea : a = 0 := (Option.some.inj ha).symm
    have eb : b = 1 := (Option.some.inj hb).symm
    subst ea; subst eb
    rfl
  · have ea : a = 1 := (Option.some.inj ha).symm
    have eb : b = 2 := (Option.some.inj hb).symm
    subst ea; subst eb
    rfl

/-- Witness of C16: the arena of three nodes linked in the order `2, 0, 1`;
`8388608 % 3 = 2`, and the timed walk ends at `&nodes[idx[2]]`, the node 1. -/
theorem unroll_counts_dereferences_witness :
    Linked [2, 0, 1] [some 1, some 2, some 0] ∧ 1 ≤ ([2, 0, 1] : List Nat).length ∧
    ITERS * 512 = 8388608 ∧
    nodeAt (([2, 0, 1] : List Nat).map (fun k : Nat => (k : Int))) 0
        >>= timedLoop [some 1, some 2, some 0] ITERS
      = nodeAt (([2, 0, 1] : List Nat).map (fun k : Nat => (k : Int)))
          (8388608 % ([2, 0, 1] : List Nat).length) ∧
    nodeAt (([2, 0, 1] : List Nat).map (fun k : Nat => (k : Int)))
        (8388608 % ([2, 0, 1] : List Nat).length) = some (some 1) :=
  ⟨linked_example, by decide,
    (unroll_counts_dereferences [2, 0, 1] _ linked_example (by decide)).2.2.1,
    (unroll_counts_dereferences [2, 0, 1] _ linked_example (by decide)).2.2.2.2.1,
    by decide⟩

/-! ## The linking loop -/

/-- The entries of an index array of naturals, read as ints. -/
theorem getElem?_map_cast (p : List Nat) (i a : Nat) :
    (p.map (fun k : Nat => (k : Int)))[i]? = some (a : Int) ↔ p[i]? = some a := by
  rw [List.getElem?_map]
  cases p[i]? with
  | none => simp
  | some b => simp

/-- C15, in the range of an int: for every `1 ≤ N ≤ INT_MAX`, every index array
`idx` that is a permutation of `0 .. N-1` and every arena of `N` nodes, lines
112 to 117 of `__test_rand_list` are defined and leave an arena of `N` nodes in
which the successor of `nodes[idx[i]]` is `nodes[idx[i+1]]` for every
`0 ≤ i < N-1` and the successor of `nodes[idx[N-1]]` is `nodes[idx[0]]`; every
node of the arena is one of these `nodes[idx[i]]`, so that no other successor
is left in the arena; and the head `&nodes[idx[0]]` used by the warm-up and by
the timed walk is a node of the arena. -/
theorem link_sets_successors (N : Nat) (idx : List Int) (nodes0 : Arena) (h1 : 1 ≤ N)
    (hmax : N ≤ INT_MAX) (hperm : idx.Perm ((List.range N).map (fun k : Nat => (k : Int))))
    (hn0 : nodes0.length = N) :
    ∃ nodes, link N idx nodes0 = some nodes ∧ nodes.length = N ∧
      (∀ i a b : Nat, i + 1 < N → idx[i]? = some (a : Int) → idx[i + 1]? = some (b : Int) →
        nodes[a]? = some (some b)) ∧
      (∀ a b : Nat, idx[N - 1]? = some (a : Int) → idx[0]? = some (b : Int) →
        nodes[a]? = some (some b)) ∧
      (∀ k : Nat, k < N → ∃ i, i < N ∧ idx[i]? = some (k : Int)) ∧
      ∃ a : Nat, a < N ∧ idx[0]? = some (a : Int) ∧ nodeAt idx 0 = some (some a) := by
  obtain ⟨p, rfl, hp⟩ := perm_range_nat idx N hperm
  have hlen : p.length = N := by rw [hp.length_eq, List.length_range]
  have hnodup : p.Nodup := hp.nodup_iff.2 (List.nodup_range _)
  have hlt : ∀ a ∈ p, a < p.length := by
    intro a ha
    rw [hlen]
    exact List.mem_range.1 (hp.mem_iff.1 ha)
  obtain ⟨nodes, hnodes, hl⟩ := link_linked p nodes0 hnodup hlt (by omega) (by omega)
    (by rw [hn0, hlen])
  rw [hlen] at hnodes
  have h0 : 0 < p.length := by omega
  refine ⟨nodes, hnodes, by rw [hl.1, hlen], ?_, ?_, ?_, ?_⟩
  · intro i a b hi ha hb
    rw [getElem?_map_cast] at ha hb
    have hm : (i + 1) % p.length = i + 1 := Nat.mod_eq_of_lt (by omega)
    exact hl.2 i a b (by omega) ha (by rw [hm]; exact hb)
  · intro a b ha hb
    rw [getElem?_map_cast] at ha hb
    have hm : (N - 1 + 1) % p.length = 0 := by
      rw [show N - 1 + 1 = p.length by omega, Nat.mod_self]
    exact hl.2 (N - 1) a b (by omega) ha (by rw [hm]; exact hb)
  · intro k hk
    have hmem : k ∈ p := hp.mem_iff.2 (List.mem_range.2 hk)
    obtain ⟨i, hi⟩ := List.mem_iff_getElem?.1 hmem
    have hil : i < p.length := by
      by_contra hcon
      rw [List.getElem?_eq_none (by omega)] at hi
      exact Option.noConfusion hi
    exact ⟨i, by omega, (getElem?_map_cast p i k).2 hi⟩
  · refine ⟨p[0], ?_, (getElem?_map_cast p 0 _).2 (List.getElem?_eq_getElem h0), ?_⟩
    · rw [← hlen]
      exact hlt _ (List.getElem_mem _)
    · rw [nodeAt_map, List.getElem?_eq_getElem h0]
      rfl

/-- Witness of C15: the index array `[2, 0, 1]` and the zeroed arena of three
nodes. -/
theorem link_sets_successors_witness :
    1 ≤ 3 ∧ 3 ≤ INT_MAX ∧
    ([2, 0, 1] : List Int).Perm ((List.range 3).map (fun k : Nat => (k : Int))) ∧
    ∃ nodes, link 3 [2, 0, 1] [none, none, none] = some nodes ∧ nodes.length = 3 ∧
      (∀ i a b : Nat, i + 1 < 3 → ([2, 0, 1] : List Int)[i]? = some (a : Int) →
        ([2, 0, 1] : List Int)[i + 1]? = some (b : Int) → nodes[a]? = some (some b)) ∧
      (∀ a b : Nat, ([2, 0, 1] : List Int)[3 - 1]? = some (a : Int) →
        ([2, 0, 1] : List Int)[0]? = some (b : Int) → nodes[a]? = some (some b)) ∧
      (∀ k : Nat, k < 3 → ∃ i, i < 3 ∧ ([2, 0, 1] : List Int)[i]? = some (k : Int)) ∧
      ∃ a : Nat, a < 3 ∧ ([2, 0, 1] : List Int)[0]? = some (a : Int) ∧
        nodeAt [2, 0, 1] 0 = some (some a) :=
  ⟨by decide, by decide, by decide,
    link_sets_successors 3 [2, 0, 1] [none, none, none] (by decide) (by decide) (by decide) rfl⟩

/-- C15 as stated fails beyond the range of an int: with `N = 2^31` nodes and
the index array `0, 1, .., 2^31 - 1`, the int counter of the linking loop
`for (int i = 1; i < nlines; i++)` overflows and lines 112 to 117 leave no
arena. -/
theorem link_not_for_every_size :
    1 ≤ 2147483648 ∧
    ((List.range 2147483648).map (fun k : Nat => (k : Int))).Perm
      ((List.range 2147483648).map (fun k : Nat => (k : Int))) ∧
    link 2147483648 ((List.range 2147483648).map (fun k : Nat => (k : Int)))
      (List.replicate 2147483648 none) = none := by
  refine ⟨by decide, List.Perm.refl _, ?_⟩
  have hf : forInt 1 2147483648
      (linkBody ((List.range 2147483648).map (fun k : Nat => (k : Int))))
      (List.replicate 2147483648 none, some 0) = none := by
    unfold forInt
    rw [if_pos ⟨by decide, by decide⟩]
  unfold link
  rw [nodeAt_map, List.getElem?_range (by decide)]
  simp only [Option.map_some', Option.bind_eq_bind, Option.some_bind, hf, Option.none_bind]

/-! ## The permutation made by shuffle -/

/-- The entries of an array after the exchange of the entries `i` and `j`. -/
theorem getElem?_exchange (cur : List Int) (i j x : Nat) (hi : i < cur.length)
    (hj : j < cur.length) :
    ((cur.set i cur[j]).set j cur[i])[x]?
      = cur[if x = i then j else if x = j then i else x]? := by
  rw [List.getElem?_set, List.getElem?_set]
  by_cases h2 : j = x
  · subst h2
    rw [if_pos rfl, if_pos (by simpa using hj)]
    by_cases h1 : j = i
    · subst h1
      rw [if_pos rfl, List.getElem?_eq_getElem hj]
    · rw [if_neg h1, if_pos rfl, List.getElem?_eq_getElem hi]
  · rw [if_neg h2]
    by_cases h1 : i = x
    · subst h1
      rw [if_pos rfl, if_pos hi, if_pos rfl, List.getElem?_eq_getElem hj]
    · rw [if_neg h1, if_neg (fun h => h1 h.symm), if_neg (fun h => h2 h.symm)]

/-- The value of the transposition of two positions of an array of `n`
entries. -/
theorem swap_val (n i j : Nat) (hi : i < n) (hj : j < n) (x : Fin n) :
    ((Equiv.swap (⟨i, hi⟩ : Fin n) ⟨j, hj⟩ x : Fin n) : Nat)
      = if x.val = i then j else if x.val = j then i else x.val := by
  rw [Equiv.swap_apply_def]
  by_cases h1 : x = ⟨i, hi⟩
  · have : x.val = i := congrArg Fin.val h1
    rw [if_pos h1, if_pos this]
  · have h1v : ¬ x.val = i := fun h => h1 (Fin.ext h)
    rw [if_neg h1, if_neg h1v]
    by_cases h2 : x = ⟨j, hj⟩
    · have : x.val = j := congrArg Fin.val h2
      rw [if_pos h2, if_pos this]
    · have h2v : ¬ x.val = j := fun h => h2 (Fin.ext h)
      rw [if_neg h2, if_neg h2v]

/-- One pass of `shuffle` over an array of `n` entries makes `n - 1` calls of
`lrand48` and rearranges the array by a permutation of the positions that is
the product of `n - 1` transpositions, hence of sign `(-1)^(n-1)`, and that
moves the position `0` when `n ≥ 2`. -/
theorem shufflePass_sign (rnd : Nat → Nat) (n : Nat) (cur : List Int) (k : Nat)
    (hlen : cur.length = n) :
    ∃ (out : List Int) (τ : Equiv.Perm (Fin n)),
      shufflePass rnd (n : Int) (cur, k) = some (out, k + (n - 1)) ∧ out.length = n ∧
      (∀ x : Fin n, out[x.val]? = cur[(τ x).val]?) ∧
      Equiv.Perm.sign τ = (-1) ^ (n - 1) ∧
      (∀ h0 : 0 < n, 2 ≤ n → τ ⟨0, h0⟩ ≠ ⟨0, h0⟩) := by
  obtain ⟨s, hs, hcount, hslen, τ, hτ, hsign, _, hmove⟩ := range_foldlM_inv
    (fun (s : List Int × Nat) i =>
      (shuffleBody (rnd s.2) (n : Int) s.1 i).map (fun a => (a, s.2 + 1)))
    (fun i (s : List Int × Nat) => s.2 = k + i ∧ s.1.length = n ∧
      ∃ τ : Equiv.Perm (Fin n), (∀ x : Fin n, s.1[x.val]? = cur[(τ x).val]?) ∧
        Equiv.Perm.sign τ = (-1) ^ i ∧ (i = 0 → τ = 1) ∧
        (1 ≤ i → ∀ h0 : 0 < n, τ ⟨0, h0⟩ ≠ ⟨0, h0⟩))
    (n - 1) 0 (cur, k)
    (by
      intro i s _ hi ⟨hc, hl, τ, hτ, hsign, hone, hmove⟩
      obtain ⟨j, hij, hj, hbody⟩ := shuffleBody_eq (rnd s.2) (n : Int) s.1 i
        (by rw [hl]) (by omega)
      have hin : i < n := by omega
      have hjn : j < n := by omega
      have hil : i < s.1.length := by omega
      refine ⟨((s.1.set i s.1[j]).set j s.1[i], s.2 + 1), ?_, by omega, by simpa using hl,
        τ * Equiv.swap ⟨i, hin⟩ ⟨j, hjn⟩, ?_, ?_, fun h => absurd h (by omega), ?_⟩
      · show Option.map _ (shuffleBody (rnd s.2) (n : Int) s.1 i) = _
        rw [hbody]
        rfl
      · intro x
        show ((s.1.set i s.1[j]).set j s.1[i])[x.val]? = _
        rw [getElem?_exchange s.1 i j x.val (by omega) hj, Equiv.Perm.mul_apply, ← hτ,
          swap_val n i j hin hjn x]
      · rw [Equiv.Perm.sign_mul, hsign, Equiv.Perm.sign_swap
          (fun h => by have := congrArg Fin.val h; simp at this; omega), pow_succ]
      · intro _ h0
        rw [Equiv.Perm.mul_apply]
        by_cases hi0 : i = 0
        · subst hi0
          rw [hone rfl, Equiv.Perm.one_apply, Equiv.swap_apply_left]
          intro h
          have := congrArg Fin.val h
          simp at this
          omega
        · rw [Equiv.swap_apply_of_ne_of_ne
            (fun h => by have := congrArg Fin.val h; simp at this; omega)
            (fun h => by have := congrArg Fin.val h; simp at this; omega)]
          exact hmove (by omega) h0)
    ⟨rfl, hlen, 1, fun x => rfl, by simp, fun _ => rfl, fun h => absurd h (by omega)⟩
  refine ⟨s.1, τ, ?_, hslen, hτ, by rw [hsign, Nat.zero_add], ?_⟩
  · unfold shufflePass
    rw [show ((n : Int) - 1).toNat = n - 1 by omega, List.range_eq_range', hs]
    congr 1
    rw [Prod.ext_iff]
    exact ⟨rfl, by rw [hcount, Nat.zero_add]⟩
  · intro h0 h2
    exact hmove (by omega) h0

/-- Two positions of an array of distinct values that hold the same value are
the same position. -/
theorem nodup_getElem?_eq {l : List Int} (hl : l.Nodup) {i j : Nat} (hi : i < l.length)
    (h : l[i]? = l[j]?) : i = j := by
  rw [List.getElem?_eq_getElem hi] at h
  obtain ⟨hj, e⟩ := List.getElem?_eq_some.1 h.symm
  exact (hl.getElem_inj_iff).1 e.symm

/-- C17 as stated fails: the array `[0, 1]` is a permutation of the input
`[0, 1]` that no sequence of random values produces in a single pass; every
sequence gives `[1, 0]`. -/
theorem single_pass_misses_a_permutation :
    ([0, 1] : List Int).Perm [0, 1] ∧
    (∀ (rnd : Nat → Nat) (k : Nat), shufflePass rnd 2 ([0, 1], k) = some ([1, 0], k + 1)) ∧
    ¬ ∃ (rnd : Nat → Nat) (k k1 : Nat), shufflePass rnd 2 ([0, 1], k) = some ([0, 1], k1) := by
  have h : ∀ (rnd : Nat → Nat) (k : Nat),
      shufflePass rnd 2 ([0, 1], k) = some ([1, 0], k + 1) := by
    intro rnd k
    have hb : shuffleBody (rnd k) 2 [0, 1] 0 = some [1, 0] := by
      unfold shuffleBody
      simp
    have hr : List.range ((2 : Int) - 1).toNat = [0] := by decide
    unfold shufflePass
    rw [hr]
    simp [List.foldlM, hb]
  refine ⟨List.Perm.refl _, h, ?_⟩
  rintro ⟨rnd, k, k1, hk⟩
  rw [h rnd k] at hk
  have h1 : ([1, 0] : List Int) = [0, 1] := congrArg Prod.fst (Option.some.inj hk)
  exact absurd h1 (by decide)

/-- C17, amended: a single pass is not a uniform shuffle of all the
permutations.  For every `N ≥ 2`, every array of `N` distinct values and every
sequence of random values, the pass is defined, makes `N - 1` draws, and gives
a permutation of the input which is a product of `N - 1` exchanges of two
different positions, so of sign `(-1)^(N-1)`, and whose first entry is not the
first entry of the input: the input order is produced by no choice sequence.
For `N ≤ 1` the pass leaves the array as it is. -/
theorem single_pass_is_not_uniform (rnd : Nat → Nat) (idx : List Int) (k : Nat)
    (h2 : 2 ≤ idx.length) (hd : idx.Nodup) :
    (∃ out, shufflePass rnd (idx.length : Int) (idx, k) = some (out, k + (idx.length - 1)) ∧
      out.Perm idx ∧ out[0]? ≠ idx[0]? ∧ out ≠ idx ∧
      ∃ τ : Equiv.Perm (Fin idx.length), Equiv.Perm.sign τ = (-1) ^ (idx.length - 1) ∧
        ∀ x : Fin idx.length, out[x.val]? = idx[(τ x).val]?) ∧
    (∀ arr : List Int, arr.length ≤ 1 →
      shufflePass rnd (arr.length : Int) (arr, k) = some (arr, k)) := by
  constructor
  · obtain ⟨out, τ, hpass, hlen, hτ, hsign, hmove⟩ := shufflePass_sign rnd idx.length idx k rfl
    obtain ⟨s1, hs1, hperm⟩ := shufflePass_perm rnd idx (idx, k) (List.Perm.refl _)
    have hout : s1.1 = out := by
      rw [hpass] at hs1
      rw [← Option.some.inj hs1]
    rw [hout] at hperm
    have h0 : 0 < idx.length := by omega
    have hne : out[0]? ≠ idx[0]? := by
      intro h
      have h1 := hτ ⟨0, h0⟩
      rw [show ((⟨0, h0⟩ : Fin idx.length) : Nat) = 0 from rfl, h] at h1
      have h3 := nodup_getElem?_eq hd h0 h1
      exact hmove h0 h2 (Fin.ext h3.symm)
    exact ⟨out, hpass, hperm, hne, fun h => hne (by rw [h]), τ, hsign, hτ⟩
  · intro arr harr
    exact shufflePass_small rnd _ (by omega) _

/-- Witness of C17, amended: the array `[10, 20, 30]`. -/
theorem single_pass_is_not_uniform_witness :
    2 ≤ ([10, 20, 30] : List Int).length ∧ ([10, 20, 30] : List Int).Nodup ∧
    ∃ out, shufflePass (fun k => 7 * k + 3) (([10, 20, 30] : List Int).length : Int)
        ([10, 20, 30], 0) = some (out, 0 + (([10, 20, 30] : List Int).length - 1)) ∧
      out.Perm [10, 20, 30] ∧ out[0]? ≠ ([10, 20, 30] : List Int)[0]? ∧ out ≠ [10, 20, 30] ∧
      ∃ τ : Equiv.Perm (Fin ([10, 20, 30] : List Int).length),
        Equiv.Perm.sign τ = (-1) ^ (([10, 20, 30] : List Int).length - 1) ∧
        ∀ x : Fin ([10, 20, 30] : List Int).length,
          out[x.val]? = ([10, 20, 30] : List Int)[(τ x).val]? :=
  ⟨by decide, by decide,
    (single_pass_is_not_uniform (fun k => 7 * k + 3) [10, 20, 30] 0 (by decide) (by decide)).1⟩

/-- The sixteen passes of `shuffle` over an array of `n` entries: the call
makes `16 (n - 1)` calls of `lrand48` and rearranges the array by a permutation
of the positions of sign `1`. -/
theorem shuffle_sign (rnd : Nat → Nat) (n : Nat) (idx : List Int) (hlen : idx.length = n) :
    ∃ (out : List Int) (σ : Equiv.Perm (Fin n)),
      (List.range (1 <<< 4)).foldlM (fun s _ => shufflePass rnd (n : Int) s) (idx, 0)
        = some (out, 16 * (n - 1)) ∧
      out.length = n ∧ (∀ x : Fin n, out[x.val]? = idx[(σ x).val]?) ∧
      Equiv.Perm.sign σ = 1 := by
  obtain ⟨s, hs, hcount, hslen, σ, hσ, hsign⟩ := range_foldlM_inv
    (fun (s : List Int × Nat) (_ : Nat) => shufflePass rnd (n : Int) s)
    (fun m (s : List Int × Nat) => s.2 = m * (n - 1) ∧ s.1.length = n ∧
      ∃ σ : Equiv.Perm (Fin n), (∀ x : Fin n, s.1[x.val]? = idx[(σ x).val]?) ∧
        Equiv.Perm.sign σ = ((-1) ^ (n - 1)) ^ m)
    16 0 (idx, 0)
    (by
      intro m s _ _ ⟨hc, hl, σ, hσ, hsign⟩
      obtain ⟨out, τ, hpass, holen, hτ, hτsign, _⟩ := shufflePass_sign rnd n s.1 s.2 hl
      refine ⟨(out, s.2 + (n - 1)), hpass, ?_, holen, σ * τ, ?_, ?_⟩
      · show s.2 + (n - 1) = (m + 1) * (n - 1)
        rw [hc, Nat.succ_mul]
      · intro x
        show out[x.val]? = _
        rw [hτ x, hσ (τ x), Equiv.Perm.mul_apply]
      · rw [Equiv.Perm.sign_mul, hsign, hτsign, pow_succ])
    ⟨by simp, hlen, 1, fun x => rfl, by simp⟩
  have h16 : ((-1 : ℤˣ)) ^ 16 = 1 := by decide
  refine ⟨s.1, σ, ?_, hslen, hσ, ?_⟩
  · rw [show (1 <<< 4 : Nat) = 16 by decide, List.range_eq_range', hs]
    congr 1
    rw [Prod.ext_iff]
    exact ⟨rfl, by rw [hcount, Nat.zero_add]⟩
  · rw [hsign, Nat.zero_add, ← pow_mul, mul_comm, pow_mul, h16, one_pow]

/-! ## The exchanges made by shuffle -/

/-- An exchange keeps the length of the array. -/
theorem exchange_length (l : List Int) (i j : Nat) : (exchange l i j).length = l.length := by
  unfold exchange
  split <;> simp

/-- A list of exchanges keeps the length of the array. -/
theorem applyExchanges_length (es : List (Nat × Nat)) :
    ∀ l : List Int, (applyExchanges es l).length = l.length := by
  induction es with
  | nil => intro l; rfl
  | cons e es ih =>
    intro l
    show (applyExchanges es (exchange l e.1 e.2)).length = l.length
    rw [ih, exchange_length]

/-- Exchanges made one list after the other. -/
theorem applyExchanges_append (es fs : List (Nat × Nat)) (l : List Int) :
    applyExchanges (es ++ fs) l = applyExchanges fs (applyExchanges es l) := by
  unfold applyExchanges
  rw [List.foldl_append]

/-- A step of `shuffle` whose counter `i` is below `n - 1` is the exchange of
the position `i` with its partner. -/
theorem shuffleBody_exchange (r n : Nat) (idx : List Int) (i : Nat)
    (hn : idx.length = n) (hi : i + 1 < n) :
    shuffleBody r (n : Int) idx i = some (exchange idx i (partner r n i)) := by
  subst hn
  have hd : (idx.length : Int) - ((i : Int) + 1) = ((idx.length - (i + 1) : Nat) : Int) := by omega
  have hpos : 0 < idx.length - (i + 1) := by omega
  have hlt : r % (idx.length - (i + 1)) < idx.length - (i + 1) := Nat.mod_lt _ hpos
  have hii : ((i : Int) + 1) + (r : Int).tmod ((idx.length : Int) - ((i : Int) + 1))
      = ((i + 1 + r % (idx.length - (i + 1)) : Nat) : Int) := by
    rw [hd, Int.tmod_eq_emod (Int.natCast_nonneg _) (Int.natCast_nonneg _)]
    push_cast
    rfl
  unfold shuffleBody exchange partner
  simp only [hii]
  have hne : ¬ ((idx.length : Int) - ((i : Int) + 1) = 0) := by omega
  have hnn : ¬ (((i + 1 + r % (idx.length - (i + 1)) : Nat) : Int) < 0) := by omega
  simp only [hne, hnn, if_false, Int.toNat_ofNat]
  rw [List.getElem?_eq_getElem (by omega : i < idx.length),
    List.getElem?_eq_getElem (by omega : i + 1 + r % (idx.length - (i + 1)) < idx.length)]

/-- One pass of `shuffle` over an array of `n` entries makes the `n - 1`
exchanges of `passExchanges`, one after the other, with one call of `lrand48`
each. -/
theorem shufflePass_exchanges (rnd : Nat → Nat) (n : Nat) (cur : List Int) (k : Nat)
    (hlen : cur.length = n) :
    shufflePass rnd (n : Int) (cur, k)
      = some (applyExchanges (passExchanges rnd n k) cur, k + (n - 1)) := by
  obtain ⟨s, hs, hinv⟩ := range_foldlM_inv
    (fun (s : List Int × Nat) i =>
      (shuffleBody (rnd s.2) (n : Int) s.1 i).map (fun a => (a, s.2 + 1)))
    (fun i (s : List Int × Nat) =>
      s = (applyExchanges ((List.range i).map (fun i => (i, partner (rnd (k + i)) n i))) cur,
        k + i))
    (n - 1) 0 (cur, k)
    (by
      intro i s _ hi hsi
      subst hsi
      refine ⟨_, ?_, rfl⟩
      show Option.map _ (shuffleBody (rnd (k + i)) (n : Int) _ i) = _
      rw [shuffleBody_exchange (rnd (k + i)) n _ i
        (by rw [applyExchanges_length, hlen]) (by omega)]
      rw [List.range_succ, List.map_append, applyExchanges_append]
      rfl)
    rfl
  unfold shufflePass
  rw [show ((n : Int) - 1).toNat = n - 1 by omega, List.range_eq_range', hs, hinv, Nat.zero_add]
  rfl

/-- The first `p` passes of `shuffle` over an array of `n` entries make the
exchanges of `passesExchanges`, with `p (n - 1)` calls of `lrand48`. -/
theorem shufflePasses_exchanges (rnd : Nat → Nat) (n : Nat) (idx : List Int)
    (hlen : idx.length = n) (p : Nat) :
    (List.range p).foldlM (fun s _ => shufflePass rnd (n : Int) s) (idx, 0)
      = some (applyExchanges (passesExchanges rnd n p) idx, p * (n - 1)) := by
  obtain ⟨s, hs, hinv⟩ := range_foldlM_inv
    (fun (s : List Int × Nat) (_ : Nat) => shufflePass rnd (n : Int) s)
    (fun m (s : List Int × Nat) =>
      s = (applyExchanges (passesExchanges rnd n m) idx, m * (n - 1)))
    p 0 (idx, 0)
    (by
      intro m s _ _ hsm
      subst hsm
      refine ⟨_, shufflePass_exchanges rnd n _ _ (by rw [applyExchanges_length, hlen]), ?_⟩
      show (_, _) = (applyExchanges (passesExchanges rnd n (m + 1)) idx, (m + 1) * (n - 1))
      unfold passesExchanges
      rw [List.range_succ, List.flatMap_append, applyExchanges_append, Nat.succ_mul]
      simp [List.flatMap])
    (by simp [passesExchanges, applyExchanges])
  rw [List.range_eq_range', hs, hinv, Nat.zero_add]

/-- Every exchange of a pass over `n` entries is of two different positions
`i < j` of the array, and a pass has `n - 1` of them. -/
theorem passExchanges_spec (rnd : Nat → Nat) (n k : Nat) :
    (passExchanges rnd n k).length = n - 1 ∧
    ∀ e ∈ passExchanges rnd n k, e.1 < e.2 ∧ e.2 < n := by
  unfold passExchanges
  refine ⟨by simp, ?_⟩
  intro e he
  rw [List.mem_map] at he
  obtain ⟨i, hi, rfl⟩ := he
  rw [List.mem_range] at hi
  have hpos : 0 < n - (i + 1) := by omega
  have hlt : rnd (k + i) % (n - (i + 1)) < n - (i + 1) := Nat.mod_lt _ hpos
  unfold partner
  constructor <;> simp only [] <;> omega

/-- Every exchange of the first `p` passes over `n` entries is of two different
positions `i < j` of the array, and `p` passes have `p (n - 1)` of them. -/
theorem passesExchanges_spec (rnd : Nat → Nat) (n p : Nat) :
    (passesExchanges rnd n p).length = p * (n - 1) ∧
    ∀ e ∈ passesExchanges rnd n p, e.1 < e.2 ∧ e.2 < n := by
  unfold passesExchanges
  constructor
  · induction p with
    | zero => simp
    | succ p ih =>
      rw [List.range_succ, List.flatMap_append, List.length_append, ih, Nat.succ_mul]
      simp [List.flatMap, (passExchanges_spec rnd n _).1]
  · intro e he
    rw [List.mem_flatMap] at he
    obtain ⟨q, _, hq⟩ := he
    exact (passExchanges_spec rnd n _).2 e hq

/-- The entries after a list of exchanges of positions inside the array are
the entries of the array at the positions given by the product of the
transpositions, and this product has the sign `(-1)^m` for `m` exchanges of two
different positions. -/
theorem applyExchanges_perm (n : Nat) (es : List (Nat × Nat))
    (hes : ∀ e ∈ es, e.1 < e.2 ∧ e.2 < n) :
    ∀ cur : List Int, cur.length = n →
      (∀ x : Fin n, (applyExchanges es cur)[x.val]? = cur[(((es.map (swapOf n)).prod) x).val]?) ∧
      Equiv.Perm.sign ((es.map (swapOf n)).prod) = (-1) ^ es.length := by
  induction es with
  | nil =>
    intro cur _
    exact ⟨fun x => rfl, by simp⟩
  | cons e es ih =>
    intro cur hcur
    obtain ⟨h12, h2n⟩ := hes e (List.mem_cons_self _ _)
    have h1n : e.1 < n := by omega
    have hsw : swapOf n e = Equiv.swap ⟨e.1, h1n⟩ ⟨e.2, h2n⟩ := by
      unfold swapOf
      rw [dif_pos ⟨h1n, h2n⟩]
    have hex : exchange cur e.1 e.2 = (cur.set e.1 (cur.get ⟨e.2, by omega⟩)).set e.2
        (cur.get ⟨e.1, by omega⟩) := by
      unfold exchange
      rw [List.getElem?_eq_getElem (by omega : e.1 < cur.length),
        List.getElem?_eq_getElem (by omega : e.2 < cur.length)]
      rfl
    obtain ⟨ih1, ih2⟩ := ih (fun f hf => hes f (List.mem_cons_of_mem _ hf))
      (exchange cur e.1 e.2) (by rw [exchange_length, hcur])
    constructor
    · intro x
      show (applyExchanges es (exchange cur e.1 e.2))[x.val]? = _
      rw [ih1 x, hex]
      have := getElem?_exchange cur e.1 e.2 ((es.map (swapOf n)).prod x).val (by omega) (by omega)
      simp only [List.get_eq_getElem]
      rw [this, List.map_cons, List.prod_cons, Equiv.Perm.mul_apply, hsw,
        swap_val n e.1 e.2 h1n h2n]
    · rw [List.map_cons, List.prod_cons, Equiv.Perm.sign_mul, ih2, hsw, Equiv.Perm.sign_swap
        (fun h => by have := congrArg Fin.val h; simp at this; omega), List.length_cons, pow_succ,
        mul_comm]


/-- C18: for every `n ≥ 1`, every array of `n` distinct values and every
sequence of random values, `shuffle` runs exactly 16 passes.  Each pass makes
exactly the `n - 1` exchanges of `passExchanges`, one call of `lrand48` each,
and each of them exchanges two different positions `i < j` of the array: the
step `i` exchanges the position `i` with its partner.  The output is the input
after the `16 (n - 1)` exchanges of the sixteen passes; it is the input
rearranged by the product of these transpositions, a permutation of the
positions of sign `1`, and this is the only permutation of the positions that
rearranges the input into the output; for `n = 2` the output is the input. -/
theorem shuffle_is_even_permutation (rnd : Nat → Nat) (idx : List Int) (n : Nat)
    (hlen : idx.length = n) (h1 : 1 ≤ n) (hd : idx.Nodup) :
    ∃ out, shuffle rnd idx (n : Int) = some out ∧
      (List.range (1 <<< 4)).length = 16 ∧
      (List.range (1 <<< 4)).foldlM (fun s _ => shufflePass rnd (n : Int) s) (idx, 0)
        = some (out, 16 * (n - 1)) ∧
      (∀ p : Nat, (List.range p).foldlM (fun s _ => shufflePass rnd (n : Int) s) (idx, 0)
        = some (applyExchanges (passesExchanges rnd n p) idx, p * (n - 1))) ∧
      (∀ (cur : List Int) (k : Nat), cur.length = n →
        shufflePass rnd (n : Int) (cur, k)
          = some (applyExchanges (passExchanges rnd n k) cur, k + (n - 1)) ∧
        (passExchanges rnd n k).length = n - 1 ∧
        ∀ e ∈ passExchanges rnd n k, e.1 < e.2 ∧ e.2 < n) ∧
      (∀ (r : Nat) (cur : List Int) (i : Nat), cur.length = n → i + 1 < n →
        shuffleBody r (n : Int) cur i = some (exchange cur i (partner r n i)) ∧
        ∃ j, ∃ (_ : i < j) (hj : j < cur.length),
          shuffleBody r (n : Int) cur i = some ((cur.set i cur[j]).set j (cur[i]))) ∧
      out = applyExchanges (passesExchanges rnd n 16) idx ∧
      (passesExchanges rnd n 16).length = 16 * (n - 1) ∧
      (∀ e ∈ passesExchanges rnd n 16, e.1 < e.2 ∧ e.2 < n) ∧
      (∃ σ : Equiv.Perm (Fin n), σ = ((passesExchanges rnd n 16).map (swapOf n)).prod ∧
        Equiv.Perm.sign σ = 1 ∧
        (∀ x : Fin n, out[x.val]? = idx[(σ x).val]?) ∧
        ∀ σ1 : Equiv.Perm (Fin n), (∀ x : Fin n, out[x.val]? = idx[(σ1 x).val]?) → σ1 = σ) ∧
      (n = 2 → out = idx) := by
  have hfold := shufflePasses_exchanges rnd n idx hlen
  have hspec := passesExchanges_spec rnd n 16
  obtain ⟨hσ, hsign0⟩ := applyExchanges_perm n (passesExchanges rnd n 16) hspec.2 idx hlen
  have h16 : ∀ m : Nat, ((-1 : ℤˣ)) ^ (16 * m) = 1 := by
    intro m
    rw [pow_mul]
    have : ((-1 : ℤˣ)) ^ 16 = 1 := by decide
    rw [this, one_pow]
  have hsign : Equiv.Perm.sign (((passesExchanges rnd n 16).map (swapOf n)).prod) = 1 := by
    rw [hsign0, hspec.1, h16]
  have huniq : ∀ σ1 : Equiv.Perm (Fin n),
      (∀ x : Fin n, (applyExchanges (passesExchanges rnd n 16) idx)[x.val]? = idx[(σ1 x).val]?) →
        σ1 = ((passesExchanges rnd n 16).map (swapOf n)).prod := by
    intro σ1 h1
    apply Equiv.ext
    intro x
    apply Fin.ext
    exact nodup_getElem?_eq hd (by rw [hlen]; exact (σ1 x).isLt) ((h1 x).symm.trans (hσ x))
  have h16r : (1 <<< 4 : Nat) = 16 := by decide
  refine ⟨applyExchanges (passesExchanges rnd n 16) idx, ?_, by decide, ?_, hfold, ?_, ?_, rfl,
    hspec.1, hspec.2, ⟨_, rfl, hsign, hσ, huniq⟩, ?_⟩
  · unfold shuffle
    rw [h16r, hfold 16]
    rfl
  · rw [h16r, hfold 16]
  · intro cur k hcur
    exact ⟨shufflePass_exchanges rnd n cur k hcur, passExchanges_spec rnd n k⟩
  · intro r cur i hcur hi
    exact ⟨shuffleBody_exchange r n cur i hcur hi,
      shuffleBody_eq r (n : Int) cur i (by rw [hcur]) (by omega)⟩
  · intro h2
    subst h2
    have hkey : ∀ τ : Equiv.Perm (Fin 2), Equiv.Perm.sign τ = 1 → τ = 1 := by decide
    have hone := hkey _ hsign
    apply List.ext_getElem?
    intro x
    by_cases hx : x < 2
    · have := hσ ⟨x, hx⟩
      rw [hone] at this
      exact this
    · rw [List.getElem?_eq_none (by rw [applyExchanges_length]; omega),
        List.getElem?_eq_none (by omega)]

/-- Witness of C18: the array `[10, 20, 30]`; the first pass makes the two
exchanges `(0, 2)` and `(1, 2)`, and the sixteen passes rearrange the array into
`[30, 10, 20]`. -/
theorem shuffle_is_even_permutation_witness :
    ([10, 20, 30] : List Int).length = 3 ∧ 1 ≤ 3 ∧ ([10, 20, 30] : List Int).Nodup ∧
    shuffle (fun k => 7 * k + 3) [10, 20, 30] ((3 : Nat) : Int) = some [30, 10, 20] ∧
    passExchanges (fun k => 7 * k + 3) 3 0 = [(0, 2), (1, 2)] ∧
    shufflePass (fun k => 7 * k + 3) ((3 : Nat) : Int) ([10, 20, 30], 0)
      = some ([30, 10, 20], 2) := by
  obtain ⟨out, h, _, _, _, hpass, _, hout, _⟩ :=
    shuffle_is_even_permutation (fun k => 7 * k + 3) [10, 20, 30] 3 rfl (by decide) (by decide)
  have e1 : applyExchanges (passesExchanges (fun k => 7 * k + 3) 3 16) [10, 20, 30]
      = [30, 10, 20] := by
    set_option maxRecDepth 100000 in decide
  have e2 : applyExchanges (passExchanges (fun k => 7 * k + 3) 3 0) [10, 20, 30]
      = [30, 10, 20] := by decide
  rw [hout, e1] at h
  refine ⟨rfl, by decide, by decide, h, by decide, ?_⟩
  rw [(hpass [10, 20, 30] 0 rfl).1, e2]

end Occupy
